import Mathlib

/-!
# lzset: the skip-list engine of `skiplist.c`

A shallow embedding of the skip list of `src/skiplist.c` / `src/skiplist.h`, and
of the range functions of the Lua binding `src/lzset.c`.

* Memory is a map from addresses (`Nat`) to nodes; a pointer is an `Option Nat`
  (`none` is `NULL`).  `malloc` hands out the fresh address `brk`; `free` is
  not modelled (a freed node keeps its address and is never reached again).
* Scores are `double` in the source.  The code only ever compares scores
  (`<`, `==`, `>`, `<=`, `>=`); it never does arithmetic on them.  A score is
  a number, kept by its order as an integer, or NaN, which every comparison
  of C answers with false.
* `unsigned int` fields (`span`, the `rank[]` array of `skiplistInsert`) are
  natural numbers reduced modulo `2^32`; `unsigned long` accumulators are
  reduced modulo `2^64`.  `length` counts live nodes and is kept as a plain
  natural number.
* The result of `skiplistRandomLevel()` is an argument (`level`) of the
  operations that draw one; the function itself is modelled on the sequence of
  the values that `random()` returns.
* `while` loops take fuel and return `none` when it runs out; the operations
  use `brk` (the number of addresses ever allocated) as fuel.
* Calls of the releaser `sl->release` and of the callback of
  `skiplistDeleteRangeByRank` are recorded in `effects`.
* A binding function takes its Lua arguments as numbers and returns the Lua
  table it builds: the range query by rank as the list of the values stored at
  the indices `1, 2, ...`, the range query by score as the list of its
  assignments (index and value).  The `int` that bounds the loop of the range
  query by rank is converted from `unsigned long` as the usual compilers do
  (two's complement), and an `int` incremented past `INT_MAX` wraps around.
* The comparator of the string binding takes the C library function `memcmp`
  as a parameter, constrained by what the C standard says of it.
-/

namespace Lzset

variable {α : Type}

/-- The constant `SKIPLIST_MAXLEVEL` of `skiplist.h`. -/
def SKIPLIST_MAXLEVEL : Nat := 32

/-- Modulus of `unsigned int`. -/
def UINT_MOD : Nat := 4294967296

/-- Modulus of `unsigned long`. -/
def ULONG_MOD : Nat := 18446744073709551616

/-- Addition of `unsigned int` values. -/
def u32add (a b : Nat) : Nat := (a + b) % 4294967296

/-- Subtraction of `unsigned int` values (wraps around). -/
def u32sub (a b : Nat) : Nat := (a % 4294967296 + (4294967296 - b % 4294967296)) % 4294967296

/-- A `double`, the type of the scores.  The code stores scores and compares
them (`<`, `<=`, `==`, `>`, `>=`); it never computes with them.  A score is a
number or NaN.  The numbers, the two infinities included, are kept by their
order alone, as integers: every finite set of them has the order of a set of
integers.  NaN is a value like the others: `luaL_checknumber` passes it on. -/
inductive double where
  | num (v : Int)
  | nan

deriving instance DecidableEq for double

/-- The C comparison `a < b` of two `double`: false when an operand is NaN. -/
def double.lt : double → double → Bool
  | double.num a, double.num b => decide (a < b)
  | _, _ => false

/-- The C comparison `a <= b` of two `double`: false when an operand is NaN. -/
def double.le : double → double → Bool
  | double.num a, double.num b => decide (a ≤ b)
  | _, _ => false

/-- The C comparison `a == b` of two `double`: false when an operand is NaN,
also when both are. -/
def double.eq : double → double → Bool
  | double.num a, double.num b => decide (a = b)
  | _, _ => false

/-- The order `<` of C on `double`; `a > b` is `b < a`. -/
instance : LT double := ⟨fun a b => double.lt a b = true⟩

/-- The order `<=` of C on `double`; `a >= b` is `b <= a`. -/
instance : LE double := ⟨fun a b => double.le a b = true⟩

instance (a b : double) : Decidable (a < b) :=
  inferInstanceAs (Decidable (double.lt a b = true))

instance (a b : double) : Decidable (a ≤ b) :=
  inferInstanceAs (Decidable (double.le a b = true))

/-- An integer read as a `double`. -/
instance : Coe Int double := ⟨double.num⟩

instance (n : Nat) : OfNat double n := ⟨double.num (n : Int)⟩

/-- The `struct skiplistLevel` of `skiplist.h`. -/
structure skiplistLevel where
  forward : Option Nat
  span : Nat

/-- The `struct skiplistNode` of `skiplist.h`; `level` is the flexible array. -/
structure skiplistNode (α : Type) where
  obj : Option α
  score : double
  backward : Option Nat
  level : Nat → skiplistLevel

/-- A call of the releaser (`sl->release(obj)`) or of the per-node callback
(`cb(ctx, obj)`). -/
inductive Effect (α : Type) where
  | released (obj : Option α)
  | called (obj : Option α)

deriving instance DecidableEq for Effect

/-- The `struct skiplist` of `skiplist.h`, together with the memory its
pointers refer to (`mem`, `brk`) and the log of releaser and callback calls. -/
structure skiplist (α : Type) where
  mem : Nat → skiplistNode α
  brk : Nat
  header : Nat
  tail : Option Nat
  compare : α → α → Int
  release : Bool
  length : Nat
  level : Nat
  effects : List (Effect α)

/-- Reads `x->level[i].forward`. -/
def skiplist.forward (sl : skiplist α) (x i : Nat) : Option Nat :=
  ((sl.mem x).level i).forward

/-- Reads `x->level[i].span`. -/
def skiplist.span (sl : skiplist α) (x i : Nat) : Nat :=
  ((sl.mem x).level i).span

/-- Writes `x->level[i].forward = f`. -/
def skiplist.setForward (sl : skiplist α) (x i : Nat) (f : Option Nat) : skiplist α :=
  let lv : skiplistLevel := { forward := f, span := ((sl.mem x).level i).span }
  let n : skiplistNode α := { sl.mem x with level := Function.update (sl.mem x).level i lv }
  { sl with mem := Function.update sl.mem x n }

/-- Writes `x->level[i].span = s`. -/
def skiplist.setSpan (sl : skiplist α) (x i : Nat) (s : Nat) : skiplist α :=
  let lv : skiplistLevel := { forward := ((sl.mem x).level i).forward, span := s }
  let n : skiplistNode α := { sl.mem x with level := Function.update (sl.mem x).level i lv }
  { sl with mem := Function.update sl.mem x n }

/-- Writes `x->backward = b`. -/
def skiplist.setBackward (sl : skiplist α) (x : Nat) (b : Option Nat) : skiplist α :=
  { sl with mem := Function.update sl.mem x { sl.mem x with backward := b } }

/-- Writes `x->score = s`. -/
def skiplist.setScore (sl : skiplist α) (x : Nat) (s : double) : skiplist α :=
  { sl with mem := Function.update sl.mem x { sl.mem x with score := s } }

/-- Writes `x->obj = o`. -/
def skiplist.setObj (sl : skiplist α) (x : Nat) (o : Option α) : skiplist α :=
  { sl with mem := Function.update sl.mem x { sl.mem x with obj := o } }

/-- The function `skiplistCreateNode`: allocates a node at the fresh address
`brk` and stores `obj` and `score`; the other fields keep whatever the memory
held. -/
def skiplistCreateNode (sl : skiplist α) (score : double) (obj : Option α) :
    skiplist α × Nat :=
  ({ sl with
      mem := Function.update sl.mem sl.brk { sl.mem sl.brk with obj := obj, score := score },
      brk := sl.brk + 1 }, sl.brk)

/-- The function `skiplistInit`: the header is the node at address `0`, with
`SKIPLIST_MAXLEVEL` levels all set to `forward = NULL`, `span = 0`. -/
def skiplistInit (compare : α → α → Int) (release : Bool) : skiplist α :=
  { mem := fun _ => { obj := none, score := 0, backward := none,
                      level := fun _ => { forward := none, span := 0 } },
    brk := 1,
    header := 0,
    tail := none,
    compare := compare,
    release := release,
    length := 0,
    level := 1,
    effects := [] }

/-- The call `sl->compare(x->obj, obj)` for the payload pointer `x->obj` of a
node.  Only real nodes are ever compared, and their payload is never `NULL`;
the header (payload `NULL`) is never a forward target. -/
def objCompare (sl : skiplist α) (o : Option α) (obj : α) : Int :=
  match o with
  | some a => sl.compare a obj
  | none => 0

/-- Loop condition of `skiplistInsert`, `skiplistDelete` and
`skiplistUpdateScore` on the forward target `n`:
`n->score < score || (n->score == score && compare(n->obj, obj) < 0)`. -/
def keyBefore (sl : skiplist α) (score : double) (obj : α) (n : skiplistNode α) (_ : Nat) :
    Bool :=
  decide (n.score < score) ||
    (double.eq n.score score && decide (objCompare sl n.obj obj < 0))

/-- Loop condition of `skiplistGetRank` on the forward target `n`:
`n->score < score || (n->score == score && compare(n->obj, obj) <= 0)`. -/
def keyAtMost (sl : skiplist α) (score : double) (obj : α) (n : skiplistNode α) (_ : Nat) :
    Bool :=
  decide (n.score < score) ||
    (double.eq n.score score && decide (objCompare sl n.obj obj ≤ 0))

/-- One inner `while` loop of a descent, at level `i`:
`while (x->level[i].forward && cond) { acc += x->level[i].span; x = x->level[i].forward; }`.
The condition sees the forward target and the value `acc + span`; the
accumulator is reduced modulo `w`. -/
def advance (sl : skiplist α) (cond : skiplistNode α → Nat → Bool) (w i : Nat) :
    Nat → Nat × Nat → Option (Nat × Nat)
  | 0, _ => none
  | fuel + 1, (x, acc) =>
    match sl.forward x i with
    | none => some (x, acc)
    | some y =>
      if cond (sl.mem y) ((acc + sl.span x i) % w) then
        advance sl cond w i fuel (y, (acc + sl.span x i) % w)
      else some (x, acc)

/-- The descent `for (i = n-1; i >= 0; i--) { while ...; update[i] = x; }`
shared by `skiplistInsert`, `skiplistDelete`, `skiplistUpdateScore` and
`skiplistDeleteRangeByRank`.  The accumulator carried from one level to the
next is `rank[i]` in `skiplistInsert` and `traversed` in
`skiplistDeleteRangeByRank`; the two other functions have none and ignore it. -/
def descend (sl : skiplist α) (cond : skiplistNode α → Nat → Bool) (w : Nat) :
    Nat → Nat × Nat → (Nat → Nat) × (Nat → Nat) →
      Option ((Nat × Nat) × (Nat → Nat) × (Nat → Nat))
  | 0, s, ur => some (s, ur)
  | i + 1, s, (update, rank) =>
    match advance sl cond w i sl.brk s with
    | none => none
    | some (x, acc) =>
      descend sl cond w i (x, acc) (Function.update update i x, Function.update rank i acc)

/-- An ascending loop `for (i = lo; i < lo + n; i++) s = body i s`. -/
def forRange {σ : Type} (body : Nat → σ → σ) : Nat → Nat → σ → σ
  | _, 0, s => s
  | lo, n + 1, s => forRange body (lo + 1) n (body lo s)

/-- Body of the loop of `skiplistInsert` that runs when the new node is taller
than the list: `rank[i] = 0; update[i] = sl->header; update[i]->level[i].span = sl->length;`. -/
def insertRaise (i : Nat) (st : skiplist α × (Nat → Nat) × (Nat → Nat)) :
    skiplist α × (Nat → Nat) × (Nat → Nat) :=
  (st.1.setSpan st.1.header i (st.1.length % 4294967296),
   Function.update st.2.1 i st.1.header,
   Function.update st.2.2 i 0)

/-- Body of the splice loop of `skiplistInsert` at level `i`. -/
def insertLink (x : Nat) (update rank : Nat → Nat) (i : Nat) (sl : skiplist α) : skiplist α :=
  let sl1 := sl.setForward x i (sl.forward (update i) i)
  let sl2 := sl1.setForward (update i) i (some x)
  let sl3 := sl2.setSpan x i (u32sub (sl2.span (update i) i) (u32sub (rank 0) (rank i)))
  sl3.setSpan (update i) i (u32add (u32sub (rank 0) (rank i)) 1)

/-- Body of the loop `update[i]->level[i].span++` of `skiplistInsert`. -/
def insertBump (update : Nat → Nat) (i : Nat) (sl : skiplist α) : skiplist α :=
  sl.setSpan (update i) i (u32add (sl.span (update i) i) 1)

/-- The block `if (level > sl->level) { ... }` of `skiplistInsert`: the new
levels of the header get the span `sl->length` and become the predecessors. -/
def insertLevelUp (sl : skiplist α) (level : Nat) (update rank : Nat → Nat) :
    skiplist α × (Nat → Nat) × (Nat → Nat) :=
  if level > sl.level then
    let st1 := forRange insertRaise sl.level (level - sl.level) (sl, update, rank)
    ({ st1.1 with level := level }, st1.2)
  else (sl, update, rank)

/-- The part of `skiplistInsert` from `skiplistCreateNode` to the end: the new
node is linked in at its `level` levels, the spans above are incremented, the
backward pointers and the tail are set and the length is incremented.  The
result is the new list and the new node. -/
def insertSplice (sl : skiplist α) (score : double) (obj : α) (level : Nat)
    (update rank : Nat → Nat) : skiplist α × Nat :=
  let created := skiplistCreateNode sl score (some obj)
  let x := created.2
  let sl2 := forRange (insertLink x update rank) 0 level created.1
  let sl3 := forRange (insertBump update) level (sl2.level - level) sl2
  let sl4 := sl3.setBackward x (if update 0 = sl3.header then none else some (update 0))
  let sl5 :=
    match sl4.forward x 0 with
    | some y => sl4.setBackward y (some x)
    | none => { sl4 with tail := some x }
  ({ sl5 with length := sl5.length + 1 }, x)

/-- The function `skiplistInsert`; `level` is the value returned by
`skiplistRandomLevel()`.  The result is the new list and the returned
pointer (`none` is `NULL`, the duplicate signal). -/
def skiplistInsert (sl : skiplist α) (score : double) (obj : α) (level : Nat) :
    Option (skiplist α × Option Nat) :=
  match descend sl (keyBefore sl score obj) UINT_MOD sl.level (sl.header, 0)
      (fun _ => 0, fun _ => 0) with
  | none => none
  | some ((x, _), update, rank) =>
    let dup : Bool :=
      match sl.forward x 0 with
      | some y => decide (objCompare sl (sl.mem y).obj obj = 0)
      | none => false
    if dup then some (sl, none)
    else
      let st := insertLevelUp sl level update rank
      let r := insertSplice st.1 score obj level st.2.1 st.2.2
      some (r.1, some r.2)

/-- Body of the first loop of `skiplistDeleteNode` at level `i`. -/
def deleteUnlink (x : Nat) (update : Nat → Nat) (i : Nat) (sl : skiplist α) : skiplist α :=
  if sl.forward (update i) i = some x then
    (sl.setSpan (update i) i
      (u32add (sl.span (update i) i) (u32sub (sl.span x i) 1))).setForward
        (update i) i (sl.forward x i)
  else
    sl.setSpan (update i) i (u32sub (sl.span (update i) i) 1)

/-- The loop `while (sl->level > 1 && sl->header->level[sl->level-1].forward == NULL) sl->level--`
of `skiplistDeleteNode`, as a function of the current level. -/
def shrinkLevel (sl : skiplist α) : Nat → Nat
  | 0 => 0
  | 1 => 1
  | l + 2 => if sl.forward sl.header (l + 1) = none then shrinkLevel sl (l + 1) else l + 2

/-- The function `skiplistDeleteNode`. -/
def skiplistDeleteNode (sl : skiplist α) (x : Nat) (update : Nat → Nat) : skiplist α :=
  let sl1 := forRange (deleteUnlink x update) 0 sl.level sl
  let sl2 :=
    match sl1.forward x 0 with
    | some y => sl1.setBackward y (sl1.mem x).backward
    | none => { sl1 with tail := (sl1.mem x).backward }
  let sl3 := { sl2 with level := shrinkLevel sl2 sl2.level }
  { sl3 with length := sl3.length - 1 }

/-- The function `skiplistFreeNode`: calls the releaser on the payload when one
is configured. -/
def skiplistFreeNode (sl : skiplist α) (node : Nat) : skiplist α :=
  if sl.release then
    { sl with effects := sl.effects ++ [Effect.released (sl.mem node).obj] }
  else sl

/-- The function `skiplistDelete`; the Boolean is the returned `1` or `0`. -/
def skiplistDelete (sl : skiplist α) (score : double) (obj : α) :
    Option (skiplist α × Bool) :=
  match descend sl (keyBefore sl score obj) UINT_MOD sl.level (sl.header, 0)
      (fun _ => 0, fun _ => 0) with
  | none => none
  | some ((x, _), update, _) =>
    match sl.forward x 0 with
    | some y =>
      if objCompare sl (sl.mem y).obj obj = 0 then
        some (skiplistFreeNode (skiplistDeleteNode sl y update) y, true)
      else some (sl, false)
    | none => some (sl, false)

/-- The test of `skiplistUpdateScore` for the update in place:
`(x->backward == NULL || x->backward->score < newscore) &&
 (x->level[0].forward == NULL || x->level[0].forward->score > newscore)`. -/
def scoreFits (sl : skiplist α) (x : Nat) (newscore : double) : Bool :=
  (match (sl.mem x).backward with
    | none => true
    | some b => decide ((sl.mem b).score < newscore)) &&
  (match sl.forward x 0 with
    | none => true
    | some f => decide ((sl.mem f).score > newscore))

/-- The function `skiplistUpdateScore`; `level` is the value that
`skiplistRandomLevel()` returns to the inner `skiplistInsert`.  When the
descent ends in front of `NULL` the source dereferences it; the model has no
result there (`none`). -/
def skiplistUpdateScore (sl : skiplist α) (curscore : double) (obj : α) (newscore : double)
    (level : Nat) : Option (skiplist α × Option Nat) :=
  match descend sl (keyBefore sl curscore obj) UINT_MOD sl.level (sl.header, 0)
      (fun _ => 0, fun _ => 0) with
  | none => none
  | some ((x0, _), update, _) =>
    match sl.forward x0 0 with
    | none => none
    | some x =>
      if scoreFits sl x newscore then some (sl.setScore x newscore, some x)
      else
        let sl1 := skiplistDeleteNode sl x update
        match (sl1.mem x).obj with
        | none => none
        | some o =>
          match skiplistInsert sl1 newscore o level with
          | none => none
          | some (sl2, newnode) => some (sl2.setObj x none, newnode)

/-- The loop `while (x && traversed <= end) { ... }` of
`skiplistDeleteRangeByRank`; the state is the list, `traversed`, `x` and
`removed`. -/
def deleteRangeLoop (update : Nat → Nat) (stop : Nat) :
    Nat → skiplist α → Nat → Option Nat → Nat → Option (skiplist α × Nat)
  | 0, _, _, _, _ => none
  | _ + 1, sl, _, none, removed => some (sl, removed)
  | fuel + 1, sl, traversed, some x, removed =>
    if traversed ≤ stop then
      let next := sl.forward x 0
      let sl1 := skiplistDeleteNode sl x update
      let sl2 := { sl1 with effects := sl1.effects ++ [Effect.called (sl1.mem x).obj] }
      let sl3 := skiplistFreeNode sl2 x
      deleteRangeLoop update stop fuel sl3 ((traversed + 1) % 18446744073709551616) next
        ((removed + 1) % 18446744073709551616)
    else some (sl, removed)

/-- The function `skiplistDeleteRangeByRank` (`stop` is the parameter `end`);
the callback call `cb(ctx, x->obj)` is recorded in `effects`. -/
def skiplistDeleteRangeByRank (sl : skiplist α) (start stop : Nat) :
    Option (skiplist α × Nat) :=
  if start > sl.length ∨ stop < 1 then some (sl, 0)
  else
    match descend sl (fun _ r => decide (r < start)) ULONG_MOD sl.level (sl.header, 0)
        (fun _ => 0, fun _ => 0) with
    | none => none
    | some ((x, traversed), update, _) =>
      deleteRangeLoop update stop sl.brk sl ((traversed + 1) % 18446744073709551616)
        (sl.forward x 0) 0

/-- The `for` loop of `skiplistGetRank`, from level `n - 1` down to `0`. -/
def getRankLoop (sl : skiplist α) (score : double) (obj : α) :
    Nat → Nat × Nat → Option Nat
  | 0, _ => some 0
  | i + 1, s =>
    match advance sl (keyAtMost sl score obj) ULONG_MOD i sl.brk s with
    | none => none
    | some (x, rank) =>
      let hit : Bool :=
        match (sl.mem x).obj with
        | some o => decide (sl.compare o obj = 0)
        | none => false
      if hit then some rank else getRankLoop sl score obj i (x, rank)

/-- The function `skiplistGetRank`. -/
def skiplistGetRank (sl : skiplist α) (score : double) (obj : α) : Option Nat :=
  getRankLoop sl score obj sl.level (sl.header, 0)

/-- The `for` loop of `skiplistGetNodeByRank`, from level `n - 1` down to `0`. -/
def getNodeByRankLoop (sl : skiplist α) (rank : Nat) :
    Nat → Nat × Nat → Option (Option Nat)
  | 0, _ => some none
  | i + 1, s =>
    match advance sl (fun _ r => decide (r ≤ rank)) ULONG_MOD i sl.brk s with
    | none => none
    | some (x, traversed) =>
      if traversed = rank then some (some x)
      else getNodeByRankLoop sl rank i (x, traversed)

/-- The function `skiplistGetNodeByRank`. -/
def skiplistGetNodeByRank (sl : skiplist α) (rank : Nat) : Option (Option Nat) :=
  if rank = 0 ∨ rank > sl.length then some none
  else getNodeByRankLoop sl rank sl.level (sl.header, 0)

/-- The level-0 chain starting at the pointer `p`, as addresses. -/
def chainFrom (sl : skiplist α) : Nat → Option Nat → List Nat
  | 0, _ => []
  | _ + 1, none => []
  | fuel + 1, some x => x :: chainFrom sl fuel (sl.forward x 0)

/-- The nodes after the header on the level-0 chain, in order. -/
def skiplist.chain (sl : skiplist α) : List Nat :=
  chainFrom sl sl.brk (sl.forward sl.header 0)

/-- The (score, payload) pair stored in the node `x`. -/
def skiplist.entry (sl : skiplist α) (x : Nat) : Option (double × α) :=
  (sl.mem x).obj.map (fun o => ((sl.mem x).score, o))

/-- The level-0 sequence of (score, payload) pairs, as `skiplistIterate`
visits them. -/
def skiplist.toList (sl : skiplist α) : List (double × α) :=
  sl.chain.filterMap sl.entry

/-- The comparator of the integer binding, `lzset_int_compare`. -/
def lzset_int_compare (a b : Int) : Int :=
  if a < b then -1 else if a > b then 1 else 0

/-! ## The abstract view used to state and prove the properties -/

/-- A strict total order given by a `strcmp`-style comparator. -/
structure StrictTotal (cmp : α → α → Int) : Prop where
  eq_iff : ∀ a b, cmp a b = 0 ↔ a = b
  swap : ∀ a b, cmp a b < 0 ↔ 0 < cmp b a
  trans : ∀ a b c, cmp a b < 0 → cmp b c < 0 → cmp a c < 0

/-- The order of the list: ascending by score, then by the payload
comparator; the scores are compared as the code compares them (`<`, `==`). -/
def entryLt (cmp : α → α → Int) (p q : double × α) : Prop :=
  p.1 < q.1 ∨ (double.eq p.1 q.1 = true ∧ cmp p.2 q.2 < 0)

/-- The level-0 sequence is strictly ascending. -/
def Ascending (cmp : α → α → Int) (l : List (double × α)) : Prop :=
  l.Pairwise (entryLt cmp)

instance (cmp : α → α → Int) (p q : double × α) : Decidable (entryLt cmp p q) :=
  inferInstanceAs (Decidable (p.1 < q.1 ∨ (double.eq p.1 q.1 = true ∧ cmp p.2 q.2 < 0)))

instance (cmp : α → α → Int) (l : List (double × α)) : Decidable (Ascending cmp l) :=
  inferInstanceAs (Decidable (l.Pairwise (entryLt cmp)))

/-- A node of the chain as the levels see it: its address and the number of
levels it was allocated with. -/
structure Link where
  id : Nat
  height : Nat

/-- A node of the chain: address, number of levels, score (a number) and
payload. -/
structure ANode (α : Type) where
  id : Nat
  height : Nat
  score : Int
  obj : α

/-- The address and height of a node. -/
def ANode.link (a : ANode α) : Link := { id := a.id, height := a.height }

/-- The (score, payload) pair of a node. -/
def ANode.entry (a : ANode α) : double × α := (a.score, a.obj)

/-- The first node of `l` that has a level `i`. -/
def nextAt (i : Nat) : List Link → Option Nat
  | [] => none
  | a :: l => if i < a.height then some a.id else nextAt i l

/-- The number of level-0 steps to the first node of `l` that has a level `i`
(the length of `l` when there is none). -/
def distAt (i : Nat) : List Link → Nat
  | [] => 0
  | a :: l => if i < a.height then 1 else distAt i l + 1

/-- Every node of the list points, at each of its levels, to the next node
having that level, and its span (at the levels in use) is the distance to it,
or to the end of the list. -/
def LevelsOK (sl : skiplist α) : List Link → Prop
  | [] => True
  | a :: l =>
    (∀ i, i < a.height →
      sl.forward a.id i = nextAt i l ∧
      (i < sl.level → sl.span a.id i = distAt i l % 4294967296)) ∧
    LevelsOK sl l

/-- The backward pointers follow the chain in reverse, the first one being
`NULL`, and `tail` is the last node. -/
def BackOK (sl : skiplist α) : Option Nat → List Nat → Prop
  | prev, [] => sl.tail = prev
  | prev, x :: l => (sl.mem x).backward = prev ∧ BackOK sl (some x) l

/-- The header, seen as a node with all `SKIPLIST_MAXLEVEL` levels. -/
def headLink (sl : skiplist α) : Link := { id := sl.header, height := 32 }

/-- The representation invariant: the memory of `sl` holds exactly the chain
of nodes `A`, whose scores are numbers (none is NaN) and ascend. -/
structure Inv (sl : skiplist α) (A : List (ANode α)) : Prop where
  cmp_ok : StrictTotal sl.compare
  hdr_lt : sl.header < sl.brk
  ids_lt : ∀ a ∈ A, a.id < sl.brk
  nodup : (sl.header :: A.map ANode.id).Nodup
  heights : ∀ a ∈ A, 1 ≤ a.height ∧ a.height ≤ sl.level
  level_pos : 1 ≤ sl.level
  level_le : sl.level ≤ 32
  level_top : sl.level = 1 ∨ ∃ a ∈ A, sl.level ≤ a.height
  levels : LevelsOK sl (headLink sl :: A.map ANode.link)
  data : ∀ a ∈ A, (sl.mem a.id).obj = some a.obj ∧ (sl.mem a.id).score = a.score
  hdr_obj : (sl.mem sl.header).obj = none
  back : BackOK sl none (A.map ANode.id)
  length_eq : sl.length = A.length
  room : A.length < sl.brk
  sorted : Ascending sl.compare (A.map ANode.entry)

/-- The lists that the public mutating operations produce from
`skiplistInit` with a comparator that is a strict total order, the levels
drawn being between 1 and `SKIPLIST_MAXLEVEL` and the scores stored being
numbers (not NaN; a list that holds a NaN has lost its order).
`skiplistPopHead` and
`skiplistPopTail` are calls of `skiplistDelete`.  `skiplistUpdateScore` is
called where it has a result (in particular on every existing key).  Spans
are `unsigned int`, so a list holds fewer than `2^32` nodes (`skiplist.h`:
"Should be enough for 2^32 elements"): an insertion never takes the length to
`2^32`. -/
inductive Reachable : skiplist α → Prop
  | init (cmp : α → α → Int) (rel : Bool) :
      StrictTotal cmp → Reachable (skiplistInit cmp rel)
  | insert (sl sl2 : skiplist α) (score : double) (obj : α) (level : Nat) (r : Option Nat) :
      Reachable sl → 1 ≤ level → level ≤ SKIPLIST_MAXLEVEL →
      skiplistInsert sl score obj level = some (sl2, r) → sl2.length < UINT_MOD →
      score ≠ double.nan → Reachable sl2
  | delete (sl sl2 : skiplist α) (score : double) (obj : α) (r : Bool) :
      Reachable sl → skiplistDelete sl score obj = some (sl2, r) → Reachable sl2
  | update (sl sl2 : skiplist α) (cur : double) (obj : α) (new : double) (level : Nat)
      (r : Option Nat) :
      Reachable sl → 1 ≤ level → level ≤ SKIPLIST_MAXLEVEL →
      skiplistUpdateScore sl cur obj new level = some (sl2, r) →
      new ≠ double.nan → Reachable sl2
  | deleteRange (sl sl2 : skiplist α) (start stop r : Nat) :
      Reachable sl →
      skiplistDeleteRangeByRank sl start stop = some (sl2, r) → Reachable sl2

/-- What a descent records at level `i`: `update i` is the last node of `F`
having a level `i`, and `rank i` is (the image under `ρ` of) the number of
nodes before it. -/
def IsPred (F : List Link) (ρ : Nat → Nat) (update rank : Nat → Nat) (i : Nat) : Prop :=
  ∃ l1 b l2, F = l1 ++ b :: l2 ∧ i < b.height ∧ (∀ c ∈ l2, c.height ≤ i) ∧
    update i = b.id ∧ rank i = ρ l1.length

/-- The last address of a chain, or `prev` when the chain is empty. -/
def lastId (prev : Option Nat) : List Nat → Option Nat
  | [] => prev
  | x :: l => lastId (some x) l

/-- The state `t` differs from `s` at most in forward pointers and spans. -/
structure SameData (s t : skiplist α) : Prop where
  header : t.header = s.header
  brk : t.brk = s.brk
  compare : t.compare = s.compare
  release : t.release = s.release
  effects : t.effects = s.effects
  tail : t.tail = s.tail
  level : t.level = s.level
  length : t.length = s.length
  obj : ∀ y, (t.mem y).obj = (s.mem y).obj
  score : ∀ y, (t.mem y).score = (s.mem y).score
  backward : ∀ y, (t.mem y).backward = (s.mem y).backward

/-- The effects of removing the nodes `l` by `skiplistDeleteRangeByRank`: for
each node the callback and then, when a releaser is configured, the releaser. -/
def rangeEffects (rel : Bool) : List (ANode α) → List (Effect α)
  | [] => []
  | y :: l =>
    Effect.called (some y.obj) ::
      ((if rel then [Effect.released (some y.obj)] else []) ++ rangeEffects rel l)

/-! ## Lookups by payload and by score, and the range queries of the binding -/

/-- The function `skiplistFind`.  Its descent keeps no `update` array (the one
of `descend` is dropped); the loop condition is
`compare(x->level[i].forward->obj, obj) < 0`. -/
def skiplistFind (sl : skiplist α) (obj : α) : Option (Option Nat) :=
  match descend sl (fun n _ => decide (objCompare sl n.obj obj < 0)) UINT_MOD sl.level
      (sl.header, 0) (fun _ => 0, fun _ => 0) with
  | none => none
  | some ((x, _), _, _) =>
    match sl.forward x 0 with
    | some y => if objCompare sl (sl.mem y).obj obj = 0 then some (some y) else some none
    | none => some none

/-- The function `skiplistValueGteMin`: `minex ? (value > min) : (value >= min)`. -/
def skiplistValueGteMin (value min : double) (minex : Bool) : Bool :=
  if minex then decide (value > min) else decide (value ≥ min)

/-- The function `skiplistValueLteMax`: `maxex ? (value < max) : (value <= max)`. -/
def skiplistValueLteMax (value max : double) (maxex : Bool) : Bool :=
  if maxex then decide (value < max) else decide (value ≤ max)

/-- The function `skiplistGetScoreRank`; `rank` is an `unsigned long`. -/
def skiplistGetScoreRank (sl : skiplist α) (score : double) (ex : Bool) : Option Nat :=
  match descend sl (fun n _ => skiplistValueLteMax n.score score ex) ULONG_MOD sl.level
      (sl.header, 0) (fun _ => 0, fun _ => 0) with
  | none => none
  | some ((_, rank), _, _) => some rank

/-- The function `skiplistIsInRange`. -/
def skiplistIsInRange (sl : skiplist α) (min max : double) (minex maxex : Bool) : Bool :=
  if decide (min > max) || (double.eq min max && (minex || maxex)) then false
  else
    match sl.tail with
    | none => false
    | some t =>
      if !skiplistValueGteMin (sl.mem t).score min minex then false
      else
        match sl.forward sl.header 0 with
        | none => false
        | some h => if !skiplistValueLteMax (sl.mem h).score max maxex then false else true

/-- The function `skiplistFirstInRange`.  After the descent the source reads
`x->level[0].forward->score` without a test for `NULL`; the model has no
result there (`none`). -/
def skiplistFirstInRange (sl : skiplist α) (min max : double) (minex maxex : Bool) :
    Option (Option Nat) :=
  if !skiplistIsInRange sl min max minex maxex then some none
  else
    match descend sl (fun n _ => !skiplistValueGteMin n.score min minex) UINT_MOD sl.level
        (sl.header, 0) (fun _ => 0, fun _ => 0) with
    | none => none
    | some ((x, _), _, _) =>
      match sl.forward x 0 with
      | none => none
      | some y =>
        if !skiplistValueLteMax (sl.mem y).score max maxex then some none else some (some y)

/-- The function `skiplistLastInRange`. -/
def skiplistLastInRange (sl : skiplist α) (min max : double) (minex maxex : Bool) :
    Option (Option Nat) :=
  if !skiplistIsInRange sl min max minex maxex then some none
  else
    match descend sl (fun n _ => skiplistValueLteMax n.score max maxex) UINT_MOD sl.level
        (sl.header, 0) (fun _ => 0, fun _ => 0) with
    | none => none
    | some ((x, _), _, _) =>
      if !skiplistValueGteMin (sl.mem x).score min minex then some none else some (some x)

/-- The functions `lzset_int_delete_range_by_rank` and
`lzset_string_delete_range_by_rank` of `lzset.c`: the two Lua integers are
converted to `unsigned int`, swapped when `start > end`, and passed to
`skiplistDeleteRangeByRank`. -/
def lzset_delete_range_by_rank (sl : skiplist α) (start stop : Nat) :
    Option (skiplist α × Nat) :=
  if start % 4294967296 > stop % 4294967296 then
    skiplistDeleteRangeByRank sl (stop % 4294967296) (start % 4294967296)
  else skiplistDeleteRangeByRank sl (start % 4294967296) (stop % 4294967296)

/-- Conversion of an `unsigned long` value to `int` (two's complement). -/
def toInt32 (v : Nat) : Int :=
  if v % 4294967296 < 2147483648 then ((v % 4294967296 : Nat) : Int)
  else ((v % 4294967296 : Nat) : Int) - 4294967296

/-- The increment of an `int` (`++n`, `level += 1`).  Past `INT_MAX` the C
standard leaves the result undefined; the compiled code wraps around to
`INT_MIN`, and so does the model. -/
def intIncr (v : Int) : Int :=
  if v < 2147483647 then v + 1 else -2147483648

/-- The loop `while (node && n < span) { push node->obj; ++n; node = reverse ?
node->backward : node->level[0].forward; }` of `lzset_int_get_range_by_rank`
and `lzset_string_get_range_by_rank`.  The Lua table under construction is the
list of the values set at the indices `1, 2, ...`; reading the payload through
a `NULL` pointer has no result. -/
def rangeByRankLoop (sl : skiplist α) (reverse : Bool) (span : Int) :
    Nat → Option Nat → Int → List α → Option (List α)
  | 0, _, _, _ => none
  | _ + 1, none, _, acc => some acc
  | fuel + 1, some x, n, acc =>
    if n < span then
      match (sl.mem x).obj with
      | none => none
      | some o =>
        rangeByRankLoop sl reverse span fuel
          (if reverse then (sl.mem x).backward else sl.forward x 0) (n + 1) (acc ++ [o])
    else some acc

/-- The functions `lzset_int_get_range_by_rank` and
`lzset_string_get_range_by_rank` of `lzset.c` (they differ in how the payload
is pushed): `r1` and `r2` are `unsigned long`, `span` is an `int`. -/
def lzset_get_range_by_rank (sl : skiplist α) (r1 r2 : Nat) : Option (List α) :=
  let reverse : Bool := !decide (r1 ≤ r2)
  let span : Int :=
    if r1 ≤ r2 then toInt32 ((r2 - r1 + 1) % 18446744073709551616)
    else toInt32 ((r1 - r2 + 1) % 18446744073709551616)
  match skiplistGetNodeByRank sl r1 with
  | none => none
  | some node => rangeByRankLoop sl reverse span sl.brk node 0 []

/-- The loop `while (node) { if (reverse) { if (node->score < s2) break; } else
if (node->score > s2) break; push node->obj; node = reverse ? node->backward :
node->level[0].forward; }` of `lzset_int_get_range_by_score` and
`lzset_string_get_range_by_score`, with its counter `int n`.  The Lua table
under construction is the list of the assignments `t[++n] = value` made by
`lua_rawseti`, each an index and a value, in the order they are made; reading
the payload through a `NULL` pointer has no result. -/
def rangeByScoreLoop (sl : skiplist α) (reverse : Bool) (s2 : double) :
    Nat → Option Nat → Int → List (Int × α) → Option (List (Int × α))
  | 0, _, _, _ => none
  | _ + 1, none, _, acc => some acc
  | fuel + 1, some x, n, acc =>
    if (if reverse then decide ((sl.mem x).score < s2) else decide ((sl.mem x).score > s2)) then
      some acc
    else
      match (sl.mem x).obj with
      | none => none
      | some o =>
        rangeByScoreLoop sl reverse s2 fuel
          (if reverse then (sl.mem x).backward else sl.forward x 0) (intIncr n)
          (acc ++ [(intIncr n, o)])

/-- The functions `lzset_int_get_range_by_score` and
`lzset_string_get_range_by_score` of `lzset.c` (they differ in how the payload
is pushed).  The result is the table, as the list of its assignments. -/
def lzset_get_range_by_score (sl : skiplist α) (s1 s2 : double) : Option (List (Int × α)) :=
  if s1 ≤ s2 then
    match skiplistFirstInRange sl s1 s2 false false with
    | none => none
    | some node => rangeByScoreLoop sl false s2 sl.brk node 0 []
  else
    match skiplistLastInRange sl s2 s1 false false with
    | none => none
    | some node => rangeByScoreLoop sl true s2 sl.brk node 0 []

/-- The Lua array holding the values `l`: the assignments of `l` to the indices
`n + 1, n + 2, ...`. -/
def luaArrayFrom : Int → List α → List (Int × α)
  | _, [] => []
  | n, a :: l => (n + 1, a) :: luaArrayFrom (n + 1) l

/-- The Lua array holding the values `l` at the indices `1, 2, ...`. -/
def luaArray (l : List α) : List (Int × α) := luaArrayFrom 0 l

/-- A score lies in the range from `min` to `max`, each bound being exclusive
when its flag is set. -/
def InRange (min max : double) (minex maxex : Bool) (v : double) : Prop :=
  (if minex then min < v else min ≤ v) ∧ (if maxex then v < max else v ≤ max)

/-- The payloads passed to the callback of `skiplistDeleteRangeByRank`, in the
order of the calls. -/
def callbackLog : List (Effect α) → List (Option α)
  | [] => []
  | Effect.called o :: l => o :: callbackLog l
  | Effect.released _ :: l => callbackLog l

/-! ## Walks along the list used to state its structural invariants -/

/-- The nodes met by following the backward pointers from the pointer `p`, as
addresses. -/
def backFrom (sl : skiplist α) : Nat → Option Nat → List Nat
  | 0, _ => []
  | _ + 1, none => []
  | fuel + 1, some x => x :: backFrom sl fuel (sl.mem x).backward

/-- The function `skiplistLength`. -/
def skiplistLength (sl : skiplist α) : Nat := sl.length

/-! ## The draw of a level, and the comparator of the string binding -/

/-- The constant `SKIPLIST_P` of `skiplist.h`, `0.25`. -/
def SKIPLIST_P : ℚ := 1 / 4

/-- The loop test `(random()&0xFFFF) < (SKIPLIST_P * 0xFFFF)` of
`skiplistRandomLevel`, on the value `r` that `random()` returned.  The source
compares in `double`, where the integers up to `0xFFFF` and the product
`0.25 * 65535 = 16383.75` are exact: the test is the comparison of these
rational numbers. -/
def drawSucceeds (r : Nat) : Bool :=
  decide ((((r &&& 0xFFFF : Nat) : ℚ)) < SKIPLIST_P * 0xFFFF)

/-- The loop `while (...) level += 1;` of `skiplistRandomLevel`, run on the
values that the successive calls of `random()` return.  `level` is an `int`.
The model has no result when the values run out before a test fails. -/
def randomLevelLoop : List Nat → Int → Option Int
  | [], _ => none
  | r :: rest, level =>
    if drawSucceeds r then randomLevelLoop rest (intIncr level)
    else some level

/-- The function `skiplistRandomLevel`, on the values that the successive
calls of `random()` return. -/
def skiplistRandomLevel (draws : List Nat) : Option Int :=
  (randomLevelLoop draws 1).map
    (fun level => if level < (SKIPLIST_MAXLEVEL : Int) then level else (SKIPLIST_MAXLEVEL : Int))

/-- The function `lzset_string_compare` of `lzset.c`, on two byte strings (the
fields `data`, with `len` their length) and with the C library function
`memcmp` as the parameter `mc`.  The expression `cmp ? cmp : s1->len - s2->len`
has the type `size_t`, an unsigned 64-bit integer, and is converted to `int` by
the `return`. -/
def lzset_string_compare (mc : List (Fin 256) → List (Fin 256) → Nat → Int)
    (s1 s2 : List (Fin 256)) : Int :=
  let cmp : Int := mc s1 s2 (if s1.length ≤ s2.length then s1.length else s2.length)
  let v : Nat :=
    if cmp ≠ 0 then (cmp % 18446744073709551616).toNat
    else (s1.length % 18446744073709551616 +
      (18446744073709551616 - s2.length % 18446744073709551616)) % 18446744073709551616
  toInt32 v

/-- A `memcmp`: zero when the first `n` bytes agree, and otherwise the
difference of the first two bytes that differ, read as `unsigned char`. -/
def memcmp : List (Fin 256) → List (Fin 256) → Nat → Int
  | x :: a, y :: b, n + 1 => if x = y then memcmp a b n else (x.val : Int) - (y.val : Int)
  | _, _, _ => 0

/-- What the C standard says of `memcmp`, for a count `n` not above the two
lengths: the result is an `int`, it is zero exactly when the first `n` bytes
agree, and negative exactly when, at the first place where they differ, the
byte of the first string is the smaller one as `unsigned char`. -/
structure IsMemcmp (mc : List (Fin 256) → List (Fin 256) → Nat → Int) : Prop where
  range : ∀ a b n, -2147483648 ≤ mc a b n ∧ mc a b n ≤ 2147483647
  zero_iff : ∀ a b n, n ≤ a.length → n ≤ b.length → (mc a b n = 0 ↔ a.take n = b.take n)
  neg_iff : ∀ a b n, n ≤ a.length → n ≤ b.length →
    (mc a b n < 0 ↔ List.Lex (fun x y => x < y) (a.take n) (b.take n))

/-! ## Concrete lists of the integer binding -/

/-- The empty list of the integer binding (`lzset_int_new`): comparator
`lzset_int_compare`, releaser `free`. -/
def intList : skiplist Int := skiplistInit lzset_int_compare true

/-- The list after a call of `skiplistInsert`. -/
def inserted (sl : skiplist Int) (score : double) (obj : Int) (level : Nat) : skiplist Int :=
  match skiplistInsert sl score obj level with
  | some (t, _) => t
  | none => sl

/-- The list holding (10, 1), (20, 2) and (30, 3), whose nodes have 2, 3 and 1
levels and sit at the addresses 1, 3 and 2. -/
def threeList : skiplist Int :=
  inserted (inserted (inserted intList 10 1 2) 30 3 1) 20 2 3

/-- The list holding (10, 1), (20, 2), (30, 3), (40, 4) and (50, 5), whose nodes
have 2, 1, 3, 1 and 2 levels and sit at the addresses 1 to 5. -/
def fiveList : skiplist Int :=
  inserted (inserted (inserted (inserted (inserted intList 10 1 2) 20 2 1) 30 3 3) 40 4 1) 50 5 2

/-- The list holding (1, 100), (2, 200) and (2, 300): two nodes share a score. -/
def tieList : skiplist Int :=
  inserted (inserted (inserted intList 1 100 1) 2 200 2) 2 300 1

/-- The list holding (1, 9) and (2, 3): the payloads descend while the scores
ascend. -/
def crossList : skiplist Int :=
  inserted (inserted intList 1 9 1) 2 3 1

/-- The list of the integer binding after the calls `skiplistInsert(sl, k, k)`
for `k = 0, ..., n - 1`, every node having one level. -/
def climb : Nat → skiplist Int
  | 0 => intList
  | n + 1 => inserted (climb n) (n : Int) (n : Int) 1

/-- The list of the integer binding after `skiplistInsert(sl, 1.0, 1)` and
`skiplistInsert(sl, NaN, 2)`, both nodes having one level: the Lua calls
`insert(1, 1)` and `insert(0/0, 2)`. -/
def nanList : skiplist Int :=
  inserted (inserted intList 1 1 1) double.nan 2 1

/-- The list `nanList` after `skiplistInsert(sl, 0.0, 3)`, with one level. -/
def nanThree : skiplist Int :=
  inserted nanList 0 3 1

/-- The list of the integer binding after `skiplistInsert(sl, 1.0, 5)`,
`skiplistInsert(sl, NaN, 3)` and `skiplistInsert(sl, 1.0, 5)` again, every node
having one level. -/
def nanTwice : skiplist Int :=
  inserted (inserted (inserted intList 1 5 1) double.nan 3 1) 1 5 1

/-! ## Comparisons of scores -/

@[simp] theorem double.lt_num (a b : Int) :
    double.lt (double.num a) (double.num b) = decide (a < b) := rfl

@[simp] theorem double.le_num (a b : Int) :
    double.le (double.num a) (double.num b) = decide (a ≤ b) := rfl

@[simp] theorem double.eq_num (a b : Int) :
    double.eq (double.num a) (double.num b) = decide (a = b) := rfl

@[simp] theorem double.num_lt_num (a b : Int) : double.num a < double.num b ↔ a < b := by
  show double.lt (double.num a) (double.num b) = true ↔ a < b
  simp

@[simp] theorem double.num_le_num (a b : Int) : double.num a ≤ double.num b ↔ a ≤ b := by
  show double.le (double.num a) (double.num b) = true ↔ a ≤ b
  simp

theorem double.lt_iff (a b : double) :
    a < b ↔ ∃ u v, a = double.num u ∧ b = double.num v ∧ u < v := by
  cases a <;> cases b <;> simp [LT.lt, double.lt]

theorem double.le_iff (a b : double) :
    a ≤ b ↔ ∃ u v, a = double.num u ∧ b = double.num v ∧ u ≤ v := by
  cases a <;> cases b <;> simp [LE.le, double.le]

theorem double.eq_iff (a b : double) :
    double.eq a b = true ↔ ∃ u, a = double.num u ∧ b = double.num u := by
  cases a <;> cases b <;> simp [double.eq, eq_comm]

@[simp] theorem double.not_nan_lt (a : double) : ¬ double.nan < a := by
  show ¬ double.lt double.nan a = true
  simp [double.lt]

@[simp] theorem double.not_lt_nan (a : double) : ¬ a < double.nan := by
  show ¬ double.lt a double.nan = true
  cases a <;> simp [double.lt]

@[simp] theorem double.not_nan_le (a : double) : ¬ double.nan ≤ a := by
  show ¬ double.le double.nan a = true
  simp [double.le]

@[simp] theorem double.not_le_nan (a : double) : ¬ a ≤ double.nan := by
  show ¬ double.le a double.nan = true
  cases a <;> simp [double.le]

@[simp] theorem double.eq_nan_left (a : double) : double.eq double.nan a = false := by
  simp [double.eq]

@[simp] theorem double.eq_nan_right (a : double) : double.eq a double.nan = false := by
  cases a <;> simp [double.eq]

theorem double.lt_irrefl (a : double) : ¬ a < a := by
  cases a <;> simp

theorem double.exists_num (a : double) (h : a ≠ double.nan) : ∃ u, a = double.num u := by
  cases a with
  | num u => exact ⟨u, rfl⟩
  | nan => exact absurd rfl h

/-! ## Reading memory after a write -/

@[simp] theorem forward_setForward (sl : skiplist α) (x i : Nat) (f : Option Nat) (y j : Nat) :
    (sl.setForward x i f).forward y j = if y = x ∧ j = i then f else sl.forward y j := by
  unfold skiplist.setForward skiplist.forward
  by_cases hy : y = x
  · subst hy
    by_cases hj : j = i
    · subst hj; simp
    · simp [hj]
  · simp [hy]

@[simp] theorem span_setForward (sl : skiplist α) (x i : Nat) (f : Option Nat) (y j : Nat) :
    (sl.setForward x i f).span y j = sl.span y j := by
  unfold skiplist.setForward skiplist.span
  by_cases hy : y = x
  · subst hy
    by_cases hj : j = i
    · subst hj; simp
    · simp [hj]
  · simp [hy]

@[simp] theorem forward_setSpan (sl : skiplist α) (x i : Nat) (s : Nat) (y j : Nat) :
    (sl.setSpan x i s).forward y j = sl.forward y j := by
  unfold skiplist.setSpan skiplist.forward
  by_cases hy : y = x
  · subst hy
    by_cases hj : j = i
    · subst hj; simp
    · simp [hj]
  · simp [hy]

@[simp] theorem span_setSpan (sl : skiplist α) (x i : Nat) (s : Nat) (y j : Nat) :
    (sl.setSpan x i s).span y j = if y = x ∧ j = i then s else sl.span y j := by
  unfold skiplist.setSpan skiplist.span
  by_cases hy : y = x
  · subst hy
    by_cases hj : j = i
    · subst hj; simp
    · simp [hj]
  · simp [hy]

@[simp] theorem brk_setForward (sl : skiplist α) (x i : Nat) (f : Option Nat) :
    (sl.setForward x i f).brk = sl.brk := rfl

@[simp] theorem header_setForward (sl : skiplist α) (x i : Nat) (f : Option Nat) :
    (sl.setForward x i f).header = sl.header := rfl

@[simp] theorem tail_setForward (sl : skiplist α) (x i : Nat) (f : Option Nat) :
    (sl.setForward x i f).tail = sl.tail := rfl

@[simp] theorem compare_setForward (sl : skiplist α) (x i : Nat) (f : Option Nat) :
    (sl.setForward x i f).compare = sl.compare := rfl

@[simp] theorem release_setForward (sl : skiplist α) (x i : Nat) (f : Option Nat) :
    (sl.setForward x i f).release = sl.release := rfl

@[simp] theorem length_setForward (sl : skiplist α) (x i : Nat) (f : Option Nat) :
    (sl.setForward x i f).length = sl.length := rfl

@[simp] theorem level_setForward (sl : skiplist α) (x i : Nat) (f : Option Nat) :
    (sl.setForward x i f).level = sl.level := rfl

@[simp] theorem effects_setForward (sl : skiplist α) (x i : Nat) (f : Option Nat) :
    (sl.setForward x i f).effects = sl.effects := rfl

@[simp] theorem brk_setSpan (sl : skiplist α) (x i : Nat) (s : Nat) :
    (sl.setSpan x i s).brk = sl.brk := rfl

@[simp] theorem header_setSpan (sl : skiplist α) (x i : Nat) (s : Nat) :
    (sl.setSpan x i s).header = sl.header := rfl

@[simp] theorem tail_setSpan (sl : skiplist α) (x i : Nat) (s : Nat) :
    (sl.setSpan x i s).tail = sl.tail := rfl

@[simp] theorem compare_setSpan (sl : skiplist α) (x i : Nat) (s : Nat) :
    (sl.setSpan x i s).compare = sl.compare := rfl

@[simp] theorem release_setSpan (sl : skiplist α) (x i : Nat) (s : Nat) :
    (sl.setSpan x i s).release = sl.release := rfl

@[simp] theorem length_setSpan (sl : skiplist α) (x i : Nat) (s : Nat) :
    (sl.setSpan x i s).length = sl.length := rfl

@[simp] theorem level_setSpan (sl : skiplist α) (x i : Nat) (s : Nat) :
    (sl.setSpan x i s).level = sl.level := rfl

@[simp] theorem effects_setSpan (sl : skiplist α) (x i : Nat) (s : Nat) :
    (sl.setSpan x i s).effects = sl.effects := rfl

@[simp] theorem brk_setBackward (sl : skiplist α) (x : Nat) (b : Option Nat) :
    (sl.setBackward x b).brk = sl.brk := rfl

@[simp] theorem header_setBackward (sl : skiplist α) (x : Nat) (b : Option Nat) :
    (sl.setBackward x b).header = sl.header := rfl

@[simp] theorem tail_setBackward (sl : skiplist α) (x : Nat) (b : Option Nat) :
    (sl.setBackward x b).tail = sl.tail := rfl

@[simp] theorem compare_setBackward (sl : skiplist α) (x : Nat) (b : Option Nat) :
    (sl.setBackward x b).compare = sl.compare := rfl

@[simp] theorem release_setBackward (sl : skiplist α) (x : Nat) (b : Option Nat) :
    (sl.setBackward x b).release = sl.release := rfl

@[simp] theorem length_setBackward (sl : skiplist α) (x : Nat) (b : Option Nat) :
    (sl.setBackward x b).length = sl.length := rfl

@[simp] theorem level_setBackward (sl : skiplist α) (x : Nat) (b : Option Nat) :
    (sl.setBackward x b).level = sl.level := rfl

@[simp] theorem effects_setBackward (sl : skiplist α) (x : Nat) (b : Option Nat) :
    (sl.setBackward x b).effects = sl.effects := rfl

@[simp] theorem brk_setScore (sl : skiplist α) (x : Nat) (s : double) :
    (sl.setScore x s).brk = sl.brk := rfl

@[simp] theorem header_setScore (sl : skiplist α) (x : Nat) (s : double) :
    (sl.setScore x s).header = sl.header := rfl

@[simp] theorem tail_setScore (sl : skiplist α) (x : Nat) (s : double) :
    (sl.setScore x s).tail = sl.tail := rfl

@[simp] theorem compare_setScore (sl : skiplist α) (x : Nat) (s : double) :
    (sl.setScore x s).compare = sl.compare := rfl

@[simp] theorem release_setScore (sl : skiplist α) (x : Nat) (s : double) :
    (sl.setScore x s).release = sl.release := rfl

@[simp] theorem length_setScore (sl : skiplist α) (x : Nat) (s : double) :
    (sl.setScore x s).length = sl.length := rfl

@[simp] theorem level_setScore (sl : skiplist α) (x : Nat) (s : double) :
    (sl.setScore x s).level = sl.level := rfl

@[simp] theorem effects_setScore (sl : skiplist α) (x : Nat) (s : double) :
    (sl.setScore x s).effects = sl.effects := rfl

@[simp] theorem brk_setObj (sl : skiplist α) (x : Nat) (o : Option α) :
    (sl.setObj x o).brk = sl.brk := rfl

@[simp] theorem header_setObj (sl : skiplist α) (x : Nat) (o : Option α) :
    (sl.setObj x o).header = sl.header := rfl

@[simp] theorem tail_setObj (sl : skiplist α) (x : Nat) (o : Option α) :
    (sl.setObj x o).tail = sl.tail := rfl

@[simp] theorem compare_setObj (sl : skiplist α) (x : Nat) (o : Option α) :
    (sl.setObj x o).compare = sl.compare := rfl

@[simp] theorem release_setObj (sl : skiplist α) (x : Nat) (o : Option α) :
    (sl.setObj x o).release = sl.release := rfl

@[simp] theorem length_setObj (sl : skiplist α) (x : Nat) (o : Option α) :
    (sl.setObj x o).length = sl.length := rfl

@[simp] theorem level_setObj (sl : skiplist α) (x : Nat) (o : Option α) :
    (sl.setObj x o).level = sl.level := rfl

@[simp] theorem effects_setObj (sl : skiplist α) (x : Nat) (o : Option α) :
    (sl.setObj x o).effects = sl.effects := rfl

@[simp] theorem obj_setForward (sl : skiplist α) (x i : Nat) (f : Option Nat) (y : Nat) :
    ((sl.setForward x i f).mem y).obj = (sl.mem y).obj := by
  unfold skiplist.setForward
  by_cases hy : y = x
  · subst hy; simp
  · simp [hy]

@[simp] theorem score_setForward (sl : skiplist α) (x i : Nat) (f : Option Nat) (y : Nat) :
    ((sl.setForward x i f).mem y).score = (sl.mem y).score := by
  unfold skiplist.setForward
  by_cases hy : y = x
  · subst hy; simp
  · simp [hy]

@[simp] theorem backward_setForward (sl : skiplist α) (x i : Nat) (f : Option Nat) (y : Nat) :
    ((sl.setForward x i f).mem y).backward = (sl.mem y).backward := by
  unfold skiplist.setForward
  by_cases hy : y = x
  · subst hy; simp
  · simp [hy]

@[simp] theorem obj_setSpan (sl : skiplist α) (x i : Nat) (s : Nat) (y : Nat) :
    ((sl.setSpan x i s).mem y).obj = (sl.mem y).obj := by
  unfold skiplist.setSpan
  by_cases hy : y = x
  · subst hy; simp
  · simp [hy]

@[simp] theorem score_setSpan (sl : skiplist α) (x i : Nat) (s : Nat) (y : Nat) :
    ((sl.setSpan x i s).mem y).score = (sl.mem y).score := by
  unfold skiplist.setSpan
  by_cases hy : y = x
  · subst hy; simp
  · simp [hy]

@[simp] theorem backward_setSpan (sl : skiplist α) (x i : Nat) (s : Nat) (y : Nat) :
    ((sl.setSpan x i s).mem y).backward = (sl.mem y).backward := by
  unfold skiplist.setSpan
  by_cases hy : y = x
  · subst hy; simp
  · simp [hy]

@[simp] theorem obj_setBackward (sl : skiplist α) (x : Nat) (b : Option Nat) (y : Nat) :
    ((sl.setBackward x b).mem y).obj = (sl.mem y).obj := by
  unfold skiplist.setBackward
  by_cases hy : y = x
  · subst hy; simp
  · simp [hy]

@[simp] theorem score_setBackward (sl : skiplist α) (x : Nat) (b : Option Nat) (y : Nat) :
    ((sl.setBackward x b).mem y).score = (sl.mem y).score := by
  unfold skiplist.setBackward
  by_cases hy : y = x
  · subst hy; simp
  · simp [hy]

@[simp] theorem backward_setBackward (sl : skiplist α) (x : Nat) (b : Option Nat) (y : Nat) :
    ((sl.setBackward x b).mem y).backward = if y = x then b else (sl.mem y).backward := by
  unfold skiplist.setBackward
  by_cases hy : y = x
  · subst hy; simp
  · simp [hy]

@[simp] theorem obj_setScore (sl : skiplist α) (x : Nat) (s : double) (y : Nat) :
    ((sl.setScore x s).mem y).obj = (sl.mem y).obj := by
  unfold skiplist.setScore
  by_cases hy : y = x
  · subst hy; simp
  · simp [hy]

@[simp] theorem score_setScore (sl : skiplist α) (x : Nat) (s : double) (y : Nat) :
    ((sl.setScore x s).mem y).score = if y = x then s else (sl.mem y).score := by
  unfold skiplist.setScore
  by_cases hy : y = x
  · subst hy; simp
  · simp [hy]

@[simp] theorem backward_setScore (sl : skiplist α) (x : Nat) (s : double) (y : Nat) :
    ((sl.setScore x s).mem y).backward = (sl.mem y).backward := by
  unfold skiplist.setScore
  by_cases hy : y = x
  · subst hy; simp
  · simp [hy]

@[simp] theorem obj_setObj (sl : skiplist α) (x : Nat) (o : Option α) (y : Nat) :
    ((sl.setObj x o).mem y).obj = if y = x then o else (sl.mem y).obj := by
  unfold skiplist.setObj
  by_cases hy : y = x
  · subst hy; simp
  · simp [hy]

@[simp] theorem score_setObj (sl : skiplist α) (x : Nat) (o : Option α) (y : Nat) :
    ((sl.setObj x o).mem y).score = (sl.mem y).score := by
  unfold skiplist.setObj
  by_cases hy : y = x
  · subst hy; simp
  · simp [hy]

@[simp] theorem backward_setObj (sl : skiplist α) (x : Nat) (o : Option α) (y : Nat) :
    ((sl.setObj x o).mem y).backward = (sl.mem y).backward := by
  unfold skiplist.setObj
  by_cases hy : y = x
  · subst hy; simp
  · simp [hy]

@[simp] theorem forward_setBackward (sl : skiplist α) (x : Nat) (b : Option Nat) (y j : Nat) :
    (sl.setBackward x b).forward y j = sl.forward y j := by
  unfold skiplist.setBackward skiplist.forward
  by_cases hy : y = x
  · subst hy; simp
  · simp [hy]

@[simp] theorem span_setBackward (sl : skiplist α) (x : Nat) (b : Option Nat) (y j : Nat) :
    (sl.setBackward x b).span y j = sl.span y j := by
  unfold skiplist.setBackward skiplist.span
  by_cases hy : y = x
  · subst hy; simp
  · simp [hy]

@[simp] theorem forward_setScore (sl : skiplist α) (x : Nat) (s : double) (y j : Nat) :
    (sl.setScore x s).forward y j = sl.forward y j := by
  unfold skiplist.setScore skiplist.forward
  by_cases hy : y = x
  · subst hy; simp
  · simp [hy]

@[simp] theorem span_setScore (sl : skiplist α) (x : Nat) (s : double) (y j : Nat) :
    (sl.setScore x s).span y j = sl.span y j := by
  unfold skiplist.setScore skiplist.span
  by_cases hy : y = x
  · subst hy; simp
  · simp [hy]

@[simp] theorem forward_setObj (sl : skiplist α) (x : Nat) (o : Option α) (y j : Nat) :
    (sl.setObj x o).forward y j = sl.forward y j := by
  unfold skiplist.setObj skiplist.forward
  by_cases hy : y = x
  · subst hy; simp
  · simp [hy]

@[simp] theorem span_setObj (sl : skiplist α) (x : Nat) (o : Option α) (y j : Nat) :
    (sl.setObj x o).span y j = sl.span y j := by
  unfold skiplist.setObj skiplist.span
  by_cases hy : y = x
  · subst hy; simp
  · simp [hy]

/-! ## Lists of links -/

theorem nextAt_append_low (i : Nat) (m l : List Link) (h : ∀ a ∈ m, a.height ≤ i) :
    nextAt i (m ++ l) = nextAt i l := by
  induction m with
  | nil => rfl
  | cons a m ih =>
    have ha : ¬ i < a.height := by have := h a (by simp); omega
    have hm : ∀ c ∈ m, c.height ≤ i := fun c hc => h c (by simp [hc])
    simp [nextAt, ha, ih hm]

theorem distAt_append_low (i : Nat) (m l : List Link) (h : ∀ a ∈ m, a.height ≤ i) :
    distAt i (m ++ l) = m.length + distAt i l := by
  induction m with
  | nil => simp
  | cons a m ih =>
    have ha : ¬ i < a.height := by have := h a (by simp); omega
    have hm : ∀ c ∈ m, c.height ≤ i := fun c hc => h c (by simp [hc])
    simp [distAt, ha, ih hm]; omega

theorem nextAt_append_high (i : Nat) (m l l2 : List Link) (h : ∃ a ∈ m, i < a.height) :
    nextAt i (m ++ l) = nextAt i (m ++ l2) := by
  induction m with
  | nil => simp at h
  | cons a m ih =>
    by_cases ha : i < a.height
    · simp [nextAt, ha]
    · have hm : ∃ c ∈ m, i < c.height := by
        obtain ⟨c, hc, hci⟩ := h
        simp at hc
        rcases hc with rfl | hc
        · exact absurd hci ha
        · exact ⟨c, hc, hci⟩
      simp [nextAt, ha, ih hm]

theorem distAt_append_high (i : Nat) (m l l2 : List Link) (h : ∃ a ∈ m, i < a.height) :
    distAt i (m ++ l) = distAt i (m ++ l2) := by
  induction m with
  | nil => simp at h
  | cons a m ih =>
    by_cases ha : i < a.height
    · simp [distAt, ha]
    · have hm : ∃ c ∈ m, i < c.height := by
        obtain ⟨c, hc, hci⟩ := h
        simp at hc
        rcases hc with rfl | hc
        · exact absurd hci ha
        · exact ⟨c, hc, hci⟩
      simp [distAt, ha, ih hm]

theorem nextAt_some (i : Nat) (l : List Link) (y : Nat) (h : nextAt i l = some y) :
    ∃ a ∈ l, a.id = y ∧ i < a.height ∧ 1 ≤ distAt i l := by
  induction l with
  | nil => simp [nextAt] at h
  | cons a l ih =>
    by_cases ha : i < a.height
    · simp [nextAt, ha] at h
      exact ⟨a, by simp, h, ha, by simp [distAt, ha]⟩
    · simp [nextAt, ha] at h
      obtain ⟨c, hc, h1, h2, _⟩ := ih h
      exact ⟨c, by simp [hc], h1, h2, by simp [distAt, ha]⟩

theorem nextAt_none (i : Nat) (l : List Link) (h : ∀ a ∈ l, a.height ≤ i) :
    nextAt i l = none := by
  have := nextAt_append_low i l [] h
  simpa [nextAt] using this

theorem nextAt_eq_none (i : Nat) (l : List Link) (h : nextAt i l = none) :
    ∀ a ∈ l, a.height ≤ i := by
  induction l with
  | nil => simp
  | cons a l ih =>
    by_cases ha : i < a.height
    · simp [nextAt, ha] at h
    · simp [nextAt, ha] at h
      intro c hc
      simp at hc
      rcases hc with rfl | hc
      · omega
      · exact ih h c hc

theorem distAt_le (i : Nat) (l : List Link) : distAt i l ≤ l.length := by
  induction l with
  | nil => simp [distAt]
  | cons a l ih =>
    by_cases ha : i < a.height
    · simp [distAt, ha]
    · simp [distAt, ha]; exact ih

theorem distAt_low (i : Nat) (l : List Link) (h : ∀ a ∈ l, a.height ≤ i) :
    distAt i l = l.length := by
  have := distAt_append_low i l [] h
  simpa [distAt] using this

/-- A list with a node having level `i` splits at the last such node. -/
theorem exists_last_high (i : Nat) (m : List Link) (h : ∃ a ∈ m, i < a.height) :
    ∃ l1 b l2, m = l1 ++ b :: l2 ∧ i < b.height ∧ ∀ c ∈ l2, c.height ≤ i := by
  induction m with
  | nil => simp at h
  | cons a m ih =>
    by_cases hm : ∃ c ∈ m, i < c.height
    · obtain ⟨l1, b, l2, he, hb, hl⟩ := ih hm
      exact ⟨a :: l1, b, l2, by simp [he], hb, hl⟩
    · have hm2 : ∀ c ∈ m, c.height ≤ i := by
        intro c hc
        by_contra hcon
        exact hm ⟨c, hc, by omega⟩
      obtain ⟨c, hc, hci⟩ := h
      simp at hc
      rcases hc with rfl | hc
      · exact ⟨[], c, m, by simp, hci, hm2⟩
      · exact absurd hci (by have := hm2 c hc; omega)

/-- The split at the last node having level `i` is unique. -/
theorem last_high_unique (i : Nat) (l1 l1b l2 l2b : List Link) (b bb : Link)
    (he : l1 ++ b :: l2 = l1b ++ bb :: l2b)
    (hb : i < b.height) (hl : ∀ c ∈ l2, c.height ≤ i)
    (hbb : i < bb.height) (hlb : ∀ c ∈ l2b, c.height ≤ i) :
    l1 = l1b ∧ b = bb ∧ l2 = l2b := by
  rcases List.append_eq_append_iff.mp he with ⟨t, h1, h2⟩ | ⟨t, h1, h2⟩
  · cases t with
    | nil => simp at h1 h2; obtain ⟨h3, h4⟩ := h2; exact ⟨h1.symm, h3, h4⟩
    | cons c t =>
      simp at h2
      obtain ⟨h3, h4⟩ := h2
      have : bb ∈ l2 := by rw [h4]; simp
      have := hl bb this
      omega
  · cases t with
    | nil => simp at h1 h2; obtain ⟨h3, h4⟩ := h2; exact ⟨h1, h3.symm, h4.symm⟩
    | cons c t =>
      simp at h2
      obtain ⟨h3, h4⟩ := h2
      have : b ∈ l2b := by rw [h4]; simp
      have := hlb b this
      omega

theorem levelsOK_append (sl : skiplist α) (l1 l2 : List Link) (h : LevelsOK sl (l1 ++ l2)) :
    LevelsOK sl l2 := by
  induction l1 with
  | nil => exact h
  | cons a l ih => exact ih h.2

theorem levelsOK_cell (sl : skiplist α) (l1 l2 : List Link) (b : Link)
    (h : LevelsOK sl (l1 ++ b :: l2)) (i : Nat) (hi : i < b.height) :
    sl.forward b.id i = nextAt i l2 ∧
      (i < sl.level → sl.span b.id i = distAt i l2 % 4294967296) :=
  (levelsOK_append sl l1 (b :: l2) h).1 i hi

/-! ## The inner loop of a descent -/

/-- The loop at level `i` stays where it is when no node of the part `m` it may
cross has a level `i`. -/
theorem advance_stay (sl : skiplist α) (cond : skiplistNode α → Nat → Bool) (w i N : Nat)
    (ρ : Nat → Nat)
    (hρ : ∀ p d, p + d ≤ N → (ρ p + d % 4294967296) % w = ρ (p + d))
    (m post : List Link) (x p k fuel : Nat)
    (hf : sl.forward x i = nextAt i (m ++ post))
    (hs : sl.span x i = (k + distAt i (m ++ post)) % 4294967296)
    (hm : ∀ a ∈ m, a.height ≤ i)
    (hpost : ∀ a ∈ post, ∀ r, p + k + m.length < r → r ≤ N → cond (sl.mem a.id) (ρ r) = false)
    (hN : p + k + m.length + post.length ≤ N)
    (hfuel : 0 < fuel) :
    advance sl cond w i fuel (x, ρ p) = some (x, ρ p) := by
  obtain ⟨f, rfl⟩ : ∃ f, fuel = f + 1 := ⟨fuel - 1, by omega⟩
  rw [nextAt_append_low i m post hm] at hf
  rw [distAt_append_low i m post hm] at hs
  unfold advance
  cases hn : nextAt i post with
  | none => simp [hf, hn]
  | some y =>
    obtain ⟨b, hb, hby, _, hd⟩ := nextAt_some i post y hn
    have hle := distAt_le i post
    have hc : cond (sl.mem y) ((ρ p + sl.span x i) % w) = false := by
      rw [hs, hρ p _ (by omega), ← hby]
      exact hpost b hb _ (by omega) (by omega)
    simp [hf, hn, hc]

/-- The loop at level `i` stops at the last node of the part `m` (all of whose
nodes satisfy the condition) that has a level `i`. -/
theorem advance_move (sl : skiplist α) (cond : skiplistNode α → Nat → Bool) (w i N : Nat)
    (ρ : Nat → Nat)
    (hρ : ∀ p d, p + d ≤ N → (ρ p + d % 4294967296) % w = ρ (p + d))
    (hi : i < sl.level)
    (b : Link) (l2 post : List Link) (hb : i < b.height) (hl2 : ∀ c ∈ l2, c.height ≤ i) :
    ∀ (l1 : List Link) (x p k fuel : Nat),
    LevelsOK sl (l1 ++ b :: l2 ++ post) →
    sl.forward x i = nextAt i (l1 ++ b :: l2 ++ post) →
    sl.span x i = (k + distAt i (l1 ++ b :: l2 ++ post)) % 4294967296 →
    (∀ a ∈ l1 ++ b :: l2, ∀ r, p + k < r → r ≤ p + k + (l1 ++ b :: l2).length →
      cond (sl.mem a.id) (ρ r) = true) →
    (∀ a ∈ post, ∀ r, p + k + (l1 ++ b :: l2).length < r → r ≤ N →
      cond (sl.mem a.id) (ρ r) = false) →
    p + k + (l1 ++ b :: l2).length + post.length ≤ N →
    (l1 ++ b :: l2).length < fuel →
    advance sl cond w i fuel (x, ρ p) = some (b.id, ρ (p + k + l1.length + 1)) := by
  intro l1
  induction l1 with
  | nil =>
    intro x p k fuel hlv hf hs hm hpost hN hfuel
    obtain ⟨f, rfl⟩ : ∃ f, fuel = f + 1 := ⟨fuel - 1, by simp at hfuel; omega⟩
    simp only [List.nil_append, List.cons_append, nextAt, distAt, hb, if_true] at hf hs
    simp only [List.nil_append, List.length_cons] at hm hpost hN hfuel
    have hc : cond (sl.mem b.id) ((ρ p + sl.span x i) % w) = true := by
      rw [hs, hρ p _ (by omega)]
      exact hm b (by simp) _ (by omega) (by omega)
    unfold advance
    simp only [hf, hc, if_true]
    rw [hs, hρ p _ (by omega)]
    have hcell := levelsOK_cell sl [] (l2 ++ post) b (by simpa using hlv) i hb
    have := advance_stay sl cond w i N ρ hρ l2 post b.id (p + (k + 1)) 0 f hcell.1
      (by rw [hcell.2 hi]; simp) hl2
      (fun a ha r h1 h2 => hpost a ha r (by omega) h2) (by omega) (by omega)
    simpa [Nat.add_assoc] using this
  | cons a l1 ih =>
    intro x p k fuel hlv hf hs hm hpost hN hfuel
    by_cases ha : i < a.height
    · obtain ⟨f, rfl⟩ : ∃ f, fuel = f + 1 := ⟨fuel - 1, by simp at hfuel; omega⟩
      simp only [List.cons_append, nextAt, distAt, ha, if_true] at hf hs
      simp only [List.cons_append, List.length_cons] at hm hpost hN hfuel
      have hc : cond (sl.mem a.id) ((ρ p + sl.span x i) % w) = true := by
        rw [hs, hρ p _ (by omega)]
        exact hm a (by simp) _ (by omega) (by omega)
      unfold advance
      simp only [hf, hc, if_true]
      rw [hs, hρ p _ (by omega)]
      have hcell := levelsOK_cell sl [] (l1 ++ b :: l2 ++ post) a
        (by simpa using hlv) i ha
      have := ih a.id (p + (k + 1)) 0 f (by simpa using hlv.2)
        (by simpa using hcell.1) (by rw [hcell.2 hi]; simp)
        (fun c hc r h1 h2 => hm c (by simp [hc]) r (by omega) (by omega))
        (fun c hc r h1 h2 => hpost c hc r (by omega) h2) (by omega) (by omega)
      rw [this]
      simp only [List.length_cons]
      congr 3
      omega
    · simp only [List.cons_append, nextAt, distAt, ha, if_false] at hf hs
      simp only [List.cons_append, List.length_cons] at hm hpost hN hfuel
      have := ih x p (k + 1) fuel (by simpa using hlv.2)
        (by simpa using hf) (by rw [hs]; simp; congr 1; omega)
        (fun c hc r h1 h2 => hm c (by simp [hc]) r (by omega) (by omega))
        (fun c hc r h1 h2 => hpost c hc r (by omega) h2) (by omega) (by omega)
      rw [this]
      simp only [List.length_cons]
      congr 3
      omega

/-! ## The descent -/

theorem mem_tail_of_split (h : Link) (P l1 l2 : List Link) (b : Link)
    (he : h :: P = l1 ++ b :: l2) : (∀ a ∈ l2, a ∈ P) ∧ l1.length + l2.length = P.length := by
  cases l1 with
  | nil =>
    simp at he
    obtain ⟨_, h2⟩ := he
    subst h2
    simp
  | cons c l1 =>
    simp at he
    obtain ⟨_, h2⟩ := he
    subst h2
    constructor
    · intro a ha; simp [ha]
    · simp; omega

theorem descend_spec (sl : skiplist α) (cond : skiplistNode α → Nat → Bool) (w N : Nat)
    (ρ : Nat → Nat)
    (hρ : ∀ p d, p + d ≤ N → (ρ p + d % 4294967296) % w = ρ (p + d))
    (P post : List Link)
    (hlv : LevelsOK sl (headLink sl :: P ++ post))
    (hP : ∀ a ∈ P, ∀ r, 1 ≤ r → r ≤ P.length → cond (sl.mem a.id) (ρ r) = true)
    (hpost : ∀ a ∈ post, ∀ r, P.length < r → r ≤ N → cond (sl.mem a.id) (ρ r) = false)
    (hN : P.length + post.length ≤ N)
    (hfuel : P.length < sl.brk) :
    ∀ n, n ≤ sl.level → ∀ (l1 : List Link) (b : Link) (l2 : List Link) (upd rnk : Nat → Nat),
      headLink sl :: P = l1 ++ b :: l2 → n ≤ b.height →
      ∃ x acc upd2 rnk2,
        descend sl cond w n (b.id, ρ l1.length) (upd, rnk) = some ((x, acc), upd2, rnk2) ∧
        (∀ i, i < n → IsPred (headLink sl :: P) ρ upd2 rnk2 i) ∧
        (∀ i, n ≤ i → upd2 i = upd i ∧ rnk2 i = rnk i) ∧
        (0 < n → x = upd2 0 ∧ acc = rnk2 0) ∧
        (n = 0 → x = b.id ∧ acc = ρ l1.length) := by
  intro n
  induction n with
  | zero =>
    intro _ l1 b l2 upd rnk _ _
    exact ⟨b.id, ρ l1.length, upd, rnk, rfl, by simp, by simp, by simp, by simp⟩
  | succ n ih =>
    intro hn l1 b l2 upd rnk he hb
    obtain ⟨hsub, hlen⟩ := mem_tail_of_split _ _ _ _ _ he
    have hlv2 : LevelsOK sl (l1 ++ b :: (l2 ++ post)) := by
      have : headLink sl :: P ++ post = l1 ++ b :: (l2 ++ post) := by
        rw [show headLink sl :: P ++ post = (headLink sl :: P) ++ post from rfl, he]; simp
      rw [← this]; exact hlv
    have hcell := levelsOK_cell sl l1 (l2 ++ post) b hlv2 n (by omega)
    by_cases hex : ∃ c ∈ l2, n < c.height
    · obtain ⟨m1, b2, m2, hm, hb2, hm2⟩ := exists_last_high n l2 hex
      subst hm
      have hadv := advance_move sl cond w n N ρ hρ (by omega) b2 m2 post hb2 hm2 m1 b.id
        l1.length 0 sl.brk
        (by have := levelsOK_append sl (l1 ++ [b]) (m1 ++ b2 :: m2 ++ post)
              (by simpa using hlv2)
            simpa using this)
        (by simpa using hcell.1)
        (by rw [hcell.2 (by omega)]; simp)
        (fun a ha r h1 h2 => hP a (hsub a ha) r (by omega) (by omega))
        (fun a ha r h1 h2 => hpost a ha r (by omega) h2)
        (by omega) (by omega)
      have he2 : headLink sl :: P = (l1 ++ b :: m1) ++ b2 :: m2 := by rw [he]; simp
      obtain ⟨x, acc, upd2, rnk2, hd, h1, h2, h3, h4⟩ :=
        ih (by omega) (l1 ++ b :: m1) b2 m2 (Function.update upd n b2.id)
          (Function.update rnk n (ρ (l1 ++ b :: m1).length)) he2 (by omega)
      refine ⟨x, acc, upd2, rnk2, ?_, ?_, ?_, ?_, by simp⟩
      · unfold descend
        rw [hadv]
        simp only [Nat.add_zero]
        have : l1.length + m1.length + 1 = (l1 ++ b :: m1).length := by simp; omega
        rw [this]
        exact hd
      · intro i hi
        by_cases hin : i < n
        · exact h1 i hin
        · have : i = n := by omega
          subst this
          have := h2 i (le_refl _)
          simp at this
          exact ⟨l1 ++ b :: m1, b2, m2, he2, hb2, hm2, this.1, by simpa using this.2⟩
      · intro i hi
        have := h2 i (by omega)
        have hne : i ≠ n := by omega
        simpa [Function.update, hne] using this
      · intro _
        by_cases hn0 : 0 < n
        · exact h3 hn0
        · have hn0 : n = 0 := by omega
          subst hn0
          have := h4 rfl
          have h2 := h2 0 (le_refl _)
          simp at h2
          simp [this, h2]
    · have hlow : ∀ c ∈ l2, c.height ≤ n := by
        intro c hc
        by_contra hcon
        exact hex ⟨c, hc, by omega⟩
      have hadv := advance_stay sl cond w n N ρ hρ l2 post b.id l1.length 0 sl.brk
        hcell.1 (by rw [hcell.2 (by omega)]; simp) hlow
        (fun a ha r h1 h2 => hpost a ha r (by omega) h2) (by omega) (by omega)
      obtain ⟨x, acc, upd2, rnk2, hd, h1, h2, h3, h4⟩ :=
        ih (by omega) l1 b l2 (Function.update upd n b.id)
          (Function.update rnk n (ρ l1.length)) he (by omega)
      refine ⟨x, acc, upd2, rnk2, ?_, ?_, ?_, ?_, by simp⟩
      · unfold descend
        rw [hadv]
        exact hd
      · intro i hi
        by_cases hin : i < n
        · exact h1 i hin
        · have : i = n := by omega
          subst this
          have := h2 i (le_refl _)
          simp at this
          exact ⟨l1, b, l2, he, by omega, hlow, this.1, this.2⟩
      · intro i hi
        have := h2 i (by omega)
        have hne : i ≠ n := by omega
        simpa [Function.update, hne] using this
      · intro _
        by_cases hn0 : 0 < n
        · exact h3 hn0
        · have hn0 : n = 0 := by omega
          subst hn0
          have := h4 rfl
          have h2 := h2 0 (le_refl _)
          simp at h2
          simp [this, h2]

/-- The descent from the header. -/
theorem descend_header (sl : skiplist α) (cond : skiplistNode α → Nat → Bool) (w N : Nat)
    (ρ : Nat → Nat) (hρ0 : ρ 0 = 0)
    (hρ : ∀ p d, p + d ≤ N → (ρ p + d % 4294967296) % w = ρ (p + d))
    (P post : List Link)
    (hlv : LevelsOK sl (headLink sl :: P ++ post))
    (hP : ∀ a ∈ P, ∀ r, 1 ≤ r → r ≤ P.length → cond (sl.mem a.id) (ρ r) = true)
    (hpost : ∀ a ∈ post, ∀ r, P.length < r → r ≤ N → cond (sl.mem a.id) (ρ r) = false)
    (hN : P.length + post.length ≤ N)
    (hfuel : P.length < sl.brk) (hl1 : 1 ≤ sl.level) (hl32 : sl.level ≤ 32)
    (upd rnk : Nat → Nat) :
    ∃ x acc upd2 rnk2,
      descend sl cond w sl.level (sl.header, 0) (upd, rnk) = some ((x, acc), upd2, rnk2) ∧
      (∀ i, i < sl.level → IsPred (headLink sl :: P) ρ upd2 rnk2 i) ∧
      (∀ i, sl.level ≤ i → upd2 i = upd i ∧ rnk2 i = rnk i) ∧
      x = upd2 0 ∧ acc = rnk2 0 := by
  obtain ⟨x, acc, upd2, rnk2, hd, h1, h2, h3, _⟩ :=
    descend_spec sl cond w N ρ hρ P post hlv hP hpost hN hfuel sl.level (le_refl _)
      [] (headLink sl) P upd rnk rfl hl32
  refine ⟨x, acc, upd2, rnk2, ?_, h1, h2, h3 (by omega)⟩
  simpa [hρ0, headLink] using hd

/-! ## Loops over the levels -/

theorem forRange_preserves {σ β : Type} (body : Nat → σ → σ) (φ : σ → β)
    (h : ∀ i s, φ (body i s) = φ s) : ∀ (n lo : Nat) (s : σ),
    φ (forRange body lo n s) = φ s := by
  intro n
  induction n with
  | zero => intro lo s; rfl
  | succ n ih => intro lo s; unfold forRange; rw [ih, h]

/-- A loop whose body at `i` reads and writes level `i` only: each level of
the result is what the body for that level makes of the initial state. -/
theorem forRange_cell (body : Nat → skiplist α → skiplist α)
    (h1 : ∀ i s y j, j ≠ i →
      (body i s).forward y j = s.forward y j ∧ (body i s).span y j = s.span y j)
    (hsd : ∀ i s, SameData s (body i s))
    (h2 : ∀ i s t, SameData t s →
      (∀ y, s.forward y i = t.forward y i ∧ s.span y i = t.span y i) →
      ∀ y, (body i s).forward y i = (body i t).forward y i ∧
        (body i s).span y i = (body i t).span y i) :
    ∀ (n lo : Nat) (s : skiplist α) (y j : Nat),
      (forRange body lo n s).forward y j =
        (if lo ≤ j ∧ j < lo + n then (body j s).forward y j else s.forward y j) ∧
      (forRange body lo n s).span y j =
        (if lo ≤ j ∧ j < lo + n then (body j s).span y j else s.span y j) := by
  intro n
  induction n with
  | zero =>
    intro lo s y j
    have hc : ¬ (lo ≤ j ∧ j < lo + 0) := by omega
    simp only [forRange, hc, if_false, and_self]
  | succ n ih =>
    intro lo s y j
    unfold forRange
    have := ih (lo + 1) (body lo s) y j
    rw [this.1, this.2]
    by_cases hj : lo + 1 ≤ j ∧ j < lo + 1 + n
    · have hne : j ≠ lo := by omega
      have h3 := h2 j (body lo s) s (hsd lo s) (fun y => h1 lo s y j hne) y
      have hc : lo ≤ j ∧ j < lo + (n + 1) := by omega
      simp [hj, hc, h3.1, h3.2]
    · by_cases hlo : j = lo
      · subst hlo
        simp
      · have hc : ¬ (lo ≤ j ∧ j < lo + (n + 1)) := by omega
        have := h1 lo s y j hlo
        simp [hj, hc, this.1, this.2]

theorem insertLink_other (x : Nat) (update rank : Nat → Nat) (i : Nat) (s : skiplist α)
    (y j : Nat) (hj : j ≠ i) :
    (insertLink x update rank i s).forward y j = s.forward y j ∧
      (insertLink x update rank i s).span y j = s.span y j := by
  simp [insertLink, hj]

theorem insertLink_congr (x : Nat) (update rank : Nat → Nat) (i : Nat) (s t : skiplist α)
    (_ : SameData t s)
    (h : ∀ y, s.forward y i = t.forward y i ∧ s.span y i = t.span y i) (y : Nat) :
    (insertLink x update rank i s).forward y i = (insertLink x update rank i t).forward y i ∧
      (insertLink x update rank i s).span y i = (insertLink x update rank i t).span y i := by
  simp [insertLink, (h _).1, (h _).2]

theorem insertLink_forward (x : Nat) (update rank : Nat → Nat) (i : Nat) (s : skiplist α)
    (y : Nat) (hx : x ≠ update i) :
    (insertLink x update rank i s).forward y i =
      if y = x then s.forward (update i) i else if y = update i then some x
      else s.forward y i := by
  simp only [insertLink, forward_setSpan, forward_setForward, and_true]
  by_cases h1 : y = x
  · subst h1; simp [hx]
  · simp [h1]

theorem insertLink_span (x : Nat) (update rank : Nat → Nat) (i : Nat) (s : skiplist α)
    (y : Nat) (hx : x ≠ update i) :
    (insertLink x update rank i s).span y i =
      if y = x then u32sub (s.span (update i) i) (u32sub (rank 0) (rank i))
      else if y = update i then u32add (u32sub (rank 0) (rank i)) 1
      else s.span y i := by
  simp only [insertLink, span_setSpan, span_setForward, and_true]
  by_cases h1 : y = x
  · subst h1; simp [hx]
  · simp [h1]

theorem insertBump_other (update : Nat → Nat) (i : Nat) (s : skiplist α)
    (y j : Nat) (hj : j ≠ i) :
    (insertBump update i s).forward y j = s.forward y j ∧
      (insertBump update i s).span y j = s.span y j := by
  simp [insertBump, hj]

theorem insertBump_congr (update : Nat → Nat) (i : Nat) (s t : skiplist α)
    (_ : SameData t s)
    (h : ∀ y, s.forward y i = t.forward y i ∧ s.span y i = t.span y i) (y : Nat) :
    (insertBump update i s).forward y i = (insertBump update i t).forward y i ∧
      (insertBump update i s).span y i = (insertBump update i t).span y i := by
  simp [insertBump, (h _).1, (h _).2]

theorem deleteUnlink_other (x : Nat) (update : Nat → Nat) (i : Nat) (s : skiplist α)
    (y j : Nat) (hj : j ≠ i) :
    (deleteUnlink x update i s).forward y j = s.forward y j ∧
      (deleteUnlink x update i s).span y j = s.span y j := by
  unfold deleteUnlink
  split <;> simp [hj]

theorem deleteUnlink_congr (x : Nat) (update : Nat → Nat) (i : Nat) (s t : skiplist α)
    (_ : SameData t s)
    (h : ∀ y, s.forward y i = t.forward y i ∧ s.span y i = t.span y i) (y : Nat) :
    (deleteUnlink x update i s).forward y i = (deleteUnlink x update i t).forward y i ∧
      (deleteUnlink x update i s).span y i = (deleteUnlink x update i t).span y i := by
  unfold deleteUnlink
  rw [(h (update i)).1]
  split <;> simp [(h _).1, (h _).2]

/-- The loop of `skiplistInsert` that raises the level, component by
component. -/
theorem forRange_insertRaise (n : Nat) : ∀ (lo : Nat) (sl : skiplist α) (upd rnk : Nat → Nat),
    forRange insertRaise lo n (sl, upd, rnk) =
      (forRange (fun i s => s.setSpan s.header i (s.length % 4294967296)) lo n sl,
       (fun i => if lo ≤ i ∧ i < lo + n then sl.header else upd i),
       (fun i => if lo ≤ i ∧ i < lo + n then 0 else rnk i)) := by
  induction n with
  | zero =>
    intro lo sl upd rnk
    have hc : ∀ i, ¬ (lo ≤ i ∧ i < lo + 0) := by intro i; omega
    simp only [forRange, hc, if_false]
  | succ n ih =>
    intro lo sl upd rnk
    unfold forRange
    simp only [insertRaise]
    rw [ih]
    refine Prod.ext rfl (Prod.ext ?_ ?_)
    · funext i
      simp only [header_setSpan, Function.update]
      by_cases h1 : i = lo
      · subst h1; simp
      · have : (lo + 1 ≤ i ∧ i < lo + 1 + n) ↔ (lo ≤ i ∧ i < lo + (n + 1)) := by omega
        simp [h1, this]
    · funext i
      simp only [Function.update]
      by_cases h1 : i = lo
      · subst h1; simp
      · have : (lo + 1 ≤ i ∧ i < lo + 1 + n) ↔ (lo ≤ i ∧ i < lo + (n + 1)) := by omega
        simp [h1, this]

/-! ## Replacing the part of the chain after the predecessors -/

/-- The nodes `Q` in front of a part `T` of the chain that is replaced by `T2`:
a node keeps its cell at level `i` when a later node of `Q` has that level,
and otherwise gets the first node of `T2` having it. -/
theorem levelsOK_relink (s t : skiplist α) (T T2 : List Link) :
    ∀ (Q : List Link), LevelsOK s (Q ++ T) → LevelsOK t T2 →
      (∀ l1 b l2, Q = l1 ++ b :: l2 → ∀ i, i < b.height →
        ((∃ c ∈ l2, i < c.height) →
          t.forward b.id i = s.forward b.id i ∧ t.span b.id i = s.span b.id i ∧
            i < s.level) ∧
        ((∀ c ∈ l2, c.height ≤ i) →
          t.forward b.id i = nextAt i T2 ∧
            (i < t.level → t.span b.id i = (l2.length + distAt i T2) % 4294967296))) →
      LevelsOK t (Q ++ T2) := by
  intro Q
  induction Q with
  | nil => intro _ h _; simpa using h
  | cons b Q ih =>
    intro hs ht hq
    refine ⟨?_, ih hs.2 ht ?_⟩
    · intro i hi
      show t.forward b.id i = nextAt i (Q ++ T2) ∧
        (i < t.level → t.span b.id i = distAt i (Q ++ T2) % 4294967296)
      have hb := hq [] b Q rfl i hi
      have hold : s.forward b.id i = nextAt i (Q ++ T) ∧
        (i < s.level → s.span b.id i = distAt i (Q ++ T) % 4294967296) := hs.1 i hi
      by_cases hex : ∃ c ∈ Q, i < c.height
      · obtain ⟨h1, h2, h3⟩ := hb.1 hex
        rw [h1, h2, hold.1, hold.2 h3, nextAt_append_high i Q T T2 hex,
          distAt_append_high i Q T T2 hex]
        simp
      · have hlow : ∀ c ∈ Q, c.height ≤ i := by
          intro c hc
          by_contra hcon
          exact hex ⟨c, hc, by omega⟩
        obtain ⟨h1, h2⟩ := hb.2 hlow
        rw [h1, nextAt_append_low i Q T2 hlow, distAt_append_low i Q T2 hlow]
        exact ⟨rfl, h2⟩
    · intro l1 c l2 he i hi
      exact hq (b :: l1) c l2 (by simp [he]) i hi

/-- Cells that are not touched keep the chain well linked. -/
theorem levelsOK_frame (s t : skiplist α) (hlevel : t.level ≤ s.level) :
    ∀ (Q : List Link), LevelsOK s Q →
      (∀ b ∈ Q, ∀ i, t.forward b.id i = s.forward b.id i ∧ t.span b.id i = s.span b.id i) →
      LevelsOK t Q := by
  intro Q
  induction Q with
  | nil => intro _ _; trivial
  | cons b Q ih =>
    intro hs hq
    refine ⟨?_, ih hs.2 (fun c hc => hq c (by simp [hc]))⟩
    intro i hi
    have h := hq b (by simp) i
    rw [h.1, h.2]
    exact ⟨(hs.1 i hi).1, fun hl => (hs.1 i hi).2 (by omega)⟩

/-- In a chain without repeated addresses a node occupies one position. -/
theorem nodup_split (F l1 l2 l1b l2b : List Link) (b bb : Link)
    (hn : (F.map Link.id).Nodup) (h1 : F = l1 ++ b :: l2) (h2 : F = l1b ++ bb :: l2b)
    (hid : b.id = bb.id) : l1 = l1b ∧ b = bb ∧ l2 = l2b := by
  subst h1
  simp only [List.map_append, List.map_cons] at hn
  have hn1 := List.nodup_append.mp hn
  have hb1 : b.id ∉ l1.map Link.id := by
    intro hmem
    exact hn1.2.2 hmem (by simp)
  have hb2 : b.id ∉ l2.map Link.id := (List.nodup_cons.mp hn1.2.1).1
  rcases List.append_eq_append_iff.mp h2 with ⟨u, h3, h4⟩ | ⟨u, h3, h4⟩
  · cases u with
    | nil => simp at h3 h4; exact ⟨h3.symm, h4.1, h4.2⟩
    | cons c u =>
      simp at h4
      obtain ⟨h5, h6⟩ := h4
      exfalso
      apply hb2
      rw [h6, hid]
      simp
  · cases u with
    | nil => simp at h3 h4; exact ⟨h3, h4.1.symm, h4.2.symm⟩
    | cons c u =>
      simp at h4
      obtain ⟨h5, h6⟩ := h4
      exfalso
      apply hb1
      rw [h3, hid, h5]
      simp

/-! ## Arithmetic of `unsigned int` spans -/

theorem u32sub_gap (p a c : Nat) (h : a + c = p) :
    u32sub (p % 4294967296) (a % 4294967296) = c % 4294967296 := by
  unfold u32sub; omega

theorem u32sub_mod (u v : Nat) :
    u32sub (u % 4294967296) (v % 4294967296) = u32sub u v := by
  unfold u32sub; omega

theorem u32sub_add_left (c d : Nat) :
    u32sub ((c + d) % 4294967296) (c % 4294967296) = d % 4294967296 := by
  unfold u32sub; omega

theorem u32add_one (c : Nat) : u32add (c % 4294967296) 1 = (c + 1) % 4294967296 := by
  unfold u32add; omega

theorem u32add_unlink (c d : Nat) :
    u32add ((c + 1) % 4294967296) (u32sub (d % 4294967296) 1) = (c + d) % 4294967296 := by
  unfold u32add u32sub; omega

theorem u32sub_one (c : Nat) : u32sub ((c + 1) % 4294967296) 1 = c % 4294967296 := by
  unfold u32sub; omega

/-! ## The levels after the splice of `skiplistInsert` -/

theorem isPred_zero (h : Link) (P : List Link) (ρ : Nat → Nat) (upd rnk : Nat → Nat)
    (hreal : ∀ c ∈ P, 1 ≤ c.height)
    (hp : IsPred (h :: P) ρ upd rnk 0) :
    ∃ l1 b, h :: P = l1 ++ [b] ∧ upd 0 = b.id ∧ rnk 0 = ρ P.length ∧ l1.length = P.length := by
  obtain ⟨l1, b, l2, he, _, hl, hu, hr⟩ := hp
  obtain ⟨hsub, hlen⟩ := mem_tail_of_split _ _ _ _ _ he
  have : l2 = [] := by
    apply List.eq_nil_iff_forall_not_mem.mpr
    intro c hc
    have h1 := hreal c (hsub c hc)
    have h2 := hl c hc
    omega
  subst this
  simp at hlen
  exact ⟨l1, b, he, hu, by rw [hr, hlen], hlen⟩

theorem levelsOK_insert (s t : skiplist α) (h : Link) (P post : List Link) (x lvl : Nat)
    (upd rnk : Nat → Nat)
    (hn : ((h :: P ++ post).map Link.id).Nodup)
    (hx : x ∉ (h :: P ++ post).map Link.id)
    (hlv : LevelsOK s (h :: P ++ post))
    (hpred : ∀ i, i < s.level → IsPred (h :: P) (fun p => p % 4294967296) upd rnk i)
    (hreal : ∀ c ∈ P ++ post, 1 ≤ c.height ∧ c.height ≤ s.level)
    (hlvl : lvl ≤ s.level) (hlvl1 : 1 ≤ lvl) (htl : t.level = s.level)
    (hcf : ∀ y i, t.forward y i =
      if i < lvl then
        (if y = x then s.forward (upd i) i else if y = upd i then some x else s.forward y i)
      else s.forward y i)
    (hcs : ∀ y i, t.span y i =
      if i < lvl then
        (if y = x then u32sub (s.span (upd i) i) (u32sub (rnk 0) (rnk i))
         else if y = upd i then u32add (u32sub (rnk 0) (rnk i)) 1 else s.span y i)
      else if i < s.level then
        (if y = upd i then u32add (s.span y i) 1 else s.span y i)
      else s.span y i) :
    LevelsOK t (h :: P ++ { id := x, height := lvl } :: post) := by
  have hF : h :: P ++ post = (h :: P) ++ post := rfl
  obtain ⟨l10, b0, he0, hu0, hr0, hlen0⟩ :=
    isPred_zero h P _ upd rnk (fun c hc => (hreal c (by simp [hc])).1) (hpred 0 (by omega))
  -- facts about a predecessor
  have hpredfacts : ∀ i, i < s.level → ∃ l1 b l2, h :: P = l1 ++ b :: l2 ∧ i < b.height ∧
      (∀ c ∈ l2, c.height ≤ i) ∧ upd i = b.id ∧ rnk i = l1.length % 4294967296 ∧
      l1.length + l2.length = P.length ∧ b.id ≠ x ∧
      s.forward b.id i = nextAt i post ∧
      s.span b.id i = (l2.length + distAt i post) % 4294967296 := by
    intro i hi
    obtain ⟨l1, b, l2, he, hb, hl, hu, hr⟩ := hpred i hi
    obtain ⟨_, hlen⟩ := mem_tail_of_split _ _ _ _ _ he
    have hcell := levelsOK_cell s l1 (l2 ++ post) b (by rw [hF, he] at hlv; simpa using hlv) i hb
    refine ⟨l1, b, l2, he, hb, hl, hu, hr, hlen, ?_, ?_, ?_⟩
    · intro hbx
      apply hx
      rw [hF, he, ← hbx]
      simp
    · rw [hcell.1, nextAt_append_low i l2 post hl]
    · rw [hcell.2 hi, distAt_append_low i l2 post hl]
  have hpostid : ∀ c ∈ post, c.id ≠ x ∧ ∀ i, i < s.level → c.id ≠ upd i := by
    intro c hc
    constructor
    · intro hcx
      apply hx
      rw [← hcx]
      exact List.mem_map_of_mem _ (by simp [hc])
    · intro i hi hcu
      obtain ⟨l1, b, l2, he, _, _, hu, _⟩ := hpredfacts i hi
      rw [hF, he] at hn
      simp only [List.map_append, List.map_cons, List.append_assoc] at hn
      have hd := (List.nodup_append.mp (by simpa using hn : ((l1.map Link.id ++ b.id :: l2.map Link.id) ++ post.map Link.id).Nodup)).2.2
      exact hd (by simp : b.id ∈ l1.map Link.id ++ b.id :: l2.map Link.id)
        (by rw [← hu, ← hcu]; exact List.mem_map_of_mem _ hc) 
  have hpost : LevelsOK t post := by
    apply levelsOK_frame s t (by omega) post (levelsOK_append s (h :: P) post hlv)
    intro c hc i
    obtain ⟨h1, h2⟩ := hpostid c hc
    rw [hcf, hcs]
    by_cases hi : i < s.level
    · have := h2 i hi
      by_cases hil : i < lvl <;> simp [hil, hi, h1, this]
    · have hil : ¬ i < lvl := by omega
      simp [hil, hi]
  have hnew : LevelsOK t ({ id := x, height := lvl } :: post) := by
    refine ⟨?_, hpost⟩
    intro i hi
    have hi : i < lvl := hi
    obtain ⟨l1, b, l2, he, hb, hl, hu, hr, hlen, hbx, hf, hs⟩ := hpredfacts i (by omega)
    show t.forward x i = nextAt i post ∧ (i < t.level → t.span x i = distAt i post % 4294967296)
    rw [hcf, hcs]
    simp only [hi, if_true]
    rw [hu, hf, hs, hr0, hr]
    refine ⟨rfl, fun _ => ?_⟩
    rw [u32sub_gap P.length l1.length l2.length hlen]
    exact u32sub_add_left _ _
  rw [show h :: P ++ { id := x, height := lvl } :: post
      = (h :: P) ++ { id := x, height := lvl } :: post from rfl]
  apply levelsOK_relink s t post _ (h :: P) hlv hnew
  intro l1 b l2 he i hi
  obtain ⟨hsub, hlen⟩ := mem_tail_of_split _ _ _ _ _ he
  have hbx : b.id ≠ x := by
    intro hbx
    apply hx
    rw [hF, he, ← hbx]
    simp
  constructor
  · rintro ⟨c, hc, hci⟩
    have hcl := (hreal c (by simp [hsub c hc])).2
    have his : i < s.level := by omega
    obtain ⟨l1b, bb, l2b, heb, hbb, hlb, hub, _⟩ := hpredfacts i his
    have hne : b.id ≠ upd i := by
      intro hbu
      have hnF : ((h :: P).map Link.id).Nodup := by
        rw [hF] at hn
        simp only [List.map_append] at hn
        exact (List.nodup_append.mp hn).1
      obtain ⟨_, _, h3⟩ := nodup_split (h :: P) l1 l2 l1b l2b b bb hnF he heb (by rw [hbu, hub])
      have := hlb c (by rw [← h3]; exact hc)
      omega
    rw [hcf, hcs]
    by_cases hil : i < lvl <;> simp [hil, his, hbx, hne]
  · intro hl
    by_cases his : i < s.level
    · obtain ⟨l1b, bb, l2b, heb, hbb, hlb, hub, hrb, _, _, hf, hs⟩ := hpredfacts i his
      obtain ⟨h1, h2, h3⟩ := last_high_unique i l1 l1b l2 l2b b bb (by rw [← he, ← heb]) hi hl hbb hlb
      subst h1 h2 h3
      rw [hcf, hcs]
      by_cases hil : i < lvl
      · simp only [hil, if_true, hbx, if_false, hub, nextAt, distAt]
        refine ⟨by simp, fun _ => ?_⟩
        rw [hr0, hrb, u32sub_gap P.length l1.length l2.length hlen]
        exact u32add_one _
      · simp only [hil, if_false, his, if_true, hub, nextAt, distAt]
        refine ⟨hf, fun _ => ?_⟩
        rw [hs]
        unfold u32add
        omega
    · have hil : ¬ i < lvl := by omega
      have hcell := levelsOK_cell s l1 (l2 ++ post) b
        (by rw [hF, he] at hlv; simpa using hlv) i hi
      rw [hcf]
      simp only [hil, if_false, nextAt]
      rw [hcell.1, nextAt_append_low i l2 post hl]
      exact ⟨rfl, fun h2 => absurd h2 (by omega)⟩

/-! ## The levels after the unlinking of `skiplistDeleteNode` -/

theorem levelsOK_delete (s t : skiplist α) (h : Link) (P post : List Link) (xl : Link)
    (ρ : Nat → Nat) (upd rnk : Nat → Nat)
    (hn : ((h :: P ++ xl :: post).map Link.id).Nodup)
    (hlv : LevelsOK s (h :: P ++ xl :: post))
    (hpred : ∀ i, i < s.level → IsPred (h :: P) ρ upd rnk i)
    (hreal : ∀ c ∈ P ++ xl :: post, 1 ≤ c.height ∧ c.height ≤ s.level)
    (htl : t.level ≤ s.level)
    (hcf : ∀ y i, t.forward y i =
      if i < s.level ∧ y = upd i ∧ s.forward (upd i) i = some xl.id then s.forward xl.id i
      else s.forward y i)
    (hcs : ∀ y i, t.span y i =
      if i < s.level ∧ y = upd i then
        (if s.forward (upd i) i = some xl.id then
          u32add (s.span (upd i) i) (u32sub (s.span xl.id i) 1)
         else u32sub (s.span (upd i) i) 1)
      else s.span y i) :
    LevelsOK t (h :: P ++ post) := by
  have hF : h :: P ++ xl :: post = (h :: P) ++ xl :: post := rfl
  have hnF : ((h :: P).map Link.id).Nodup := by
    rw [hF] at hn
    simp only [List.map_append] at hn
    exact (List.nodup_append.mp hn).1
  have hdisj : ∀ c ∈ h :: P, ∀ d ∈ xl :: post, c.id ≠ d.id := by
    intro c hc d hd
    rw [hF] at hn
    simp only [List.map_append] at hn
    have := (List.nodup_append.mp hn).2.2
    intro hcd
    exact this (List.mem_map_of_mem _ hc) (by rw [hcd]; exact List.mem_map_of_mem _ hd)
  have hxpost : ∀ d ∈ post, d.id ≠ xl.id := by
    intro d hd hdx
    rw [hF] at hn
    simp only [List.map_append, List.map_cons] at hn
    have := (List.nodup_cons.mp (List.nodup_append.mp hn).2.1).1
    exact this (by rw [← hdx]; exact List.mem_map_of_mem _ hd)
  have hxcell := levelsOK_cell s (h :: P) post xl hlv
  have hpost : LevelsOK t post := by
    apply levelsOK_frame s t htl post (levelsOK_append s (h :: P ++ [xl]) post (by simpa using hlv))
    intro c hc i
    have hne : ¬ (i < s.level ∧ c.id = upd i) := by
      rintro ⟨hi, hcu⟩
      obtain ⟨l1, b, l2, he, _, _, hu, _⟩ := hpred i hi
      exact hdisj b (by rw [he]; simp) c (by simp [hc]) (by rw [← hu, ← hcu])
    rw [hcf, hcs]
    have hne2 : ¬ (i < s.level ∧ c.id = upd i ∧ s.forward (upd i) i = some xl.id) :=
      fun h3 => hne ⟨h3.1, h3.2.1⟩
    simp [hne, hne2]
  rw [show h :: P ++ post = (h :: P) ++ post from rfl]
  apply levelsOK_relink s t (xl :: post) post (h :: P) hlv hpost
  intro l1 b l2 he i hi
  obtain ⟨hsub, hlen⟩ := mem_tail_of_split _ _ _ _ _ he
  have hcell := levelsOK_cell s l1 (l2 ++ xl :: post) b
    (by rw [hF, he] at hlv; simpa using hlv) i hi
  constructor
  · rintro ⟨c, hc, hci⟩
    have hcl := (hreal c (by simp [hsub c hc])).2
    have his : i < s.level := by omega
    obtain ⟨l1b, bb, l2b, heb, hbb, hlb, hub, _⟩ := hpred i his
    have hne : b.id ≠ upd i := by
      intro hbu
      obtain ⟨_, _, h3⟩ := nodup_split (h :: P) l1 l2 l1b l2b b bb hnF he heb (by rw [hbu, hub])
      have := hlb c (by rw [← h3]; exact hc)
      omega
    rw [hcf, hcs]
    simp [hne, his]
  · intro hl
    rw [nextAt_append_low i l2 _ hl] at hcell
    rw [distAt_append_low i l2 _ hl] at hcell
    by_cases his : i < s.level
    · obtain ⟨l1b, bb, l2b, heb, hbb, hlb, hub, _⟩ := hpred i his
      obtain ⟨h1, h2, h3⟩ := last_high_unique i l1 l1b l2 l2b b bb (by rw [← he, ← heb]) hi hl hbb hlb
      subst h1 h2 h3
      rw [hcf, hcs, hub]
      by_cases hxi : i < xl.height
      · have hfx : s.forward b.id i = some xl.id := by rw [hcell.1]; simp [nextAt, hxi]
        have hsx : s.span b.id i = (l2.length + 1) % 4294967296 := by
          rw [hcell.2 his]; simp [distAt, hxi]
        simp only [his, hfx, and_self, if_true]
        refine ⟨(hxcell i hxi).1, fun _ => ?_⟩
        rw [hsx, (hxcell i hxi).2 his]
        exact u32add_unlink _ _
      · have hfx : s.forward b.id i = nextAt i post := by rw [hcell.1]; simp [nextAt, hxi]
        have hsx : s.span b.id i = (l2.length + distAt i post + 1) % 4294967296 := by
          rw [hcell.2 his]; simp [distAt, hxi]; rfl
        have hne : s.forward b.id i ≠ some xl.id := by
          rw [hfx]
          intro hcon
          obtain ⟨d, hd, hdx, _⟩ := nextAt_some i post _ hcon
          exact hxpost d hd hdx
        simp only [his, hne, and_false, and_true, if_false, if_true]
        refine ⟨hfx, fun _ => ?_⟩
        rw [hsx]
        exact u32sub_one _
    · have hne : ¬ (i < s.level ∧ b.id = upd i ∧ s.forward (upd i) i = some xl.id) :=
        fun h3 => his h3.1
      rw [hcf]
      simp only [hne, if_false]
      have hxl : ¬ i < xl.height := by
        have := (hreal xl (by simp)).2
        omega
      rw [hcell.1]
      refine ⟨by simp [nextAt, hxl], fun h2 => absurd h2 (by omega)⟩

/-! ## What the loops leave alone -/

theorem sameData_refl (s : skiplist α) : SameData s s :=
  ⟨rfl, rfl, rfl, rfl, rfl, rfl, rfl, rfl, fun _ => rfl, fun _ => rfl, fun _ => rfl⟩

theorem sameData_trans (s t u : skiplist α) (h1 : SameData s t) (h2 : SameData t u) :
    SameData s u :=
  ⟨h2.header.trans h1.header, h2.brk.trans h1.brk, h2.compare.trans h1.compare,
   h2.release.trans h1.release, h2.effects.trans h1.effects, h2.tail.trans h1.tail,
   h2.level.trans h1.level, h2.length.trans h1.length,
   fun y => (h2.obj y).trans (h1.obj y), fun y => (h2.score y).trans (h1.score y),
   fun y => (h2.backward y).trans (h1.backward y)⟩

theorem sameData_setForward (s : skiplist α) (x i : Nat) (f : Option Nat) :
    SameData s (s.setForward x i f) :=
  ⟨rfl, rfl, rfl, rfl, rfl, rfl, rfl, rfl, fun _ => by simp, fun _ => by simp,
   fun _ => by simp⟩

theorem sameData_setSpan (s : skiplist α) (x i : Nat) (v : Nat) :
    SameData s (s.setSpan x i v) :=
  ⟨rfl, rfl, rfl, rfl, rfl, rfl, rfl, rfl, fun _ => by simp, fun _ => by simp,
   fun _ => by simp⟩

theorem forRange_sameData (body : Nat → skiplist α → skiplist α)
    (h : ∀ i s, SameData s (body i s)) : ∀ (n lo : Nat) (s : skiplist α),
    SameData s (forRange body lo n s) := by
  intro n
  induction n with
  | zero => intro lo s; exact sameData_refl s
  | succ n ih =>
    intro lo s
    unfold forRange
    exact sameData_trans _ _ _ (h lo s) (ih (lo + 1) (body lo s))

theorem sameData_deleteUnlink (x : Nat) (update : Nat → Nat) (i : Nat) (s : skiplist α) :
    SameData s (deleteUnlink x update i s) := by
  unfold deleteUnlink
  split
  · exact sameData_trans _ _ _ (sameData_setSpan _ _ _ _) (sameData_setForward _ _ _ _)
  · exact sameData_setSpan _ _ _ _

theorem sameData_insertLink (x : Nat) (update rank : Nat → Nat) (i : Nat) (s : skiplist α) :
    SameData s (insertLink x update rank i s) := by
  unfold insertLink
  exact sameData_trans _ _ _ (sameData_trans _ _ _ (sameData_trans _ _ _
    (sameData_setForward _ _ _ _) (sameData_setForward _ _ _ _))
    (sameData_setSpan _ _ _ _)) (sameData_setSpan _ _ _ _)

theorem sameData_insertBump (update : Nat → Nat) (i : Nat) (s : skiplist α) :
    SameData s (insertBump update i s) := by
  unfold insertBump
  exact sameData_setSpan _ _ _ _

/-! ## Closed forms of the loops of `skiplistDeleteNode` and `skiplistInsert` -/

theorem deleteUnlink_forward (x : Nat) (update : Nat → Nat) (i : Nat) (s : skiplist α)
    (y : Nat) :
    (deleteUnlink x update i s).forward y i =
      if y = update i ∧ s.forward (update i) i = some x then s.forward x i
      else s.forward y i := by
  unfold deleteUnlink
  by_cases h : s.forward (update i) i = some x
  · simp [h]
  · simp [h]

theorem deleteUnlink_span (x : Nat) (update : Nat → Nat) (i : Nat) (s : skiplist α)
    (y : Nat) :
    (deleteUnlink x update i s).span y i =
      if y = update i then
        (if s.forward (update i) i = some x then
          u32add (s.span (update i) i) (u32sub (s.span x i) 1)
         else u32sub (s.span (update i) i) 1)
      else s.span y i := by
  unfold deleteUnlink
  by_cases h : s.forward (update i) i = some x
  · simp [h]
  · simp [h]

theorem deleteLoop_cells (x : Nat) (update : Nat → Nat) (n : Nat) (s : skiplist α)
    (y i : Nat) :
    (forRange (deleteUnlink x update) 0 n s).forward y i =
      (if i < n ∧ y = update i ∧ s.forward (update i) i = some x then s.forward x i
       else s.forward y i) ∧
    (forRange (deleteUnlink x update) 0 n s).span y i =
      (if i < n ∧ y = update i then
        (if s.forward (update i) i = some x then
          u32add (s.span (update i) i) (u32sub (s.span x i) 1)
         else u32sub (s.span (update i) i) 1)
       else s.span y i) := by
  have := forRange_cell (deleteUnlink x update) (deleteUnlink_other x update)
    (sameData_deleteUnlink x update) (deleteUnlink_congr x update) n 0 s y i
  rw [this.1, this.2, deleteUnlink_forward, deleteUnlink_span]
  by_cases hi : i < n
  · simp [hi]
  · simp [hi]

theorem insertLoops_cells (x : Nat) (update rank : Nat → Nat) (lvl L : Nat) (c : skiplist α)
    (hL : lvl ≤ L) (hx : ∀ i, i < lvl → x ≠ update i) (y i : Nat) :
    (forRange (insertBump update) lvl (L - lvl)
        (forRange (insertLink x update rank) 0 lvl c)).forward y i =
      (if i < lvl then
        (if y = x then c.forward (update i) i else if y = update i then some x
         else c.forward y i)
       else c.forward y i) ∧
    (forRange (insertBump update) lvl (L - lvl)
        (forRange (insertLink x update rank) 0 lvl c)).span y i =
      (if i < lvl then
        (if y = x then u32sub (c.span (update i) i) (u32sub (rank 0) (rank i))
         else if y = update i then u32add (u32sub (rank 0) (rank i)) 1 else c.span y i)
       else if i < L then
        (if y = update i then u32add (c.span y i) 1 else c.span y i)
       else c.span y i) := by
  have h1 := forRange_cell (insertBump update) (insertBump_other update)
    (sameData_insertBump update) (insertBump_congr update) (L - lvl) lvl
    (forRange (insertLink x update rank) 0 lvl c) y i
  have h2 := forRange_cell (insertLink x update rank) (insertLink_other x update rank)
    (sameData_insertLink x update rank) (insertLink_congr x update rank) lvl 0 c
  rw [h1.1, h1.2]
  by_cases hi : i < lvl
  · have hc : ¬ (lvl ≤ i ∧ i < lvl + (L - lvl)) := by omega
    simp only [hc, if_false, hi, if_true]
    rw [(h2 y i).1, (h2 y i).2]
    have hc2 : 0 ≤ i ∧ i < 0 + lvl := by omega
    simp only [hc2, and_self, if_true]
    rw [insertLink_forward x update rank i c y (hx i hi),
      insertLink_span x update rank i c y (hx i hi)]
    exact ⟨rfl, rfl⟩
  · by_cases hiL : i < L
    · have hc : lvl ≤ i ∧ i < lvl + (L - lvl) := by omega
      have hc2 : ¬ (0 ≤ i ∧ i < 0 + lvl) := by omega
      simp only [hc, and_self, if_true, hi, if_false, hiL]
      simp only [insertBump, forward_setSpan, span_setSpan, and_true]
      rw [(h2 y i).1, (h2 y i).2, (h2 (update i) i).2]
      simp only [hc2, if_false]
      by_cases hy : y = update i
      · subst hy; simp
      · simp [hy]
    · have hc : ¬ (lvl ≤ i ∧ i < lvl + (L - lvl)) := by omega
      have hc2 : ¬ (0 ≤ i ∧ i < 0 + lvl) := by omega
      simp only [hc, if_false, hi, hiL]
      rw [(h2 y i).1, (h2 y i).2]
      simp only [hc2, if_false]
      simp

/-! ## The loop that lowers the level -/

theorem shrinkLevel_spec (s : skiplist α) : ∀ l, 1 ≤ l →
    1 ≤ shrinkLevel s l ∧ shrinkLevel s l ≤ l ∧
    (∀ i, shrinkLevel s l ≤ i → i < l → s.forward s.header i = none) ∧
    (shrinkLevel s l = 1 ∨ s.forward s.header (shrinkLevel s l - 1) ≠ none) := by
  intro l
  induction l with
  | zero => intro h; omega
  | succ l ih =>
    intro _
    cases l with
    | zero =>
      refine ⟨by simp [shrinkLevel], by simp [shrinkLevel], ?_, Or.inl (by simp [shrinkLevel])⟩
      intro i hi hil
      simp [shrinkLevel] at hi
      omega
    | succ l =>
      unfold shrinkLevel
      by_cases hf : s.forward s.header (l + 1) = none
      · simp only [hf, if_true]
        obtain ⟨h1, h2, h3, h4⟩ := ih (by omega)
        refine ⟨h1, by omega, ?_, h4⟩
        intro i hi hil
        by_cases hil2 : i < l + 1
        · exact h3 i hi hil2
        · have : i = l + 1 := by omega
          rw [this]; exact hf
      · simp only [hf, if_false]
        refine ⟨by omega, le_refl _, ?_, Or.inr ?_⟩
        · intro i hi hil; omega
        · simpa using hf

/-! ## Backward pointers -/

theorem backOK_frame (s t : skiplist α) (htail : t.tail = s.tail) :
    ∀ (l : List Nat) (prev : Option Nat),
      (∀ y ∈ l, (t.mem y).backward = (s.mem y).backward) →
      BackOK s prev l → BackOK t prev l := by
  intro l
  induction l with
  | nil => intro prev _ h; exact htail.trans h
  | cons y l ih =>
    intro prev hy h
    exact ⟨(hy y (by simp)).trans h.1, ih (some y) (fun z hz => hy z (by simp [hz])) h.2⟩

theorem backOK_insert (s t : skiplist α) (x : Nat) (post : List Nat)
    (hpost : ∀ y ∈ post.tail, (t.mem y).backward = (s.mem y).backward)
    (hhead : ∀ y ∈ post.head?, (t.mem y).backward = some x)
    (htail : t.tail = if post = [] then some x else s.tail) :
    ∀ (pre : List Nat) (prev : Option Nat),
      (∀ y ∈ pre, (t.mem y).backward = (s.mem y).backward) →
      (t.mem x).backward = lastId prev pre →
      BackOK s prev (pre ++ post) → BackOK t prev (pre ++ x :: post) := by
  intro pre
  induction pre with
  | nil =>
    intro prev _ hx h
    refine ⟨hx, ?_⟩
    cases post with
    | nil => simpa using htail
    | cons y post =>
      refine ⟨hhead y (by simp), ?_⟩
      have ht : t.tail = s.tail := by simpa using htail
      exact backOK_frame s t ht post (some y) (fun z hz => hpost z (by simpa using hz)) h.2
  | cons y pre ih =>
    intro prev hy hx h
    exact ⟨(hy y (by simp)).trans h.1,
      ih (some y) (fun z hz => hy z (by simp [hz])) hx h.2⟩

theorem backOK_delete (s t : skiplist α) (x : Nat) (post : List Nat)
    (hpost : ∀ y ∈ post.tail, (t.mem y).backward = (s.mem y).backward)
    (hhead : ∀ y ∈ post.head?, (t.mem y).backward = (s.mem x).backward)
    (htail : t.tail = if post = [] then (s.mem x).backward else s.tail) :
    ∀ (pre : List Nat) (prev : Option Nat),
      (∀ y ∈ pre, (t.mem y).backward = (s.mem y).backward) →
      BackOK s prev (pre ++ x :: post) → BackOK t prev (pre ++ post) := by
  intro pre
  induction pre with
  | nil =>
    intro prev _ h
    have hx : (s.mem x).backward = prev := h.1
    cases post with
    | nil => simpa [BackOK, hx] using htail
    | cons y post =>
      refine ⟨(hhead y (by simp)).trans hx, ?_⟩
      have ht : t.tail = s.tail := by simpa using htail
      exact backOK_frame s t ht post (some y) (fun z hz => hpost z (by simpa using hz)) h.2.2
  | cons y pre ih =>
    intro prev hy h
    exact ⟨(hy y (by simp)).trans h.1, ih (some y) (fun z hz => hy z (by simp [hz])) h.2⟩

/-- The backward pointer of a node of the chain is its predecessor. -/
theorem backOK_at (s : skiplist α) (x : Nat) (post : List Nat) :
    ∀ (pre : List Nat) (prev : Option Nat),
      BackOK s prev (pre ++ x :: post) → (s.mem x).backward = lastId prev pre := by
  intro pre
  induction pre with
  | nil => intro prev h; exact h.1
  | cons y pre ih => intro prev h; exact ih (some y) h.2

theorem lastId_append_singleton (prev : Option Nat) (l : List Nat) (x : Nat) :
    lastId prev (l ++ [x]) = some x := by
  induction l generalizing prev with
  | nil => rfl
  | cons y l ih => exact ih (some y)

theorem shrinkLevel_congr (s t : skiplist α)
    (h : ∀ i, s.forward s.header i = t.forward t.header i) :
    ∀ l, shrinkLevel s l = shrinkLevel t l := by
  intro l
  induction l with
  | zero => rfl
  | succ l ih =>
    cases l with
    | zero => rfl
    | succ l =>
      unfold shrinkLevel
      rw [h (l + 1), ih]

/-- The shape of the result of `skiplistDeleteNode`. -/
theorem deleteNode_shape (sl : skiplist α) (x : Nat) (upd : Nat → Nat) :
    (∀ y i, (skiplistDeleteNode sl x upd).forward y i =
      (forRange (deleteUnlink x upd) 0 sl.level sl).forward y i) ∧
    (∀ y i, (skiplistDeleteNode sl x upd).span y i =
      (forRange (deleteUnlink x upd) 0 sl.level sl).span y i) ∧
    (skiplistDeleteNode sl x upd).header = sl.header ∧
    (skiplistDeleteNode sl x upd).brk = sl.brk ∧
    (skiplistDeleteNode sl x upd).compare = sl.compare ∧
    (skiplistDeleteNode sl x upd).release = sl.release ∧
    (skiplistDeleteNode sl x upd).effects = sl.effects ∧
    (skiplistDeleteNode sl x upd).level =
      shrinkLevel (skiplistDeleteNode sl x upd) sl.level ∧
    (skiplistDeleteNode sl x upd).length = sl.length - 1 ∧
    (∀ y, ((skiplistDeleteNode sl x upd).mem y).obj = (sl.mem y).obj) ∧
    (∀ y, ((skiplistDeleteNode sl x upd).mem y).score = (sl.mem y).score) ∧
    (((forRange (deleteUnlink x upd) 0 sl.level sl).forward x 0 = none ∧
        (skiplistDeleteNode sl x upd).tail = (sl.mem x).backward ∧
        ∀ z, ((skiplistDeleteNode sl x upd).mem z).backward = (sl.mem z).backward) ∨
     (∃ y, (forRange (deleteUnlink x upd) 0 sl.level sl).forward x 0 = some y ∧
        (skiplistDeleteNode sl x upd).tail = sl.tail ∧
        ∀ z, ((skiplistDeleteNode sl x upd).mem z).backward =
          if z = y then (sl.mem x).backward else (sl.mem z).backward)) := by
  have hsd := forRange_sameData (deleteUnlink x upd) (sameData_deleteUnlink x upd) sl.level 0 sl
  unfold skiplistDeleteNode
  cases hf : (forRange (deleteUnlink x upd) 0 sl.level sl).forward x 0 with
  | none =>
    simp only [hf]
    refine ⟨fun _ _ => rfl, fun _ _ => rfl, hsd.header, hsd.brk, hsd.compare, hsd.release,
      hsd.effects, ?_, by simp only [hsd.length], hsd.obj, hsd.score,
      Or.inl ⟨trivial, hsd.backward x, hsd.backward⟩⟩
    simp only [hsd.level]
    apply shrinkLevel_congr
    intro i
    rfl
  | some y =>
    simp only [hf]
    refine ⟨fun _ _ => ?_, fun _ _ => ?_,
      hsd.header, hsd.brk, hsd.compare,
      hsd.release, hsd.effects, ?_, by simp only [length_setBackward, hsd.length],
      fun z => ?_, fun z => ?_, Or.inr ⟨y, by simp, hsd.tail, fun z => ?_⟩⟩
    · exact forward_setBackward _ _ _ _ _
    · exact span_setBackward _ _ _ _ _
    · simp only [level_setBackward, hsd.level]
      apply shrinkLevel_congr
      intro i
      rfl
    · show (((forRange (deleteUnlink x upd) 0 sl.level sl).setBackward y _).mem z).obj = _
      simp [hsd.obj]
    · show (((forRange (deleteUnlink x upd) 0 sl.level sl).setBackward y _).mem z).score = _
      simp [hsd.score]
    · show (((forRange (deleteUnlink x upd) 0 sl.level sl).setBackward y _).mem z).backward = _
      simp [hsd.backward]

/-! ## `skiplistDeleteNode` keeps the invariant -/

theorem map_link_id (A : List (ANode α)) :
    (A.map ANode.link).map Link.id = A.map ANode.id := by
  simp [ANode.link, Function.comp]

theorem nodup_facts (h x : Nat) (pre post : List Nat)
    (hn : (h :: (pre ++ x :: post)).Nodup) :
    (h ∉ pre ∧ h ≠ x ∧ h ∉ post) ∧ pre.Nodup ∧ (x ∉ post ∧ post.Nodup) ∧ x ∉ pre ∧
      pre.Disjoint post := by
  simpa [List.nodup_append, List.nodup_cons] using hn

theorem nodup_remove (h x : Nat) (pre post : List Nat)
    (hn : (h :: (pre ++ x :: post)).Nodup) : (h :: (pre ++ post)).Nodup := by
  obtain ⟨⟨h1, h2, h3⟩, h4, ⟨h5, h6⟩, h7, h8⟩ := nodup_facts h x pre post hn
  simp [List.nodup_append, List.nodup_cons, h1, h3, h4, h6, h8]

/-- The address recorded at a level by a descent is that of the header or of a
node of the part in front of the cut. -/
theorem isPred_mem (h : Link) (P : List Link) (ρ : Nat → Nat) (upd rnk : Nat → Nat) (i : Nat)
    (hp : IsPred (h :: P) ρ upd rnk i) : upd i ∈ (h :: P).map Link.id := by
  obtain ⟨l1, b, l2, he, _, _, hu, _⟩ := hp
  rw [hu, he]
  exact List.mem_map_of_mem _ (by simp)

theorem nextAt_zero (l : List Link) (hreal : ∀ c ∈ l, 1 ≤ c.height) :
    nextAt 0 l = l.head?.map Link.id := by
  cases l with
  | nil => rfl
  | cons a l =>
    have := hreal a (by simp)
    simp [nextAt]
    omega

theorem deleteNode_inv (sl : skiplist α) (pre post : List (ANode α)) (x : ANode α)
    (ρ : Nat → Nat) (upd rnk : Nat → Nat)
    (hinv : Inv sl (pre ++ x :: post))
    (hpred : ∀ i, i < sl.level → IsPred (headLink sl :: pre.map ANode.link) ρ upd rnk i) :
    Inv (skiplistDeleteNode sl x.id upd) (pre ++ post) := by
  obtain ⟨hf2, hs2, hh, hb, hc, hr, he, hl, hlen, hobj, hscore, hback⟩ :=
    deleteNode_shape sl x.id upd
  have hcells := deleteLoop_cells x.id upd sl.level sl
  generalize skiplistDeleteNode sl x.id upd = t at *
  have hnd := hinv.nodup
  simp only [List.map_append, List.map_cons] at hnd
  obtain ⟨⟨n1, n2, n3⟩, n4, ⟨n5, n6⟩, n7, n8⟩ := nodup_facts _ _ _ _ hnd
  have hlinks : (pre ++ x :: post).map ANode.link =
      pre.map ANode.link ++ x.link :: post.map ANode.link := by simp
  have hlevels := hinv.levels
  rw [hlinks] at hlevels
  have hspec := shrinkLevel_spec t sl.level hinv.level_pos
  rw [← hl] at hspec
  have hxu : ∀ i, i < sl.level → x.id ≠ upd i := by
    intro i hi hxu
    have := isPred_mem _ _ _ _ _ _ (hpred i hi)
    rw [← hxu] at this
    simp only [List.map_cons, map_link_id, headLink, List.mem_cons] at this
    rcases this with h1 | h1
    · exact n2 h1.symm
    · exact n7 h1
  -- the levels
  have hLv : LevelsOK t (headLink sl :: pre.map ANode.link ++ post.map ANode.link) := by
    apply levelsOK_delete sl t (headLink sl) (pre.map ANode.link) (post.map ANode.link)
      x.link ρ upd rnk
    · simpa [map_link_id, headLink, ANode.link] using hnd
    · exact hlevels
    · exact hpred
    · intro c hc
      have : c ∈ (pre ++ x :: post).map ANode.link := by rw [hlinks]; exact hc
      obtain ⟨a, ha, rfl⟩ := List.mem_map.mp this
      exact hinv.heights a ha
    · exact hspec.2.1
    · intro y i
      rw [hf2, (hcells y i).1]
      rfl
    · intro y i
      rw [hs2, (hcells y i).2]
      rfl
  have hhead : headLink t = headLink sl := by
    simp [headLink, hh]
  have hLv2 : LevelsOK t (headLink sl :: (pre ++ post).map ANode.link) := by
    simpa using hLv
  have hhdrcell : ∀ i, i < 32 → t.forward t.header i =
      nextAt i ((pre ++ post).map ANode.link) := by
    intro i hi
    have := (hLv2.1 i hi).1
    rw [hh]
    exact this
  have hsub : ∀ a ∈ pre ++ post, a ∈ pre ++ x :: post := by
    intro a ha
    simp at ha ⊢
    tauto
  refine ⟨?_, ?_, ?_, ?_, ?_, hspec.1, ?_, ?_, ?_, ?_, ?_, ?_, ?_, ?_, ?_⟩
  · rw [hc]; exact hinv.cmp_ok
  · rw [hh, hb]; exact hinv.hdr_lt
  · intro a ha
    rw [hb]; exact hinv.ids_lt a (hsub a ha)
  · rw [hh]
    simpa using nodup_remove _ _ _ _ hnd
  · intro a ha
    have h1 := hinv.heights a (hsub a ha)
    refine ⟨h1.1, ?_⟩
    by_contra hcon
    have h2 := hspec.2.2.1 (a.height - 1) (by omega) (by omega)
    rw [hhdrcell _ (by have := hinv.level_le; omega)] at h2
    have := nextAt_eq_none _ _ h2 a.link (List.mem_map_of_mem _ ha)
    simp [ANode.link] at this
    omega
  · have := hinv.level_le
    have := hspec.2.1
    omega
  · rcases hspec.2.2.2 with h1 | h1
    · exact Or.inl h1
    · right
      rw [hhdrcell _ (by have := hinv.level_le; have := hspec.2.1; omega)] at h1
      cases hn : nextAt (t.level - 1) ((pre ++ post).map ANode.link) with
      | none => exact absurd hn h1
      | some y =>
        obtain ⟨c, hc1, _, hc3, _⟩ := nextAt_some _ _ _ hn
        obtain ⟨a, ha, rfl⟩ := List.mem_map.mp hc1
        exact ⟨a, ha, by simp [ANode.link] at hc3; omega⟩
  · rw [hhead]; exact hLv2
  · intro a ha
    rw [hobj, hscore]
    exact hinv.data a (hsub a ha)
  · rw [hh, hobj]; exact hinv.hdr_obj
  · -- backward pointers
    have hx0 : (forRange (deleteUnlink x.id upd) 0 sl.level sl).forward x.id 0 =
        (post.map ANode.id).head? := by
      rw [(hcells x.id 0).1]
      have hne : ¬ (0 < sl.level ∧ x.id = upd 0 ∧ sl.forward (upd 0) 0 = some x.id) :=
        fun h3 => hxu 0 h3.1 h3.2.1
      simp only [hne, if_false]
      have hcell := levelsOK_cell sl (headLink sl :: pre.map ANode.link)
        (post.map ANode.link) x.link hlevels 0 (hinv.heights x (by simp)).1
      have h1 : sl.forward x.id 0 = nextAt 0 (post.map ANode.link) := hcell.1
      rw [h1, nextAt_zero]
      · cases post <;> simp [ANode.link]
      · intro c hc
        obtain ⟨a, ha, rfl⟩ := List.mem_map.mp hc
        exact (hinv.heights a (by simp [ha])).1
    have hbk := hinv.back
    simp only [List.map_append, List.map_cons] at hbk
    rw [List.map_append]
    rcases hback with ⟨h1, h2, h3⟩ | ⟨y, h1, h2, h3⟩
    · rw [hx0] at h1
      have hp : post.map ANode.id = [] := by
        cases hpm : post.map ANode.id with
        | nil => rfl
        | cons z l => rw [hpm] at h1; simp at h1
      rw [hp] at hbk ⊢
      exact backOK_delete sl t x.id [] (by simp) (by simp) (by simpa using h2) _ none
        (fun z _ => h3 z) hbk
    · rw [hx0] at h1
      cases hpm : post.map ANode.id with
      | nil => rw [hpm] at h1; simp at h1
      | cons z l =>
        rw [hpm] at h1 hbk n5 n6 n8
        simp at h1
        subst h1
        apply backOK_delete sl t x.id (z :: l) _ _ (by simpa using h2) _ none _ hbk
        · intro w hw
          rw [h3]
          have : w ≠ z := by
            intro hwy
            subst hwy
            exact (List.nodup_cons.mp n6).1 (by simpa using hw)
          simp [this]
        · intro w hw
          simp at hw
          subst hw
          rw [h3]
          simp
        · intro w hw
          rw [h3]
          have : w ≠ z := by
            intro hwy
            subst hwy
            exact n8 hw (by simp)
          simp [this]
  · rw [hlen, hinv.length_eq]
    simp
  · rw [hb]
    have := hinv.room
    simp at this ⊢
    omega
  · have hs := hinv.sorted
    rw [hc]
    unfold Ascending at hs ⊢
    apply List.Pairwise.sublist _ hs
    apply List.Sublist.map
    exact List.Sublist.append (List.Sublist.refl _) (List.sublist_cons_self _ _)

/-! ## The two parts of `skiplistInsert` -/

theorem raiseLoop_spec (n lo : Nat) (sl : skiplist α) :
    SameData sl (forRange (fun i s => s.setSpan s.header i (s.length % 4294967296)) lo n sl) ∧
    ∀ y i,
      (forRange (fun i s => s.setSpan s.header i (s.length % 4294967296)) lo n sl).forward y i
        = sl.forward y i ∧
      (forRange (fun i s => s.setSpan s.header i (s.length % 4294967296)) lo n sl).span y i =
        if y = sl.header ∧ lo ≤ i ∧ i < lo + n then sl.length % 4294967296
        else sl.span y i := by
  have hsd : ∀ i (s : skiplist α), SameData s (s.setSpan s.header i (s.length % 4294967296)) :=
    fun i s => sameData_setSpan _ _ _ _
  refine ⟨forRange_sameData _ hsd n lo sl, fun y i => ?_⟩
  have := forRange_cell (fun i (s : skiplist α) => s.setSpan s.header i (s.length % 4294967296))
    (fun i s y j hj => by simp [hj]) hsd
    (fun i s t hst h y => by simp [hst.header, hst.length, (h y).1, (h y).2]) n lo sl y i
  rw [this.1, this.2]
  by_cases hi : lo ≤ i ∧ i < lo + n
  · simp [hi]
  · simp [hi]

theorem insertLevelUp_spec (sl : skiplist α) (lvl : Nat) (upd rnk : Nat → Nat) :
    (insertLevelUp sl lvl upd rnk).1.level = max sl.level lvl ∧
    (insertLevelUp sl lvl upd rnk).1.header = sl.header ∧
    (insertLevelUp sl lvl upd rnk).1.brk = sl.brk ∧
    (insertLevelUp sl lvl upd rnk).1.compare = sl.compare ∧
    (insertLevelUp sl lvl upd rnk).1.release = sl.release ∧
    (insertLevelUp sl lvl upd rnk).1.effects = sl.effects ∧
    (insertLevelUp sl lvl upd rnk).1.tail = sl.tail ∧
    (insertLevelUp sl lvl upd rnk).1.length = sl.length ∧
    (∀ y, ((insertLevelUp sl lvl upd rnk).1.mem y).obj = (sl.mem y).obj) ∧
    (∀ y, ((insertLevelUp sl lvl upd rnk).1.mem y).score = (sl.mem y).score) ∧
    (∀ y, ((insertLevelUp sl lvl upd rnk).1.mem y).backward = (sl.mem y).backward) ∧
    (∀ y i, (insertLevelUp sl lvl upd rnk).1.forward y i = sl.forward y i) ∧
    (∀ y i, (insertLevelUp sl lvl upd rnk).1.span y i =
      if y = sl.header ∧ sl.level ≤ i ∧ i < lvl then sl.length % 4294967296
      else sl.span y i) ∧
    (∀ i, (insertLevelUp sl lvl upd rnk).2.1 i =
      if sl.level ≤ i ∧ i < lvl then sl.header else upd i) ∧
    (∀ i, (insertLevelUp sl lvl upd rnk).2.2 i =
      if sl.level ≤ i ∧ i < lvl then 0 else rnk i) := by
  unfold insertLevelUp
  by_cases h : lvl > sl.level
  · rw [if_pos h]
    simp only [forRange_insertRaise]
    obtain ⟨hsd, hc⟩ := raiseLoop_spec (lvl - sl.level) sl.level sl
    have hr : ∀ i, (sl.level ≤ i ∧ i < sl.level + (lvl - sl.level)) ↔
        (sl.level ≤ i ∧ i < lvl) := by intro i; omega
    refine ⟨by simp; omega, hsd.header, hsd.brk, hsd.compare, hsd.release, hsd.effects,
      hsd.tail, hsd.length, hsd.obj, hsd.score, hsd.backward, fun y i => (hc y i).1,
      fun y i => ?_, fun i => by simp only [hr], fun i => by simp only [hr]⟩
    have := (hc y i).2
    simp only [hr] at this
    exact this
  · rw [if_neg h]
    have hr : ∀ i, ¬ (sl.level ≤ i ∧ i < lvl) := by intro i; omega
    refine ⟨by simp; omega, rfl, rfl, rfl, rfl, rfl, rfl, rfl, fun _ => rfl, fun _ => rfl,
      fun _ => rfl, fun _ _ => rfl, fun y i => by simp [hr], fun i => by simp [hr],
      fun i => by simp [hr]⟩

/-- The shape of the result of the second part of `skiplistInsert`. -/
theorem insertSplice_shape (s : skiplist α) (score : double) (obj : α) (lvl : Nat)
    (upd rnk : Nat → Nat) (hL : lvl ≤ s.level) (hl1 : 1 ≤ lvl)
    (hx : ∀ i, i < lvl → s.brk ≠ upd i) :
    (insertSplice s score obj lvl upd rnk).2 = s.brk ∧
    (∀ y i, (insertSplice s score obj lvl upd rnk).1.forward y i =
      if i < lvl then
        (if y = s.brk then s.forward (upd i) i else if y = upd i then some s.brk
         else s.forward y i)
      else s.forward y i) ∧
    (∀ y i, (insertSplice s score obj lvl upd rnk).1.span y i =
      if i < lvl then
        (if y = s.brk then u32sub (s.span (upd i) i) (u32sub (rnk 0) (rnk i))
         else if y = upd i then u32add (u32sub (rnk 0) (rnk i)) 1 else s.span y i)
      else if i < s.level then
        (if y = upd i then u32add (s.span y i) 1 else s.span y i)
      else s.span y i) ∧
    (insertSplice s score obj lvl upd rnk).1.header = s.header ∧
    (insertSplice s score obj lvl upd rnk).1.brk = s.brk + 1 ∧
    (insertSplice s score obj lvl upd rnk).1.compare = s.compare ∧
    (insertSplice s score obj lvl upd rnk).1.release = s.release ∧
    (insertSplice s score obj lvl upd rnk).1.effects = s.effects ∧
    (insertSplice s score obj lvl upd rnk).1.level = s.level ∧
    (insertSplice s score obj lvl upd rnk).1.length = s.length + 1 ∧
    (∀ y, ((insertSplice s score obj lvl upd rnk).1.mem y).obj =
      if y = s.brk then some obj else (s.mem y).obj) ∧
    (∀ y, ((insertSplice s score obj lvl upd rnk).1.mem y).score =
      if y = s.brk then score else (s.mem y).score) ∧
    ((s.forward (upd 0) 0 = none ∧
        (insertSplice s score obj lvl upd rnk).1.tail = some s.brk ∧
        ∀ z, ((insertSplice s score obj lvl upd rnk).1.mem z).backward =
          if z = s.brk then (if upd 0 = s.header then none else some (upd 0))
          else (s.mem z).backward) ∨
     (∃ y, s.forward (upd 0) 0 = some y ∧
        (insertSplice s score obj lvl upd rnk).1.tail = s.tail ∧
        ∀ z, ((insertSplice s score obj lvl upd rnk).1.mem z).backward =
          if z = y then some s.brk
          else if z = s.brk then (if upd 0 = s.header then none else some (upd 0))
          else (s.mem z).backward)) := by
  have hcf : ∀ y i, (skiplistCreateNode s score (some obj)).1.forward y i = s.forward y i := by
    intro y i
    unfold skiplistCreateNode skiplist.forward
    by_cases hy : y = s.brk
    · subst hy; simp
    · simp [hy]
  have hcs : ∀ y i, (skiplistCreateNode s score (some obj)).1.span y i = s.span y i := by
    intro y i
    unfold skiplistCreateNode skiplist.span
    by_cases hy : y = s.brk
    · subst hy; simp
    · simp [hy]
  have hcobj : ∀ y, ((skiplistCreateNode s score (some obj)).1.mem y).obj =
      if y = s.brk then some obj else (s.mem y).obj := by
    intro y
    unfold skiplistCreateNode
    by_cases hy : y = s.brk
    · subst hy; simp
    · simp [hy]
  have hcscore : ∀ y, ((skiplistCreateNode s score (some obj)).1.mem y).score =
      if y = s.brk then score else (s.mem y).score := by
    intro y
    unfold skiplistCreateNode
    by_cases hy : y = s.brk
    · subst hy; simp
    · simp [hy]
  have hcback : ∀ y, ((skiplistCreateNode s score (some obj)).1.mem y).backward =
      (s.mem y).backward := by
    intro y
    unfold skiplistCreateNode
    by_cases hy : y = s.brk
    · subst hy; simp
    · simp [hy]
  have hsd2 := forRange_sameData (insertLink s.brk upd rnk) (sameData_insertLink s.brk upd rnk)
    lvl 0 (skiplistCreateNode s score (some obj)).1
  have hlev : (forRange (insertLink s.brk upd rnk) 0 lvl
      (skiplistCreateNode s score (some obj)).1).level = s.level := hsd2.level
  have hsd3 := forRange_sameData (insertBump upd) (sameData_insertBump upd) (s.level - lvl) lvl
    (forRange (insertLink s.brk upd rnk) 0 lvl (skiplistCreateNode s score (some obj)).1)
  have hsd := sameData_trans _ _ _ hsd2 hsd3
  have hcells := insertLoops_cells s.brk upd rnk lvl s.level
    (skiplistCreateNode s score (some obj)).1 hL hx
  simp only [hcf, hcs] at hcells
  have hx0 : (forRange (insertBump upd) lvl (s.level - lvl)
      (forRange (insertLink s.brk upd rnk) 0 lvl
        (skiplistCreateNode s score (some obj)).1)).forward s.brk 0 = s.forward (upd 0) 0 := by
    rw [(hcells s.brk 0).1]
    have : 0 < lvl := by omega
    simp [this]
  have hc2 : (skiplistCreateNode s score (some obj)).2 = s.brk := rfl
  simp only [insertSplice, hlev, hc2, forward_setBackward, hx0]
  generalize hT : forRange (insertBump upd) lvl (s.level - lvl)
      (forRange (insertLink s.brk upd rnk) 0 lvl
        (skiplistCreateNode s score (some obj)).1) = T at *
  have hTh : T.header = s.header := hsd.header
  cases hf : s.forward (upd 0) 0 with
  | none =>
    simp only []
    refine ⟨trivial, fun y i => ?_, fun y i => ?_, hsd.header, hsd.brk, hsd.compare, hsd.release,
      hsd.effects, hsd.level, ?_, fun y => ?_, fun y => ?_, Or.inl ⟨trivial, trivial, fun z => ?_⟩⟩
    · show (T.setBackward s.brk _).forward y i = _
      rw [forward_setBackward, (hcells y i).1]
    · show (T.setBackward s.brk _).span y i = _
      rw [span_setBackward, (hcells y i).2]
    · show (T.setBackward s.brk _).length + 1 = _
      rw [length_setBackward, hsd.length]; rfl
    · show ((T.setBackward s.brk _).mem y).obj = _
      rw [obj_setBackward, hsd.obj, hcobj]
    · show ((T.setBackward s.brk _).mem y).score = _
      rw [score_setBackward, hsd.score, hcscore]
    · show ((T.setBackward s.brk _).mem z).backward = _
      rw [backward_setBackward, hsd.backward, hcback, hTh]
  | some w =>
    simp only []
    refine ⟨trivial, fun y i => ?_, fun y i => ?_, hsd.header, hsd.brk, hsd.compare, hsd.release,
      hsd.effects, hsd.level, ?_, fun y => ?_, fun y => ?_,
      Or.inr ⟨w, by simp, hsd.tail, fun z => ?_⟩⟩
    · show ((T.setBackward s.brk _).setBackward w _).forward y i = _
      rw [forward_setBackward, forward_setBackward, (hcells y i).1]
    · show ((T.setBackward s.brk _).setBackward w _).span y i = _
      rw [span_setBackward, span_setBackward, (hcells y i).2]
    · show ((T.setBackward s.brk _).setBackward w _).length + 1 = _
      rw [length_setBackward, length_setBackward, hsd.length]; rfl
    · show (((T.setBackward s.brk _).setBackward w _).mem y).obj = _
      rw [obj_setBackward, obj_setBackward, hsd.obj, hcobj]
    · show (((T.setBackward s.brk _).setBackward w _).mem y).score = _
      rw [score_setBackward, score_setBackward, hsd.score, hcscore]
    · show (((T.setBackward s.brk _).setBackward w _).mem z).backward = _
      rw [backward_setBackward, backward_setBackward, hsd.backward, hcback, hTh]

/-! ## The order of the entries -/

/-- The order of two entries whose scores are numbers. -/
theorem entryLt_num (cmp : α → α → Int) (u v : Int) (x y : α) :
    entryLt cmp (double.num u, x) (double.num v, y) ↔ u < v ∨ (u = v ∧ cmp x y < 0) := by
  simp [entryLt]

theorem entryLt_trans (cmp : α → α → Int) (hc : StrictTotal cmp) (a b c : double × α)
    (h1 : entryLt cmp a b) (h2 : entryLt cmp b c) : entryLt cmp a c := by
  obtain ⟨a1, a2⟩ := a
  obtain ⟨b1, b2⟩ := b
  obtain ⟨c1, c2⟩ := c
  cases a1 <;> cases b1 <;> cases c1 <;>
    simp only [entryLt, double.num_lt_num, double.eq_num, decide_eq_true_eq, double.not_nan_lt,
      double.not_lt_nan, double.eq_nan_left, double.eq_nan_right, false_and, or_self,
      Bool.false_eq_true] at h1 h2 ⊢
  rcases h1 with h1 | ⟨h1, h1b⟩
  · rcases h2 with h2 | ⟨h2, _⟩
    · left; omega
    · left; omega
  · rcases h2 with h2 | ⟨h2, h2b⟩
    · left; omega
    · right; exact ⟨by omega, hc.trans _ _ _ h1b h2b⟩

theorem entryLt_irrefl (cmp : α → α → Int) (hc : StrictTotal cmp) (a : double × α) :
    ¬ entryLt cmp a a := by
  obtain ⟨a1, a2⟩ := a
  cases a1 <;>
    simp only [entryLt, double.num_lt_num, double.eq_num, decide_eq_true_eq, double.not_nan_lt,
      double.eq_nan_left, false_and, or_self, Bool.false_eq_true, not_false_eq_true]
  rintro (h | ⟨_, h⟩)
  · omega
  · have := (hc.eq_iff a2 a2).mpr rfl
    omega

theorem entryLt_total (cmp : α → α → Int) (hc : StrictTotal cmp) (a k : Int × α)
    (h : ¬ entryLt cmp (double.num a.1, a.2) (double.num k.1, k.2))
    (hne : a.1 = k.1 → a.2 ≠ k.2) :
    entryLt cmp (double.num k.1, k.2) (double.num a.1, a.2) := by
  rw [entryLt_num] at h ⊢
  by_cases h1 : k.1 < a.1
  · exact Or.inl h1
  · right
    have h2 : ¬ a.1 < k.1 := fun h3 => h (Or.inl h3)
    have h3 : a.1 = k.1 := by omega
    refine ⟨h3.symm, ?_⟩
    have h4 : ¬ cmp a.2 k.2 < 0 := fun h5 => h (Or.inr ⟨h3, h5⟩)
    have h5 : cmp a.2 k.2 ≠ 0 := fun h6 => hne h3 ((hc.eq_iff _ _).mp h6)
    exact (hc.swap _ _).mpr (by omega)

theorem entryLt_asymm (cmp : α → α → Int) (hc : StrictTotal cmp) (a b : double × α)
    (h1 : entryLt cmp a b) : ¬ entryLt cmp b a :=
  fun h2 => entryLt_irrefl cmp hc a (entryLt_trans cmp hc a b a h1 h2)

/-- A sorted chain splits into the entries before a key and the others. -/
theorem split_sorted (cmp : α → α → Int) (hc : StrictTotal cmp) (k : double × α) :
    ∀ (A : List (ANode α)), Ascending cmp (A.map ANode.entry) →
      ∃ pre post, A = pre ++ post ∧ (∀ a ∈ pre, entryLt cmp a.entry k) ∧
        (∀ a ∈ post, ¬ entryLt cmp a.entry k) := by
  intro A
  induction A with
  | nil => intro _; exact ⟨[], [], rfl, by simp, by simp⟩
  | cons a A ih =>
    intro hs
    unfold Ascending at hs
    simp only [List.map_cons, List.pairwise_cons] at hs
    by_cases ha : entryLt cmp a.entry k
    · obtain ⟨pre, post, he, h1, h2⟩ := ih hs.2
      refine ⟨a :: pre, post, by simp [he], ?_, h2⟩
      intro c hc2
      simp at hc2
      rcases hc2 with rfl | hc2
      · exact ha
      · exact h1 c hc2
    · refine ⟨[], a :: A, rfl, by simp, ?_⟩
      intro c hc2
      simp at hc2
      rcases hc2 with rfl | hc2
      · exact ha
      · intro hck
        exact ha (entryLt_trans cmp hc _ _ _ (hs.1 c.entry (List.mem_map_of_mem _ hc2)) hck)

theorem keyBefore_eq (sl : skiplist α) (score : double) (obj : α) (n : skiplistNode α)
    (r : Nat) (o : α) (ho : n.obj = some o) :
    keyBefore sl score obj n r = true ↔ entryLt sl.compare (n.score, o) (score, obj) := by
  unfold keyBefore entryLt objCompare
  simp only [ho]
  by_cases h1 : n.score < score <;> by_cases h2 : double.eq n.score score = true <;>
    by_cases h3 : sl.compare o obj < 0 <;> simp [h1, h2, h3]

theorem keyAtMost_eq (sl : skiplist α) (score : double) (obj : α) (n : skiplistNode α)
    (r : Nat) (o : α) (ho : n.obj = some o) :
    keyAtMost sl score obj n r = true ↔
      (n.score < score ∨ (double.eq n.score score = true ∧ sl.compare o obj ≤ 0)) := by
  unfold keyAtMost objCompare
  simp only [ho]
  by_cases h1 : n.score < score <;> by_cases h2 : double.eq n.score score = true <;>
    by_cases h3 : sl.compare o obj ≤ 0 <;> simp [h1, h2, h3]

/-! ## The descent by key -/

theorem inv_levels_split (sl : skiplist α) (pre post : List (ANode α))
    (hinv : Inv sl (pre ++ post)) :
    LevelsOK sl (headLink sl :: pre.map ANode.link ++ post.map ANode.link) := by
  have := hinv.levels
  simpa using this

theorem descend_keyBefore (sl : skiplist α) (pre post : List (ANode α)) (score : double)
    (obj : α)
    (hinv : Inv sl (pre ++ post))
    (hpre : ∀ a ∈ pre, entryLt sl.compare a.entry (score, obj))
    (hpost : ∀ a ∈ post, ¬ entryLt sl.compare a.entry (score, obj))
    (u0 r0 : Nat → Nat) :
    ∃ upd rnk acc,
      descend sl (keyBefore sl score obj) UINT_MOD sl.level (sl.header, 0) (u0, r0) =
        some ((upd 0, acc), upd, rnk) ∧
      (∀ i, i < sl.level →
        IsPred (headLink sl :: pre.map ANode.link) (fun p => p % 4294967296) upd rnk i) ∧
      (∀ i, sl.level ≤ i → upd i = u0 i ∧ rnk i = r0 i) := by
  obtain ⟨x, acc, upd, rnk, hd, h1, h2, h3, _⟩ :=
    descend_header sl (keyBefore sl score obj) UINT_MOD (pre.length + post.length)
      (fun p => p % 4294967296) (by simp)
      (by intro p d _; simp only [UINT_MOD]; omega)
      (pre.map ANode.link) (post.map ANode.link) (inv_levels_split sl pre post hinv)
      (by
        intro c hc r _ _
        obtain ⟨a, ha, rfl⟩ := List.mem_map.mp hc
        have hd := hinv.data a (by simp [ha])
        show keyBefore sl score obj (sl.mem a.id) _ = true
        rw [keyBefore_eq sl score obj _ _ a.obj hd.1, hd.2]
        exact hpre a ha)
      (by
        intro c hc r _ _
        obtain ⟨a, ha, rfl⟩ := List.mem_map.mp hc
        have hd := hinv.data a (by simp [ha])
        show keyBefore sl score obj (sl.mem a.id) _ = false
        have h4 := keyBefore_eq sl score obj (sl.mem a.id) (r % 4294967296) a.obj hd.1
        rw [hd.2] at h4
        cases h5 : keyBefore sl score obj (sl.mem a.id) (r % 4294967296) with
        | false => rfl
        | true => exact absurd (h4.mp h5) (hpost a ha))
      (by simp)
      (by have := hinv.room; simp at this ⊢; omega)
      hinv.level_pos hinv.level_le u0 r0
  subst h3
  exact ⟨upd, rnk, acc, hd, h1, h2⟩

/-- The node in front of the cut and its level-0 successor. -/
theorem pred_zero (sl : skiplist α) (pre post : List (ANode α)) (ρ : Nat → Nat)
    (upd rnk : Nat → Nat) (hinv : Inv sl (pre ++ post))
    (hp : IsPred (headLink sl :: pre.map ANode.link) ρ upd rnk 0) :
    sl.forward (upd 0) 0 = (post.map ANode.id).head? ∧
    lastId none (pre.map ANode.id) = (if upd 0 = sl.header then none else some (upd 0)) ∧
    rnk 0 = ρ pre.length := by
  have hreal : ∀ c ∈ pre.map ANode.link, 1 ≤ c.height := by
    intro c hc
    obtain ⟨a, ha, rfl⟩ := List.mem_map.mp hc
    exact (hinv.heights a (by simp [ha])).1
  obtain ⟨l1, b, he, hu, hr, hlen⟩ := isPred_zero _ _ _ _ _ hreal hp
  have hlv := inv_levels_split sl pre post hinv
  have hcell := levelsOK_cell sl l1 (post.map ANode.link) b
    (by rw [show headLink sl :: pre.map ANode.link ++ post.map ANode.link
          = (headLink sl :: pre.map ANode.link) ++ post.map ANode.link from rfl, he] at hlv
        simpa using hlv) 0
  refine ⟨?_, ?_, by simpa using hr⟩
  · have hb : 0 < b.height := by
      have : b ∈ headLink sl :: pre.map ANode.link := by rw [he]; simp
      simp at this
      rcases this with rfl | ⟨a, ha, rfl⟩
      · simp [headLink]
      · exact (hinv.heights a (by simp [ha])).1
    rw [hu, (hcell hb).1, nextAt_zero]
    · cases post <;> simp [ANode.link]
    · intro c hc
      obtain ⟨a, ha, rfl⟩ := List.mem_map.mp hc
      exact (hinv.heights a (by simp [ha])).1
  · have hnd := hinv.nodup
    rcases List.eq_nil_or_concat pre with hp0 | ⟨pre2, a, hp2⟩
    · subst hp0
      simp at he
      cases l1 with
      | nil =>
        simp at he
        rw [hu, ← he]
        simp [headLink, lastId]
      | cons c l1 => simp at he
    · subst hp2
      have : headLink sl :: (pre2.concat a).map ANode.link =
          (headLink sl :: pre2.map ANode.link) ++ [a.link] := by simp
      rw [this] at he
      have he2 := List.append_inj' he (by simp)
      have hb : b = a.link := by simpa using he2.2.symm
      have hne : a.id ≠ sl.header := by
        intro h3
        simp only [List.map_append, List.nodup_cons] at hnd
        apply hnd.1
        rw [← h3]
        simp
      rw [hu, hb]
      simp only [List.concat_eq_append, List.map_append, List.map_cons, List.map_nil]
      rw [lastId_append_singleton]
      simp [ANode.link, hne]

/-! ## `skiplistInsert` -/

theorem levelsOK_frame_real (s t : skiplist α) :
    ∀ (Q : List Link), LevelsOK s Q → (∀ b ∈ Q, b.height ≤ s.level) →
      (∀ b ∈ Q, ∀ i, t.forward b.id i = s.forward b.id i ∧ t.span b.id i = s.span b.id i) →
      LevelsOK t Q := by
  intro Q
  induction Q with
  | nil => intro _ _ _; trivial
  | cons b Q ih =>
    intro hs hh hq
    refine ⟨?_, ih hs.2 (fun c hc => hh c (by simp [hc])) (fun c hc => hq c (by simp [hc]))⟩
    intro i hi
    have h := hq b (by simp) i
    have hb := hh b (by simp)
    rw [h.1, h.2]
    exact ⟨(hs.1 i hi).1, fun _ => (hs.1 i hi).2 (by omega)⟩

/-- The duplicate test of `skiplistInsert` looks at the payload of the first
node that is not before the key. -/
theorem insert_dupCheck (sl : skiplist α) (pre post : List (ANode α)) (obj : α) (x : Nat)
    (hinv : Inv sl (pre ++ post)) (hx : sl.forward x 0 = (post.map ANode.id).head?) :
    (match sl.forward x 0 with
      | some y => decide (objCompare sl (sl.mem y).obj obj = 0)
      | none => false) = true ↔ ∃ y, post.head? = some y ∧ y.obj = obj := by
  rw [hx]
  cases post with
  | nil => simp
  | cons y post =>
    have hd := hinv.data y (by simp)
    simp only [List.map_cons, List.head?_cons, objCompare, hd.1, decide_eq_true_eq,
      hinv.cmp_ok.eq_iff]
    simp

theorem insert_dup (sl : skiplist α) (pre post : List (ANode α)) (score : double) (obj : α)
    (lvl : Nat) (hinv : Inv sl (pre ++ post))
    (hpre : ∀ a ∈ pre, entryLt sl.compare a.entry (score, obj))
    (hpost : ∀ a ∈ post, ¬ entryLt sl.compare a.entry (score, obj))
    (hdup : ∃ y, post.head? = some y ∧ y.obj = obj) :
    skiplistInsert sl score obj lvl = some (sl, none) := by
  obtain ⟨upd, rnk, acc, hd, hpred, _⟩ :=
    descend_keyBefore sl pre post score obj hinv hpre hpost (fun _ => 0) (fun _ => 0)
  have h0 := pred_zero sl pre post _ upd rnk hinv (hpred 0 hinv.level_pos)
  have hc := (insert_dupCheck sl pre post obj (upd 0) hinv h0.1).mpr hdup
  unfold skiplistInsert
  rw [hd]
  simp only []
  rw [if_pos]
  exact hc

theorem insert_new (sl : skiplist α) (pre post : List (ANode α)) (score : Int) (obj : α)
    (lvl : Nat) (hinv : Inv sl (pre ++ post))
    (hpre : ∀ a ∈ pre, entryLt sl.compare a.entry (score, obj))
    (hpost : ∀ a ∈ post, ¬ entryLt sl.compare a.entry (score, obj))
    (hnew : ∀ y, post.head? = some y → y.obj ≠ obj)
    (h1 : 1 ≤ lvl) (h32 : lvl ≤ 32) :
    ∃ t, skiplistInsert sl score obj lvl = some (t, some sl.brk) ∧
      Inv t (pre ++ { id := sl.brk, height := lvl, score := score, obj := obj } :: post) ∧
      t.effects = sl.effects ∧ t.release = sl.release ∧ t.compare = sl.compare ∧
      t.header = sl.header ∧ t.level = max sl.level lvl ∧
      (∀ y, y ≠ sl.brk → (t.mem y).obj = (sl.mem y).obj) := by
  obtain ⟨upd, rnk, acc, hd, hpred, _⟩ :=
    descend_keyBefore sl pre post score obj hinv hpre hpost (fun _ => 0) (fun _ => 0)
  obtain ⟨h0f, h0l, h0r⟩ := pred_zero sl pre post _ upd rnk hinv (hpred 0 hinv.level_pos)
  have hc : ¬ ((match sl.forward (upd 0) 0 with
      | some y => decide (objCompare sl (sl.mem y).obj obj = 0)
      | none => false) = true) := by
    rw [insert_dupCheck sl pre post obj (upd 0) hinv h0f]
    rintro ⟨y, hy1, hy2⟩
    exact hnew y hy1 hy2
  unfold skiplistInsert
  rw [hd]
  simp only []
  rw [if_neg (by exact hc)]
  -- the first part: raising the level
  obtain ⟨u1, u2, u3, u4, u5, u6, u7, u8, u9, u10, u11, u12, u13, u14, u15⟩ :=
    insertLevelUp_spec sl lvl upd rnk
  generalize (insertLevelUp sl lvl upd rnk).1 = s1 at *
  generalize (insertLevelUp sl lvl upd rnk).2.1 = upd1 at *
  generalize (insertLevelUp sl lvl upd rnk).2.2 = rnk1 at *
  have hnd := hinv.nodup
  have hlinksid : (headLink sl :: pre.map ANode.link ++ post.map ANode.link).map Link.id =
      sl.header :: (pre ++ post).map ANode.id := by
    rw [show headLink sl :: pre.map ANode.link ++ post.map ANode.link
      = headLink sl :: (pre ++ post).map ANode.link by simp]
    simp only [List.map_cons, map_link_id]
    rfl
  have hreal : ∀ c ∈ pre.map ANode.link ++ post.map ANode.link,
      1 ≤ c.height ∧ c.height ≤ sl.level := by
    intro c hc
    rw [← List.map_append] at hc
    obtain ⟨a, ha, rfl⟩ := List.mem_map.mp hc
    exact hinv.heights a ha
  have hlv1 : LevelsOK s1 (headLink sl :: pre.map ANode.link ++ post.map ANode.link) := by
    have hlv := inv_levels_split sl pre post hinv
    refine ⟨?_, ?_⟩
    · intro i hi
      have hcell : sl.forward sl.header i =
          nextAt i (pre.map ANode.link ++ post.map ANode.link) ∧
          (i < sl.level → sl.span sl.header i =
            distAt i (pre.map ANode.link ++ post.map ANode.link) % 4294967296) := hlv.1 i hi
      show s1.forward sl.header i = nextAt i (pre.map ANode.link ++ post.map ANode.link) ∧
          (i < s1.level → s1.span sl.header i =
            distAt i (pre.map ANode.link ++ post.map ANode.link) % 4294967296)
      rw [u12]
      refine ⟨hcell.1, fun hil => ?_⟩
      rw [u13]
      by_cases hin : sl.level ≤ i ∧ i < lvl
      · have hlow : ∀ c ∈ pre.map ANode.link ++ post.map ANode.link, c.height ≤ i := by
          intro c hc
          have := (hreal c hc).2
          omega
        simp only [hin, and_self, if_true]
        rw [distAt_low i _ hlow, hinv.length_eq]
        simp
      · have : ¬ (sl.header = sl.header ∧ sl.level ≤ i ∧ i < lvl) := fun h3 => hin h3.2
        rw [if_neg this]
        have his : i < sl.level := by rw [u1] at hil; omega
        exact hcell.2 his
    · apply levelsOK_frame_real sl s1 _ hlv.2 (fun c hc => (hreal c hc).2)
      intro c hc i
      rw [u12, u13]
      have hne : c.id ≠ sl.header := by
        intro h3
        have : c.id ∈ (pre ++ post).map ANode.id := by
          rw [← map_link_id, List.map_append]
          exact List.mem_map_of_mem _ hc
        rw [h3] at this
        exact (List.nodup_cons.mp hnd).1 this
      simp [hne]
  have hpred1 : ∀ i, i < s1.level →
      IsPred (headLink sl :: pre.map ANode.link) (fun p => p % 4294967296) upd1 rnk1 i := by
    intro i hi
    by_cases hin : sl.level ≤ i ∧ i < lvl
    · refine ⟨[], headLink sl, pre.map ANode.link, rfl, by simp [headLink]; omega, ?_, ?_, ?_⟩
      · intro c hc
        have := (hreal c (by simp [hc])).2
        omega
      · rw [u14]; simp [hin, headLink]
      · rw [u15]; simp [hin]
    · have his : i < sl.level := by rw [u1] at hi; omega
      obtain ⟨l1, b, l2, he, hb, hl, hu, hr⟩ := hpred i his
      refine ⟨l1, b, l2, he, hb, hl, ?_, ?_⟩
      · rw [u14]; simp only [hin, if_false]; exact hu
      · rw [u15]; simp only [hin, if_false]; exact hr
  have hupd0 : upd1 0 = upd 0 := by
    have : ¬ (sl.level ≤ 0 ∧ 0 < lvl) := by have := hinv.level_pos; omega
    rw [u14, if_neg this]
  have hfresh : ∀ i, i < s1.level → s1.brk ≠ upd1 i := by
    intro i hi h3
    have := isPred_mem _ _ _ _ _ _ (hpred1 i hi)
    rw [← h3, u3] at this
    simp only [List.map_cons, map_link_id, headLink, List.mem_cons] at this
    rcases this with h4 | h4
    · have := hinv.hdr_lt; omega
    · obtain ⟨a, ha, ha2⟩ := List.mem_map.mp h4
      have := hinv.ids_lt a (by simp [ha])
      omega
  have hlvl1 : lvl ≤ s1.level := by rw [u1]; simp
  obtain ⟨v1, v2, v3, v4, v5, v6, v7, v8, v9, v10, v11, v12, v13⟩ :=
    insertSplice_shape s1 score obj lvl upd1 rnk1 hlvl1 h1
      (fun i hi => hfresh i (by omega))
  generalize (insertSplice s1 score obj lvl upd1 rnk1).1 = t at *
  generalize (insertSplice s1 score obj lvl upd1 rnk1).2 = x at *
  subst v1
  rw [u3] at v2 v3 v5 v11 v12 v13 ⊢
  have hxnot : sl.brk ∉ (headLink sl :: pre.map ANode.link ++ post.map ANode.link).map
      Link.id := by
    rw [hlinksid]
    intro h3
    simp only [List.mem_cons] at h3
    rcases h3 with h4 | h4
    · have := hinv.hdr_lt; omega
    · obtain ⟨a, ha, ha2⟩ := List.mem_map.mp h4
      have := hinv.ids_lt a ha
      omega
  have hLv : LevelsOK t (headLink sl :: pre.map ANode.link ++
      { id := sl.brk, height := lvl } :: post.map ANode.link) := by
    apply levelsOK_insert s1 t (headLink sl) (pre.map ANode.link) (post.map ANode.link)
      sl.brk lvl upd1 rnk1 (by rw [hlinksid]; exact hnd) hxnot hlv1 hpred1
      (fun c hc => ⟨(hreal c hc).1, by have := (hreal c hc).2; rw [u1]; omega⟩)
      hlvl1 h1 v9 v2 v3
  refine ⟨t, rfl, ⟨?_, ?_, ?_, ?_, ?_, ?_, ?_, ?_, ?_, ?_, ?_, ?_, ?_, ?_, ?_⟩,
    by rw [v8, u6], by rw [v7, u5], by rw [v6, u4], by rw [v4, u2], by rw [v9, u1], ?_⟩
  · rw [v6, u4]; exact hinv.cmp_ok
  · rw [v4, u2, v5]; have := hinv.hdr_lt; omega
  · intro a ha
    rw [v5]
    simp only [List.mem_append, List.mem_cons] at ha
    rcases ha with ha | rfl | ha
    · have := hinv.ids_lt a (by simp [ha]); omega
    · simp
    · have := hinv.ids_lt a (by simp [ha]); omega
  · rw [v4, u2]
    simp only [List.map_append, List.map_cons]
    have h3 : sl.brk ∉ sl.header :: (pre ++ post).map ANode.id := by
      rw [← hlinksid]; exact hxnot
    simp only [List.map_append, List.mem_cons, List.mem_append, not_or] at h3
    simp only [List.map_append, List.nodup_cons, List.nodup_append, List.mem_append] at hnd
    simp only [List.nodup_cons, List.nodup_append, List.mem_append, List.mem_cons, not_or]
    refine ⟨⟨hnd.1 ∘ Or.inl, fun h4 => h3.1 h4.symm, hnd.1 ∘ Or.inr⟩, hnd.2.1,
      ⟨h3.2.2, hnd.2.2.1⟩, ?_⟩
    intro a ha hb
    simp only [List.mem_cons] at hb
    rcases hb with rfl | hb
    · exact h3.2.1 ha
    · exact hnd.2.2.2 ha hb
  · intro a ha
    rw [v9, u1]
    simp only [List.mem_append, List.mem_cons] at ha
    rcases ha with ha | rfl | ha
    · have := hinv.heights a (by simp [ha]); simp; omega
    · simp; omega
    · have := hinv.heights a (by simp [ha]); simp; omega
  · rw [v9, u1]; have := hinv.level_pos; simp; omega
  · rw [v9, u1]; have := hinv.level_le; simp; omega
  · rw [v9, u1]
    by_cases hll : lvl > sl.level
    · right
      exact ⟨{ id := sl.brk, height := lvl, score := score, obj := obj }, by simp,
        by simp; omega⟩
    · rcases hinv.level_top with h3 | ⟨a, ha, h3⟩
      · left; rw [h3]; simp; omega
      · right
        refine ⟨a, ?_, by simp; omega⟩
        simp only [List.mem_append, List.mem_cons] at ha ⊢
        tauto
  · have : headLink t = headLink sl := by simp [headLink, v4, u2]
    rw [this]
    simpa [ANode.link] using hLv
  · intro a ha
    rw [v11, v12]
    simp only [List.mem_append, List.mem_cons] at ha
    rcases ha with ha | rfl | ha
    · have h3 := hinv.ids_lt a (by simp [ha])
      have h4 : a.id ≠ sl.brk := by omega
      simp only [h4, if_false, u9, u10]
      exact hinv.data a (by simp [ha])
    · simp
    · have h3 := hinv.ids_lt a (by simp [ha])
      have h4 : a.id ≠ sl.brk := by omega
      simp only [h4, if_false, u9, u10]
      exact hinv.data a (by simp [ha])
  · rw [v4, u2, v11]
    have := hinv.hdr_lt
    have h4 : sl.header ≠ sl.brk := by omega
    simp only [h4, if_false, u9]
    exact hinv.hdr_obj
  · -- backward pointers
    have hbk := hinv.back
    simp only [List.map_append, List.map_cons] at hbk ⊢
    have hpre_ne : ∀ y ∈ pre.map ANode.id, y ≠ sl.brk := by
      intro y hy
      obtain ⟨a, ha, rfl⟩ := List.mem_map.mp hy
      have := hinv.ids_lt a (by simp [ha]); omega
    have hpost_ne : ∀ y ∈ post.map ANode.id, y ≠ sl.brk := by
      intro y hy
      obtain ⟨a, ha, rfl⟩ := List.mem_map.mp hy
      have := hinv.ids_lt a (by simp [ha]); omega
    have hB : (if upd 0 = s1.header then none else some (upd 0)) =
        lastId none (pre.map ANode.id) := by
      rw [u2, h0l]
    rw [u12, hupd0, h0f] at v13
    simp only [List.map_append, List.nodup_cons, List.nodup_append] at hnd
    rcases v13 with ⟨w1, w2, w3⟩ | ⟨y, w1, w2, w3⟩
    · have hp : post.map ANode.id = [] := by
        cases hpm : post.map ANode.id with
        | nil => rfl
        | cons z l => rw [hpm] at w1; simp at w1
      rw [hp] at hbk ⊢
      apply backOK_insert sl t sl.brk [] (by simp) (by simp) (by simpa using w2) _ none _ _ hbk
      · intro z hz
        rw [w3, u11]
        simp [hpre_ne z hz]
      · rw [w3, ← hB]; simp
    · cases hpm : post.map ANode.id with
      | nil => rw [hpm] at w1; simp at w1
      | cons z l =>
        rw [hpm] at w1 hbk hpost_ne hnd
        simp at w1
        subst w1
        have hzb : z ≠ sl.brk := hpost_ne z (by simp)
        apply backOK_insert sl t sl.brk (z :: l) _ _ (by simpa [u7] using w2) _ none _ _ hbk
        · intro w hw
          simp at hw
          have h5 : w ≠ z := by
            intro hwy
            subst hwy
            exact (List.nodup_cons.mp hnd.2.2.1).1 hw
          rw [w3, u11]
          simp [h5, hpost_ne w (by simp [hw])]
        · intro w hw
          simp at hw
          subst hw
          rw [w3]; simp
        · intro w hw
          have h5 : w ≠ z := by
            intro hwy
            subst hwy
            exact hnd.2.2.2 hw (by simp)
          rw [w3, u11]
          simp [h5, hpre_ne w hw]
        · rw [w3, ← hB]
          simp [hzb.symm]
  · rw [v10, u8, hinv.length_eq]; simp; omega
  · rw [v5]; have := hinv.room; simp at this ⊢; omega
  · rw [v6, u4]
    have hs := hinv.sorted
    unfold Ascending at hs ⊢
    simp only [List.map_append, List.map_cons, List.pairwise_append, List.pairwise_cons,
      List.mem_map, List.mem_cons, forall_exists_index, and_imp,
      forall_apply_eq_imp_iff₂] at hs ⊢
    have hkpost : ∀ a ∈ post, entryLt sl.compare (score, obj) a.entry := by
      cases hp : post with
      | nil => simp
      | cons y post2 =>
        rw [hp] at hs hpost hnew
        have hy : entryLt sl.compare (score, obj) y.entry := by
          apply entryLt_total sl.compare hinv.cmp_ok (y.score, y.obj) (score, obj)
            (hpost y (by simp))
          intro _
          exact hnew y (by simp)
        intro a ha
        simp only [List.mem_cons] at ha
        rcases ha with rfl | ha
        · exact hy
        · have hyp : List.Pairwise (entryLt sl.compare) (y.entry :: post2.map ANode.entry) :=
            hs.2.1
          exact entryLt_trans sl.compare hinv.cmp_ok _ _ _ hy
            ((List.pairwise_cons.mp hyp).1 a.entry (List.mem_map_of_mem _ ha))
    refine ⟨hs.1, ⟨fun a ha => hkpost a ha, hs.2.1⟩, ?_⟩
    intro a ha b hb
    rcases hb with rfl | ⟨c, hc, rfl⟩
    · exact hpre a ha
    · exact hs.2.2 a ha c hc
  · intro y hy
    rw [v11]
    simp [hy, u9]

/-! ## Changes that the invariant does not see -/

theorem levelsOK_same (s t : skiplist α) (hl : t.level = s.level)
    (hf : ∀ y i, t.forward y i = s.forward y i) (hs : ∀ y i, t.span y i = s.span y i)
    (Q : List Link) (h : LevelsOK s Q) : LevelsOK t Q :=
  levelsOK_frame s t (by omega) Q h (fun b _ i => ⟨hf b.id i, hs b.id i⟩)

/-- A state with the same links and backward pointers, holding a chain with
the same addresses and heights. -/
theorem inv_relabel (s t : skiplist α) (A B : List (ANode α)) (hinv : Inv s A)
    (hlinks : B.map ANode.link = A.map ANode.link)
    (h1 : t.compare = s.compare) (h2 : t.header = s.header) (h3 : t.brk = s.brk)
    (h4 : t.level = s.level) (h5 : t.length = s.length) (h6 : t.tail = s.tail)
    (hf : ∀ y i, t.forward y i = s.forward y i) (hs : ∀ y i, t.span y i = s.span y i)
    (hb : ∀ y, (t.mem y).backward = (s.mem y).backward)
    (hd : ∀ a ∈ B, (t.mem a.id).obj = some a.obj ∧ (t.mem a.id).score = a.score)
    (hh : (t.mem s.header).obj = (s.mem s.header).obj)
    (hsorted : Ascending s.compare (B.map ANode.entry)) : Inv t B := by
  have hids : B.map ANode.id = A.map ANode.id := by
    rw [← map_link_id, ← map_link_id, hlinks]
  have hlen : B.length = A.length := by
    have := congrArg List.length hlinks
    simpa using this
  have hmem : ∀ b ∈ B, ∃ a ∈ A, a.id = b.id ∧ a.height = b.height := by
    intro b hb2
    have : b.link ∈ A.map ANode.link := by rw [← hlinks]; exact List.mem_map_of_mem _ hb2
    obtain ⟨a, ha, hab⟩ := List.mem_map.mp this
    refine ⟨a, ha, ?_, ?_⟩
    · have := congrArg Link.id hab; simpa [ANode.link] using this
    · have := congrArg Link.height hab; simpa [ANode.link] using this
  have hmem2 : ∀ a ∈ A, ∃ b ∈ B, a.id = b.id ∧ a.height = b.height := by
    intro a ha
    have : a.link ∈ B.map ANode.link := by rw [hlinks]; exact List.mem_map_of_mem _ ha
    obtain ⟨b, hb2, hab⟩ := List.mem_map.mp this
    refine ⟨b, hb2, ?_, ?_⟩
    · have := congrArg Link.id hab; simpa [ANode.link] using this.symm
    · have := congrArg Link.height hab; simpa [ANode.link] using this.symm
  refine ⟨?_, ?_, ?_, ?_, ?_, ?_, ?_, ?_, ?_, hd, ?_, ?_, ?_, ?_, ?_⟩
  · rw [h1]; exact hinv.cmp_ok
  · rw [h2, h3]; exact hinv.hdr_lt
  · intro b hb2
    obtain ⟨a, ha, h7, _⟩ := hmem b hb2
    rw [h3, ← h7]; exact hinv.ids_lt a ha
  · rw [h2, hids]; exact hinv.nodup
  · intro b hb2
    obtain ⟨a, ha, _, h8⟩ := hmem b hb2
    rw [h4, ← h8]; exact hinv.heights a ha
  · rw [h4]; exact hinv.level_pos
  · rw [h4]; exact hinv.level_le
  · rw [h4]
    rcases hinv.level_top with h7 | ⟨a, ha, h7⟩
    · exact Or.inl h7
    · obtain ⟨b, hb2, _, h8⟩ := hmem2 a ha
      exact Or.inr ⟨b, hb2, by omega⟩
  · have : headLink t = headLink s := by simp [headLink, h2]
    rw [this, hlinks]
    exact levelsOK_same s t h4 hf hs _ hinv.levels
  · rw [h2, hh]; exact hinv.hdr_obj
  · rw [hids]
    exact backOK_frame s t h6 _ none (fun y _ => hb y) hinv.back
  · rw [h5, hlen]; exact hinv.length_eq
  · rw [h3, hlen]; exact hinv.room
  · rw [h1]; exact hsorted

/-- A state that differs only in the log of effects, in the payload or score of
nodes outside the chain. -/
theorem inv_frame (s t : skiplist α) (A : List (ANode α)) (hinv : Inv s A)
    (h1 : t.compare = s.compare) (h2 : t.header = s.header) (h3 : t.brk = s.brk)
    (h4 : t.level = s.level) (h5 : t.length = s.length) (h6 : t.tail = s.tail)
    (hf : ∀ y i, t.forward y i = s.forward y i) (hs : ∀ y i, t.span y i = s.span y i)
    (hb : ∀ y, (t.mem y).backward = (s.mem y).backward)
    (ho : ∀ a ∈ A, (t.mem a.id).obj = (s.mem a.id).obj)
    (hsc : ∀ a ∈ A, (t.mem a.id).score = (s.mem a.id).score)
    (hh : (t.mem s.header).obj = (s.mem s.header).obj) : Inv t A :=
  inv_relabel s t A A hinv rfl h1 h2 h3 h4 h5 h6 hf hs hb
    (fun a ha => by rw [ho a ha, hsc a ha]; exact hinv.data a ha) hh hinv.sorted

theorem inv_freeNode (s : skiplist α) (A : List (ANode α)) (x : Nat) (hinv : Inv s A) :
    Inv (skiplistFreeNode s x) A := by
  unfold skiplistFreeNode
  split
  · exact inv_frame s _ A hinv rfl rfl rfl rfl rfl rfl (fun _ _ => rfl) (fun _ _ => rfl)
      (fun _ => rfl) (fun _ _ => rfl) (fun _ _ => rfl) rfl
  · exact hinv

theorem inv_setObj (s : skiplist α) (A : List (ANode α)) (x : Nat) (o : Option α)
    (hinv : Inv s A) (hx : x ∉ A.map ANode.id) (hxh : x ≠ s.header) :
    Inv (s.setObj x o) A := by
  refine inv_frame s (s.setObj x o) A hinv rfl rfl rfl rfl rfl rfl (fun _ _ => by simp)
    (fun _ _ => by simp) (fun _ => by simp) ?_ ?_ ?_
  · intro a ha
    have : a.id ≠ x := fun h => hx (h ▸ List.mem_map_of_mem _ ha)
    simp [this]
  · intro a ha
    simp
  · simp [hxh.symm]

/-! ## `skiplistDelete` -/

/-- The test `x && compare(x->obj, obj) == 0` on the first node that is not
before the key. -/
theorem delete_absent (sl : skiplist α) (pre post : List (ANode α)) (score : double) (obj : α)
    (hinv : Inv sl (pre ++ post))
    (hpre : ∀ a ∈ pre, entryLt sl.compare a.entry (score, obj))
    (hpost : ∀ a ∈ post, ¬ entryLt sl.compare a.entry (score, obj))
    (hno : ∀ y, post.head? = some y → y.obj ≠ obj) :
    skiplistDelete sl score obj = some (sl, false) := by
  obtain ⟨upd, rnk, acc, hd, hpred, _⟩ :=
    descend_keyBefore sl pre post score obj hinv hpre hpost (fun _ => 0) (fun _ => 0)
  obtain ⟨h0f, _, _⟩ := pred_zero sl pre post _ upd rnk hinv (hpred 0 hinv.level_pos)
  unfold skiplistDelete
  rw [hd]
  simp only [h0f]
  cases post with
  | nil => simp
  | cons y post =>
    have hdat := hinv.data y (by simp)
    have : ¬ objCompare sl (sl.mem y.id).obj obj = 0 := by
      simp only [objCompare, hdat.1, hinv.cmp_ok.eq_iff]
      exact hno y (by simp)
    simp [this]

theorem delete_present (sl : skiplist α) (pre post : List (ANode α)) (y : ANode α)
    (score : double) (obj : α)
    (hinv : Inv sl (pre ++ y :: post))
    (hpre : ∀ a ∈ pre, entryLt sl.compare a.entry (score, obj))
    (hpost : ∀ a ∈ y :: post, ¬ entryLt sl.compare a.entry (score, obj))
    (hy : y.obj = obj) :
    ∃ t, skiplistDelete sl score obj = some (t, true) ∧ Inv t (pre ++ post) ∧
      t.release = sl.release ∧ t.compare = sl.compare ∧ t.header = sl.header ∧
      t.level ≤ sl.level ∧
      t.effects = sl.effects ++
        (if sl.release then [Effect.released (some y.obj)] else []) := by
  obtain ⟨upd, rnk, acc, hd, hpred, _⟩ :=
    descend_keyBefore sl pre (y :: post) score obj hinv hpre hpost (fun _ => 0) (fun _ => 0)
  obtain ⟨h0f, _, _⟩ := pred_zero sl pre (y :: post) _ upd rnk hinv (hpred 0 hinv.level_pos)
  have hdat := hinv.data y (by simp)
  have hc : objCompare sl (sl.mem y.id).obj obj = 0 := by
    simp only [objCompare, hdat.1, hinv.cmp_ok.eq_iff]
    exact hy
  have hinv2 := deleteNode_inv sl pre post y _ upd rnk hinv hpred
  obtain ⟨_, _, hh, hb, hcmp, hr, he, hl, hlen, hobj, hscore, _⟩ :=
    deleteNode_shape sl y.id upd
  have hspec := shrinkLevel_spec (skiplistDeleteNode sl y.id upd) sl.level hinv.level_pos
  rw [← hl] at hspec
  refine ⟨skiplistFreeNode (skiplistDeleteNode sl y.id upd) y.id, ?_,
    inv_freeNode _ _ _ hinv2, ?_, ?_, ?_, ?_, ?_⟩
  · unfold skiplistDelete
    rw [hd]
    simp only [h0f, List.map_cons, List.head?_cons, hc, if_true]
  · unfold skiplistFreeNode; split <;> simp [hr]
  · unfold skiplistFreeNode; split <;> simp [hcmp]
  · unfold skiplistFreeNode; split <;> simp [hh]
  · unfold skiplistFreeNode; split <;> simp [hspec.2.1]
  · unfold skiplistFreeNode
    rw [hr]
    cases hrel : sl.release
    · simp [he]
    · simp [he, hobj, hdat.1]

/-! ## `skiplistUpdateScore` -/

theorem lastId_map (pre : List (ANode α)) :
    lastId none (pre.map ANode.id) = pre.getLast?.map ANode.id := by
  rcases List.eq_nil_or_concat pre with h | ⟨l, a, h⟩
  · subst h; rfl
  · subst h
    simp only [List.concat_eq_append, List.map_append, List.map_cons, List.map_nil]
    rw [lastId_append_singleton]
    simp

theorem entryLt_score_le (cmp : α → α → Int) (a b : ANode α)
    (h : entryLt cmp a.entry b.entry) : a.score ≤ b.score := by
  simp only [ANode.entry] at h
  rw [entryLt_num] at h
  rcases h with h | ⟨h, _⟩ <;> omega

theorem inv_forward_zero (sl : skiplist α) (pre post : List (ANode α)) (x : ANode α)
    (hinv : Inv sl (pre ++ x :: post)) :
    sl.forward x.id 0 = post.head?.map ANode.id := by
  have hlv := inv_levels_split sl pre (x :: post) hinv
  have hcell := levelsOK_cell sl (headLink sl :: pre.map ANode.link) (post.map ANode.link)
    x.link hlv 0 (hinv.heights x (by simp)).1
  have h1 : sl.forward x.id 0 = nextAt 0 (post.map ANode.link) := hcell.1
  rw [h1, nextAt_zero]
  · cases post <;> simp [ANode.link]
  · intro c hc
    obtain ⟨a, ha, rfl⟩ := List.mem_map.mp hc
    exact (hinv.heights a (by simp [ha])).1

theorem inv_backward (sl : skiplist α) (pre post : List (ANode α)) (x : ANode α)
    (hinv : Inv sl (pre ++ x :: post)) :
    (sl.mem x.id).backward = pre.getLast?.map ANode.id := by
  have hbk := hinv.back
  simp only [List.map_append, List.map_cons] at hbk
  rw [backOK_at sl x.id _ _ none hbk, lastId_map]

theorem scoreFits_iff (sl : skiplist α) (pre post : List (ANode α)) (x : ANode α)
    (newscore : Int) (hinv : Inv sl (pre ++ x :: post)) :
    scoreFits sl x.id newscore = true ↔
      (∀ b, pre.getLast? = some b → b.score < newscore) ∧
      (∀ f, post.head? = some f → newscore < f.score) := by
  unfold scoreFits
  rw [inv_backward sl pre post x hinv, inv_forward_zero sl pre post x hinv]
  have h1 : (match pre.getLast?.map ANode.id with
      | none => true
      | some b => decide ((sl.mem b).score < newscore)) = true ↔
      (∀ b, pre.getLast? = some b → b.score < newscore) := by
    cases hg : pre.getLast? with
    | none => simp
    | some b =>
      have hb : b ∈ pre := List.mem_of_getLast?_eq_some hg
      have := (hinv.data b (by simp [hb])).2
      simp [this]
  have h2 : (match post.head?.map ANode.id with
      | none => true
      | some f => decide ((sl.mem f).score > newscore)) = true ↔
      (∀ f, post.head? = some f → newscore < f.score) := by
    cases hg : post.head? with
    | none => simp
    | some f =>
      have hf : f ∈ post := List.mem_of_mem_head? hg
      have := (hinv.data f (by simp [hf])).2
      simp [this]
  rw [Bool.and_eq_true]
  exact and_congr h1 h2

/-- The update in place. -/
theorem update_fast (sl : skiplist α) (pre post : List (ANode α)) (x : ANode α)
    (cur : double) (obj : α) (newscore : Int) (lvl : Nat)
    (hinv : Inv sl (pre ++ x :: post))
    (hpre : ∀ a ∈ pre, entryLt sl.compare a.entry (cur, obj))
    (hpost : ∀ a ∈ x :: post, ¬ entryLt sl.compare a.entry (cur, obj))
    (hb : ∀ b, pre.getLast? = some b → b.score < newscore)
    (hf : ∀ f, post.head? = some f → newscore < f.score) :
    skiplistUpdateScore sl cur obj newscore lvl =
      some (sl.setScore x.id newscore, some x.id) ∧
    Inv (sl.setScore x.id newscore)
      (pre ++ { id := x.id, height := x.height, score := newscore, obj := x.obj } :: post) := by
  obtain ⟨upd, rnk, acc, hd, hpred, _⟩ :=
    descend_keyBefore sl pre (x :: post) cur obj hinv hpre hpost (fun _ => 0) (fun _ => 0)
  obtain ⟨h0f, _, _⟩ := pred_zero sl pre (x :: post) _ upd rnk hinv (hpred 0 hinv.level_pos)
  have hfit := (scoreFits_iff sl pre post x newscore hinv).mpr ⟨hb, hf⟩
  constructor
  · unfold skiplistUpdateScore
    rw [hd]
    simp only [h0f, List.map_cons, List.head?_cons, hfit, if_true]
  · have hnd := hinv.nodup
    simp only [List.map_append, List.map_cons] at hnd
    obtain ⟨⟨n1, n2, n3⟩, n4, ⟨n5, n6⟩, n7, n8⟩ := nodup_facts _ _ _ _ hnd
    refine inv_relabel sl _ (pre ++ x :: post) _ hinv (by simp [ANode.link]) rfl rfl rfl rfl rfl
      rfl (fun _ _ => by simp) (fun _ _ => by simp) (fun _ => by simp) ?_ ?_ ?_
    · intro a ha
      simp only [List.mem_append, List.mem_cons] at ha
      rcases ha with ha | rfl | ha
      · have : a.id ≠ x.id := fun h => n7 (h ▸ List.mem_map_of_mem _ ha)
        simp only [obj_setScore, score_setScore, this, if_false]
        exact hinv.data a (by simp [ha])
      · constructor
        · rw [obj_setScore]; exact (hinv.data x (by simp)).1
        · rw [score_setScore]; simp
      · have : a.id ≠ x.id := fun h => n5 (h ▸ List.mem_map_of_mem _ ha)
        simp only [obj_setScore, score_setScore, this, if_false]
        exact hinv.data a (by simp [ha])
    · simp only [obj_setScore]
    · have hs := hinv.sorted
      unfold Ascending at hs ⊢
      simp only [List.map_append, List.map_cons, List.pairwise_append, List.pairwise_cons,
        List.mem_map, List.mem_cons, forall_exists_index, and_imp,
        forall_apply_eq_imp_iff₂] at hs ⊢
      refine ⟨hs.1, ⟨?_, hs.2.1.2⟩, ?_⟩
      · intro c hc
        cases hp : post with
        | nil => rw [hp] at hc; simp at hc
        | cons f post2 =>
          rw [hp] at hc hs
          have hfs := hf f (by rw [hp]; simp)
          refine (entryLt_num _ _ _ _ _).mpr (Or.inl ?_)
          show newscore < c.score
          simp only [List.mem_cons] at hc
          rcases hc with rfl | hc
          · exact hfs
          · have hyp : List.Pairwise (entryLt sl.compare) (f.entry :: post2.map ANode.entry) :=
              hs.2.1.2
            have := entryLt_score_le _ _ _
              ((List.pairwise_cons.mp hyp).1 c.entry (List.mem_map_of_mem _ hc))
            omega
      · intro a ha b hb2
        rcases hb2 with rfl | ⟨c, hc, rfl⟩
        · rcases List.eq_nil_or_concat pre with hp | ⟨pre2, b, hp⟩
          · rw [hp] at ha; simp at ha
          · rw [hp] at ha hs
            have hbs := hb b (by rw [hp]; simp)
            refine (entryLt_num _ _ _ _ _).mpr (Or.inl ?_)
            show a.score < newscore
            simp only [List.concat_eq_append, List.mem_append, List.mem_singleton] at ha
            rcases ha with ha | rfl
            · have hyp : List.Pairwise (entryLt sl.compare)
                  (pre2.map ANode.entry ++ [b.entry]) := by simpa using hs.1
              have := entryLt_score_le _ _ _
                ((List.pairwise_append.mp hyp).2.2 a.entry (List.mem_map_of_mem _ ha)
                  b.entry (by simp))
              omega
            · exact hbs
        · exact hs.2.2 a ha c.entry (Or.inr ⟨c, hc, rfl⟩)

/-- The relocation: the node is unlinked and its payload inserted again. -/
theorem update_slow (sl : skiplist α) (pre post : List (ANode α)) (x : ANode α)
    (cur : double) (obj : α) (newscore : Int) (lvl : Nat)
    (hinv : Inv sl (pre ++ x :: post))
    (hpre : ∀ a ∈ pre, entryLt sl.compare a.entry (cur, obj))
    (hpost : ∀ a ∈ x :: post, ¬ entryLt sl.compare a.entry (cur, obj))
    (hno : ¬ ((∀ b, pre.getLast? = some b → b.score < newscore) ∧
      (∀ f, post.head? = some f → newscore < f.score))) :
    ∃ sl1, Inv sl1 (pre ++ post) ∧ sl1.compare = sl.compare ∧ sl1.brk = sl.brk ∧
      sl1.header = sl.header ∧ sl1.effects = sl.effects ∧ sl1.release = sl.release ∧
      sl1.level ≤ sl.level ∧
      skiplistUpdateScore sl cur obj newscore lvl =
        (match skiplistInsert sl1 newscore x.obj lvl with
          | none => none
          | some (sl2, newnode) => some (sl2.setObj x.id none, newnode)) := by
  obtain ⟨upd, rnk, acc, hd, hpred, _⟩ :=
    descend_keyBefore sl pre (x :: post) cur obj hinv hpre hpost (fun _ => 0) (fun _ => 0)
  obtain ⟨h0f, _, _⟩ := pred_zero sl pre (x :: post) _ upd rnk hinv (hpred 0 hinv.level_pos)
  have hfit : ¬ scoreFits sl x.id newscore = true :=
    fun h => hno ((scoreFits_iff sl pre post x newscore hinv).mp h)
  have hinv2 := deleteNode_inv sl pre post x _ upd rnk hinv hpred
  obtain ⟨_, _, hh, hb, hcmp, hr, he, hl, hlen, hobj, hscore, _⟩ :=
    deleteNode_shape sl x.id upd
  have hspec := shrinkLevel_spec (skiplistDeleteNode sl x.id upd) sl.level hinv.level_pos
  rw [← hl] at hspec
  refine ⟨skiplistDeleteNode sl x.id upd, hinv2, hcmp, hb, hh, he, hr, hspec.2.1, ?_⟩
  unfold skiplistUpdateScore
  rw [hd]
  simp only [h0f, List.map_cons, List.head?_cons, hfit, if_false, hobj,
    (hinv.data x (by simp)).1]
  rfl

/-! ## `skiplistDeleteRangeByRank` -/

theorem deleteRangeLoop_spec (pre : List (ANode α)) (ρ : Nat → Nat) (upd rnk : Nat → Nat)
    (stop : Nat) :
    ∀ (post : List (ANode α)) (sl : skiplist α) (traversed removed fuel : Nat),
      Inv sl (pre ++ post) →
      (∀ i, i < sl.level → IsPred (headLink sl :: pre.map ANode.link) ρ upd rnk i) →
      post.length < fuel →
      traversed + post.length < 18446744073709551616 →
      removed + post.length < 18446744073709551616 →
      ∃ t, deleteRangeLoop upd stop fuel sl traversed ((post.map ANode.id).head?) removed =
          some (t, removed + min post.length (stop + 1 - traversed)) ∧
        Inv t (pre ++ post.drop (min post.length (stop + 1 - traversed))) ∧
        t.header = sl.header ∧ t.release = sl.release ∧ t.compare = sl.compare ∧
        t.level ≤ sl.level ∧
        t.effects = sl.effects ++
          rangeEffects sl.release (post.take (min post.length (stop + 1 - traversed))) := by
  intro post
  induction post with
  | nil =>
    intro sl traversed removed fuel hinv _ hfuel _ _
    obtain ⟨f, rfl⟩ : ∃ f, fuel = f + 1 := ⟨fuel - 1, by simp at hfuel; omega⟩
    exact ⟨sl, by simp [deleteRangeLoop], by simpa using hinv, rfl, rfl, rfl, le_refl _,
      by simp [rangeEffects]⟩
  | cons y post ih =>
    intro sl traversed removed fuel hinv hpred hfuel htr hrm
    obtain ⟨f, rfl⟩ : ∃ f, fuel = f + 1 := ⟨fuel - 1, by simp at hfuel; omega⟩
    simp only [List.length_cons] at hfuel htr hrm
    by_cases hts : traversed ≤ stop
    · have hinv2 := deleteNode_inv sl pre post y ρ upd rnk hinv hpred
      obtain ⟨_, _, hh, hb, hcmp, hr, he, hl, hlen, hobj, hscore, _⟩ :=
        deleteNode_shape sl y.id upd
      have hspec := shrinkLevel_spec (skiplistDeleteNode sl y.id upd) sl.level hinv.level_pos
      rw [← hl] at hspec
      have hdat := hinv.data y (by simp)
      have hnext : sl.forward y.id 0 = (post.map ANode.id).head? := by
        rw [inv_forward_zero sl pre post y hinv]
        cases post <;> rfl
      generalize hs1 : skiplistDeleteNode sl y.id upd = s1 at *
      have hinv3 : Inv (skiplistFreeNode
          { s1 with effects := s1.effects ++ [Effect.called (s1.mem y.id).obj] } y.id)
          (pre ++ post) := by
        apply inv_freeNode
        exact inv_frame s1 _ _ hinv2 rfl rfl rfl rfl rfl rfl (fun _ _ => rfl) (fun _ _ => rfl)
          (fun _ => rfl) (fun _ _ => rfl) (fun _ _ => rfl) rfl
      have hfacts : (skiplistFreeNode
          { s1 with effects := s1.effects ++ [Effect.called (s1.mem y.id).obj] } y.id).header
            = sl.header ∧
          (skiplistFreeNode
          { s1 with effects := s1.effects ++ [Effect.called (s1.mem y.id).obj] } y.id).release
            = sl.release ∧
          (skiplistFreeNode
          { s1 with effects := s1.effects ++ [Effect.called (s1.mem y.id).obj] } y.id).compare
            = sl.compare ∧
          (skiplistFreeNode
          { s1 with effects := s1.effects ++ [Effect.called (s1.mem y.id).obj] } y.id).level
            = s1.level ∧
          (skiplistFreeNode
          { s1 with effects := s1.effects ++ [Effect.called (s1.mem y.id).obj] } y.id).effects
            = sl.effects ++ (Effect.called (some y.obj) ::
              (if sl.release then [Effect.released (some y.obj)] else [])) := by
        unfold skiplistFreeNode
        simp only [hr]
        cases hrel : sl.release
        · simp [hh, hcmp, he, hobj, hdat.1, hr]
        · simp [hh, hcmp, he, hobj, hdat.1, hr]
      generalize hs3 : skiplistFreeNode
          { s1 with effects := s1.effects ++ [Effect.called (s1.mem y.id).obj] } y.id = s3 at *
      obtain ⟨g1, g2, g3, g4, g5⟩ := hfacts
      have hpred3 : ∀ i, i < s3.level →
          IsPred (headLink s3 :: pre.map ANode.link) ρ upd rnk i := by
        intro i hi
        have : headLink s3 = headLink sl := by simp [headLink, g1]
        rw [this]
        exact hpred i (by have := hspec.2.1; omega)
      obtain ⟨t, ht1, ht2, ht3, ht4, ht5, ht6, ht7⟩ :=
        ih s3 (traversed + 1) (removed + 1) f hinv3 hpred3 (by omega) (by omega) (by omega)
      have hk : min (post.length + 1) (stop + 1 - traversed) =
          min post.length (stop + 1 - (traversed + 1)) + 1 := by omega
      refine ⟨t, ?_, ?_, by rw [ht3, g1], by rw [ht4, g2], by rw [ht5, g3],
        by have := hspec.2.1; omega, ?_⟩
      · unfold deleteRangeLoop
        simp only [List.map_cons, List.head?_cons, hts, if_true]
        rw [hnext, Nat.mod_eq_of_lt (by omega : traversed + 1 < 18446744073709551616),
          Nat.mod_eq_of_lt (by omega : removed + 1 < 18446744073709551616)]
        simp only [List.length_cons, hs1, hs3]
        have e1 : removed + (min post.length (stop + 1 - (traversed + 1)) + 1) =
            removed + 1 + min post.length (stop + 1 - (traversed + 1)) := by omega
        rw [hk, e1]
        exact ht1
      · simp only [List.length_cons]
        rw [hk]
        simpa using ht2
      · simp only [List.length_cons]
        rw [hk, ht7, g5, g2]
        simp [rangeEffects]
    · have hk : min (post.length + 1) (stop + 1 - traversed) = 0 := by omega
      refine ⟨sl, ?_, ?_, rfl, rfl, rfl, le_refl _, ?_⟩
      · unfold deleteRangeLoop
        simp only [List.map_cons, List.head?_cons, hts, if_false, List.length_cons, hk]
        rfl
      · simp only [List.length_cons, hk]
        simpa using hinv
      · simp only [List.length_cons, hk]
        simp [rangeEffects]

theorem deleteRange_outside (sl : skiplist α) (start stop : Nat)
    (h : start > sl.length ∨ stop < 1) :
    skiplistDeleteRangeByRank sl start stop = some (sl, 0) := by
  unfold skiplistDeleteRangeByRank
  rw [if_pos h]

theorem deleteRange_spec (sl : skiplist α) (A : List (ANode α)) (start stop : Nat)
    (hinv : Inv sl A) (hcap : sl.length < UINT_MOD)
    (h : ¬ (start > sl.length ∨ stop < 1)) :
    ∃ t, skiplistDeleteRangeByRank sl start stop =
        some (t, min (A.length - (start - 1)) (stop - (start - 1))) ∧
      Inv t (A.take (start - 1) ++
        (A.drop (start - 1)).drop (min (A.length - (start - 1)) (stop - (start - 1)))) ∧
      t.header = sl.header ∧ t.release = sl.release ∧ t.compare = sl.compare ∧
      t.level ≤ sl.level ∧
      t.effects = sl.effects ++ rangeEffects sl.release
        ((A.drop (start - 1)).take (min (A.length - (start - 1)) (stop - (start - 1)))) := by
  have hA : A = A.take (start - 1) ++ A.drop (start - 1) := (List.take_append_drop _ _).symm
  have hlen := hinv.length_eq
  have hpl : (A.take (start - 1)).length = start - 1 := by
    rw [List.length_take]; omega
  have hinv2 : Inv sl (A.take (start - 1) ++ A.drop (start - 1)) := by rw [← hA]; exact hinv
  simp only [UINT_MOD] at hcap
  obtain ⟨x, acc, upd, rnk, hd, h1, h2, h3, h4⟩ :=
    descend_header sl (fun _ r => decide (r < start)) ULONG_MOD A.length
      (fun p => p) rfl
      (by intro p d hpd; simp only [ULONG_MOD]; omega)
      ((A.take (start - 1)).map ANode.link) ((A.drop (start - 1)).map ANode.link)
      (inv_levels_split sl _ _ hinv2)
      (by
        intro c _ r _ hr
        simp only [List.length_map, hpl] at hr
        simp; omega)
      (by
        intro c _ r hr _
        simp only [List.length_map, hpl] at hr
        simp; omega)
      (by simp only [List.length_map, List.length_take, List.length_drop]; omega)
      (by have := hinv.room; simp only [List.length_map, hpl]; omega)
      hinv.level_pos hinv.level_le (fun _ => 0) (fun _ => 0)
  obtain ⟨h0f, _, h0r⟩ := pred_zero sl _ _ _ upd rnk hinv2 (h1 0 hinv.level_pos)
  rw [hpl] at h0r
  subst h3 h4
  have hdl : (A.drop (start - 1)).length = A.length - (start - 1) := List.length_drop _ _
  obtain ⟨t, ht1, ht2, ht3, ht4, ht5, ht6, ht7⟩ :=
    deleteRangeLoop_spec (A.take (start - 1)) _ upd rnk stop (A.drop (start - 1)) sl
      (start - 1 + 1) 0 sl.brk hinv2 h1
      (by have := hinv.room; rw [hdl]; omega) (by rw [hdl]; omega) (by rw [hdl]; omega)
  have hk : min (A.drop (start - 1)).length (stop + 1 - (start - 1 + 1)) =
      min (A.length - (start - 1)) (stop - (start - 1)) := by rw [hdl]; omega
  rw [hk] at ht1 ht2 ht7
  refine ⟨t, ?_, ht2, ht3, ht4, ht5, ht6, ht7⟩
  unfold skiplistDeleteRangeByRank
  rw [if_neg h, hd]
  simp only [h0r, h0f]
  rw [Nat.mod_eq_of_lt (by omega : start - 1 + 1 < 18446744073709551616)]
  simpa using ht1

/-! ## Every reachable list satisfies the invariant -/

theorem inv_init (cmp : α → α → Int) (rel : Bool) (hc : StrictTotal cmp) :
    Inv (skiplistInit cmp rel) [] := by
  refine ⟨hc, by simp [skiplistInit], by simp, by simp, by simp, by simp [skiplistInit],
    by simp [skiplistInit], Or.inl rfl, ?_, by simp, rfl, rfl, rfl, by simp [skiplistInit],
    by simp [Ascending]⟩
  refine ⟨?_, trivial⟩
  intro i _
  exact ⟨rfl, fun _ => rfl⟩

/-- What `skiplistInsert` does, whatever the key. -/
theorem insert_cases (sl : skiplist α) (A : List (ANode α)) (score : Int) (obj : α)
    (lvl : Nat) (hinv : Inv sl A) (h1 : 1 ≤ lvl) (h32 : lvl ≤ 32) :
    ∃ pre post, A = pre ++ post ∧
      (∀ a ∈ pre, entryLt sl.compare a.entry (score, obj)) ∧
      (∀ a ∈ post, ¬ entryLt sl.compare a.entry (score, obj)) ∧
      (((∃ y, post.head? = some y ∧ y.obj = obj) ∧
          skiplistInsert sl score obj lvl = some (sl, none)) ∨
       ((∀ y, post.head? = some y → y.obj ≠ obj) ∧
          ∃ t, skiplistInsert sl score obj lvl = some (t, some sl.brk) ∧
            Inv t (pre ++ { id := sl.brk, height := lvl, score := score, obj := obj } :: post) ∧
            t.effects = sl.effects ∧ t.release = sl.release ∧ t.compare = sl.compare ∧
            t.header = sl.header ∧ t.level = max sl.level lvl ∧
            (∀ y, y ≠ sl.brk → (t.mem y).obj = (sl.mem y).obj))) := by
  obtain ⟨pre, post, he, hpre, hpost⟩ :=
    split_sorted sl.compare hinv.cmp_ok (score, obj) A hinv.sorted
  subst he
  refine ⟨pre, post, rfl, hpre, hpost, ?_⟩
  by_cases hdup : ∃ y, post.head? = some y ∧ y.obj = obj
  · exact Or.inl ⟨hdup, insert_dup sl pre post score obj lvl hinv hpre hpost hdup⟩
  · have hnew : ∀ y, post.head? = some y → y.obj ≠ obj :=
      fun y hy ho => hdup ⟨y, hy, ho⟩
    exact Or.inr ⟨hnew, insert_new sl pre post score obj lvl hinv hpre hpost hnew h1 h32⟩

theorem insert_inv (sl t : skiplist α) (A : List (ANode α)) (score : Int) (obj : α)
    (lvl : Nat) (r : Option Nat) (hinv : Inv sl A) (h1 : 1 ≤ lvl) (h32 : lvl ≤ 32)
    (h : skiplistInsert sl score obj lvl = some (t, r)) : ∃ B, Inv t B := by
  obtain ⟨pre, post, he, _, _, hc⟩ := insert_cases sl A score obj lvl hinv h1 h32
  rcases hc with ⟨_, h2⟩ | ⟨_, t2, h2, h3, _⟩
  · rw [h2] at h
    simp only [Option.some.injEq, Prod.mk.injEq] at h
    rw [← h.1]
    exact ⟨A, hinv⟩
  · rw [h2] at h
    simp only [Option.some.injEq, Prod.mk.injEq] at h
    rw [← h.1]
    exact ⟨_, h3⟩

/-- What `skiplistDelete` does, whatever the key. -/
theorem delete_cases (sl : skiplist α) (A : List (ANode α)) (score : double) (obj : α)
    (hinv : Inv sl A) :
    ∃ pre post, A = pre ++ post ∧
      (∀ a ∈ pre, entryLt sl.compare a.entry (score, obj)) ∧
      (∀ a ∈ post, ¬ entryLt sl.compare a.entry (score, obj)) ∧
      (((∀ y, post.head? = some y → y.obj ≠ obj) ∧
          skiplistDelete sl score obj = some (sl, false)) ∨
       (∃ y rest, post = y :: rest ∧ y.obj = obj ∧
          ∃ t, skiplistDelete sl score obj = some (t, true) ∧ Inv t (pre ++ rest) ∧
            t.release = sl.release ∧ t.compare = sl.compare ∧ t.header = sl.header ∧
            t.level ≤ sl.level ∧
            t.effects = sl.effects ++
              (if sl.release then [Effect.released (some y.obj)] else []))) := by
  obtain ⟨pre, post, he, hpre, hpost⟩ :=
    split_sorted sl.compare hinv.cmp_ok (score, obj) A hinv.sorted
  subst he
  refine ⟨pre, post, rfl, hpre, hpost, ?_⟩
  by_cases hdup : ∃ y, post.head? = some y ∧ y.obj = obj
  · obtain ⟨y, hy, ho⟩ := hdup
    cases post with
    | nil => simp at hy
    | cons z rest =>
      simp at hy
      subst hy
      exact Or.inr ⟨z, rest, rfl, ho,
        delete_present sl pre rest z score obj hinv hpre hpost ho⟩
  · have hnew : ∀ y, post.head? = some y → y.obj ≠ obj :=
      fun y hy ho => hdup ⟨y, hy, ho⟩
    exact Or.inl ⟨hnew, delete_absent sl pre post score obj hinv hpre hpost hnew⟩

theorem delete_inv (sl t : skiplist α) (A : List (ANode α)) (score : double) (obj : α)
    (r : Bool) (hinv : Inv sl A)
    (h : skiplistDelete sl score obj = some (t, r)) :
    ∃ B, Inv t B ∧ B.length ≤ A.length := by
  obtain ⟨pre, post, he, _, _, hc⟩ := delete_cases sl A score obj hinv
  rcases hc with ⟨_, h2⟩ | ⟨y, rest, hp, _, t2, h2, h3, _⟩
  · rw [h2] at h
    simp only [Option.some.injEq, Prod.mk.injEq] at h
    rw [← h.1]
    exact ⟨A, hinv, le_refl _⟩
  · rw [h2] at h
    simp only [Option.some.injEq, Prod.mk.injEq] at h
    rw [← h.1]
    exact ⟨_, h3, by rw [he, hp]; simp⟩

theorem update_undefined (sl : skiplist α) (pre : List (ANode α)) (cur : double) (obj : α)
    (newscore : Int) (lvl : Nat) (hinv : Inv sl (pre ++ []))
    (hpre : ∀ a ∈ pre, entryLt sl.compare a.entry (cur, obj)) :
    skiplistUpdateScore sl cur obj newscore lvl = none := by
  obtain ⟨upd, rnk, acc, hd, hpred, _⟩ :=
    descend_keyBefore sl pre [] cur obj hinv hpre (by simp) (fun _ => 0) (fun _ => 0)
  obtain ⟨h0f, _, _⟩ := pred_zero sl pre [] _ upd rnk hinv (hpred 0 hinv.level_pos)
  unfold skiplistUpdateScore
  rw [hd]
  simp only [h0f]
  rfl

theorem update_inv (sl t : skiplist α) (A : List (ANode α)) (cur : double) (obj : α)
    (newscore : Int) (lvl : Nat) (r : Option Nat) (hinv : Inv sl A)
    (h1 : 1 ≤ lvl) (h32 : lvl ≤ 32)
    (h : skiplistUpdateScore sl cur obj newscore lvl = some (t, r)) :
    ∃ B, Inv t B ∧ B.length ≤ A.length := by
  obtain ⟨pre, post, he, hpre, hpost⟩ :=
    split_sorted sl.compare hinv.cmp_ok (cur, obj) A hinv.sorted
  subst he
  cases post with
  | nil =>
    rw [update_undefined sl pre cur obj newscore lvl hinv hpre] at h
    simp at h
  | cons x post =>
    by_cases hfit : (∀ b, pre.getLast? = some b → b.score < newscore) ∧
        (∀ f, post.head? = some f → newscore < f.score)
    · obtain ⟨h2, h3⟩ := update_fast sl pre post x cur obj newscore lvl hinv hpre hpost
        hfit.1 hfit.2
      rw [h2] at h
      simp only [Option.some.injEq, Prod.mk.injEq] at h
      rw [← h.1]
      exact ⟨_, h3, by simp⟩
    · obtain ⟨sl1, hinv1, _, hbrk, hhdr, _, _, _, h2⟩ :=
        update_slow sl pre post x cur obj newscore lvl hinv hpre hpost hfit
      rw [h2] at h
      have hnd := hinv.nodup
      simp only [List.map_append, List.map_cons] at hnd
      obtain ⟨⟨n1, n2, n3⟩, n4, ⟨n5, n6⟩, n7, n8⟩ := nodup_facts _ _ _ _ hnd
      have hxlt := hinv.ids_lt x (by simp)
      obtain ⟨pre2, post2, he2, _, _, hc⟩ :=
        insert_cases sl1 (pre ++ post) newscore x.obj lvl hinv1 h1 h32
      rcases hc with ⟨_, h3⟩ | ⟨_, t2, h3, h4, _, _, _, h5, _⟩
      · rw [h3] at h
        simp only [Option.some.injEq, Prod.mk.injEq] at h
        rw [← h.1]
        refine ⟨_, inv_setObj sl1 _ x.id none hinv1 ?_ (by rw [hhdr]; exact fun h => n2 h.symm),
          by simp⟩
        simp only [List.map_append, List.mem_append, not_or]
        exact ⟨n7, n5⟩
      · rw [h3] at h
        simp only [Option.some.injEq, Prod.mk.injEq] at h
        rw [← h.1]
        refine ⟨_, inv_setObj t2 _ x.id none h4 ?_
          (by rw [h5, hhdr]; exact fun h => n2 h.symm), ?_⟩
        swap
        · have := congrArg List.length he2
          simp only [List.length_append, List.length_cons] at this ⊢
          omega
        have hmem : x.id ∉ (pre2 ++ post2).map ANode.id := by
          rw [← he2]
          simp only [List.map_append, List.mem_append, not_or]
          exact ⟨n7, n5⟩
        simp only [List.map_append, List.map_cons, List.mem_append, List.mem_cons, not_or]
          at hmem ⊢
        exact ⟨hmem.1, by rw [hbrk]; omega, hmem.2⟩

theorem deleteRange_inv (sl t : skiplist α) (A : List (ANode α)) (start stop r : Nat)
    (hinv : Inv sl A) (hcap : sl.length < UINT_MOD)
    (h : skiplistDeleteRangeByRank sl start stop = some (t, r)) :
    ∃ B, Inv t B ∧ B.length ≤ A.length := by
  by_cases hout : start > sl.length ∨ stop < 1
  · rw [deleteRange_outside sl start stop hout] at h
    simp only [Option.some.injEq, Prod.mk.injEq] at h
    rw [← h.1]
    exact ⟨A, hinv, le_refl _⟩
  · obtain ⟨t2, h2, h3, _⟩ := deleteRange_spec sl A start stop hinv hcap hout
    rw [h2] at h
    simp only [Option.some.injEq, Prod.mk.injEq] at h
    rw [← h.1]
    refine ⟨_, h3, ?_⟩
    simp only [List.length_append, List.length_take, List.length_drop]
    omega

/-- Every reachable list satisfies the invariant, and holds fewer than `2^32`
nodes. -/
theorem reachable_inv (sl : skiplist α) (h : Reachable sl) :
    ∃ A, Inv sl A ∧ sl.length < UINT_MOD := by
  induction h with
  | init cmp rel hc => exact ⟨[], inv_init cmp rel hc, by simp [skiplistInit, UINT_MOD]⟩
  | insert sl sl2 score obj level r _ h1 h32 hi hcap hn ih =>
    obtain ⟨A, hA, _⟩ := ih
    obtain ⟨s, rfl⟩ := double.exists_num score hn
    obtain ⟨B, hB⟩ := insert_inv sl sl2 A s obj level r hA h1 h32 hi
    exact ⟨B, hB, hcap⟩
  | delete sl sl2 score obj r _ hd ih =>
    obtain ⟨A, hA, hc⟩ := ih
    obtain ⟨B, hB, hl⟩ := delete_inv sl sl2 A score obj r hA hd
    exact ⟨B, hB, by rw [hB.length_eq]; rw [hA.length_eq] at hc; omega⟩
  | update sl sl2 cur obj new level r _ h1 h32 hu hn2 ih =>
    obtain ⟨A, hA, hc⟩ := ih
    obtain ⟨n, rfl⟩ := double.exists_num new hn2
    obtain ⟨B, hB, hl⟩ := update_inv sl sl2 A cur obj n level r hA h1 h32 hu
    exact ⟨B, hB, by rw [hB.length_eq]; rw [hA.length_eq] at hc; omega⟩
  | deleteRange sl sl2 start stop r _ hd ih =>
    obtain ⟨A, hA, hc⟩ := ih
    obtain ⟨B, hB, hl⟩ := deleteRange_inv sl sl2 A start stop r hA hc hd
    exact ⟨B, hB, by rw [hB.length_eq]; rw [hA.length_eq] at hc; omega⟩

/-! ## The level-0 sequence -/

theorem chainFrom_spec (sl : skiplist α) : ∀ (l : List Link) (fuel : Nat),
    LevelsOK sl l → (∀ c ∈ l, 1 ≤ c.height) → l.length ≤ fuel →
    chainFrom sl fuel (l.head?.map Link.id) = l.map Link.id := by
  intro l
  induction l with
  | nil => intro fuel _ _ _; cases fuel <;> rfl
  | cons a l ih =>
    intro fuel hlv hreal hfuel
    obtain ⟨f, rfl⟩ : ∃ f, fuel = f + 1 := ⟨fuel - 1, by simp at hfuel; omega⟩
    have hcell := (hlv.1 0 (hreal a (by simp))).1
    have hnext : sl.forward a.id 0 = l.head?.map Link.id := by
      rw [hcell]
      exact nextAt_zero l (fun c hc => hreal c (by simp [hc]))
    simp only [List.head?_cons, Option.map_some', chainFrom, List.map_cons, hnext]
    rw [ih f hlv.2 (fun c hc => hreal c (by simp [hc])) (by simp at hfuel; omega)]

theorem inv_chain (sl : skiplist α) (A : List (ANode α)) (hinv : Inv sl A) :
    sl.chain = A.map ANode.id := by
  have hreal : ∀ c ∈ A.map ANode.link, 1 ≤ c.height := by
    intro c hc
    obtain ⟨a, ha, rfl⟩ := List.mem_map.mp hc
    exact (hinv.heights a ha).1
  have hcell := (hinv.levels.1 0 (by simp [headLink])).1
  have hnext : sl.forward sl.header 0 = (A.map ANode.link).head?.map Link.id := by
    have h1 : sl.forward sl.header 0 = nextAt 0 (A.map ANode.link) := hcell
    rw [h1]
    exact nextAt_zero _ hreal
  unfold skiplist.chain
  rw [hnext, chainFrom_spec sl _ _ hinv.levels.2 hreal
    (by have := hinv.room; simp; omega), map_link_id]

theorem inv_toList (sl : skiplist α) (A : List (ANode α)) (hinv : Inv sl A) :
    sl.toList = A.map ANode.entry := by
  unfold skiplist.toList
  rw [inv_chain sl A hinv, List.filterMap_map]
  have : ∀ B : List (ANode α), (∀ a ∈ B, a ∈ A) →
      List.filterMap (sl.entry ∘ ANode.id) B = B.map ANode.entry := by
    intro B
    induction B with
    | nil => intro _; rfl
    | cons b B ih =>
      intro hB
      have hd := hinv.data b (hB b (by simp))
      have : (sl.entry ∘ ANode.id) b = some b.entry := by
        simp [skiplist.entry, hd.1, hd.2, ANode.entry]
      rw [List.filterMap_cons_some this, ih (fun a ha => hB a (by simp [ha]))]
      rfl
  exact this A (fun _ h => h)

/-! ## `skiplistGetNodeByRank` -/

theorem getNodeByRankLoop_spec (sl : skiplist α) (P post : List Link) (tgt : Link)
    (P0 : List Link) (hP0 : P = P0 ++ [tgt])
    (hlv : LevelsOK sl (headLink sl :: P ++ post))
    (hreal : ∀ c ∈ P, 1 ≤ c.height)
    (hN : P.length + post.length < 4294967296)
    (hfuel : P.length < sl.brk) :
    ∀ n, n ≤ sl.level → 1 ≤ n →
      ∀ (l1 : List Link) (b : Link) (l2 : List Link),
      headLink sl :: P = l1 ++ b :: l2 → n ≤ b.height → (l1.length = P.length → False) →
      getNodeByRankLoop sl P.length n (b.id, l1.length) = some (some tgt.id) := by
  have hρ : ∀ p d, p + d ≤ P.length + post.length →
      ((fun p => p) p + d % 4294967296) % ULONG_MOD = (fun p => p) (p + d) := by
    intro p d hpd; simp only [ULONG_MOD]; omega
  have hcondP : ∀ a ∈ P, ∀ r, 1 ≤ r → r ≤ P.length →
      (fun (_ : skiplistNode α) r => decide (r ≤ P.length)) (sl.mem a.id) r = true := by
    intro a _ r _ hr; simpa using hr
  have hcondpost : ∀ a ∈ post, ∀ r, P.length < r → r ≤ P.length + post.length →
      (fun (_ : skiplistNode α) r => decide (r ≤ P.length)) (sl.mem a.id) r = false := by
    intro a _ r hr _; simp; omega
  have hlast : ∀ (l1 : List Link) (b : Link) (l2 : List Link),
      headLink sl :: P = l1 ++ b :: l2 → l1.length = P.length → b = tgt := by
    intro l1 b l2 he hl
    obtain ⟨_, hlen⟩ := mem_tail_of_split _ _ _ _ _ he
    have : l2 = [] := List.eq_nil_of_length_eq_zero (by omega)
    subst this
    rw [hP0, ← List.cons_append] at he
    have := List.append_inj' he (by simp)
    simpa using this.2.symm
  intro n
  induction n with
  | zero => intro _ h; omega
  | succ n ih =>
    intro hn _ l1 b l2 he hb hne
    obtain ⟨hsub, hlen⟩ := mem_tail_of_split _ _ _ _ _ he
    have hlv2 : LevelsOK sl (l1 ++ b :: (l2 ++ post)) := by
      have : headLink sl :: P ++ post = l1 ++ b :: (l2 ++ post) := by
        rw [show headLink sl :: P ++ post = (headLink sl :: P) ++ post from rfl, he]; simp
      rw [← this]; exact hlv
    have hcell := levelsOK_cell sl l1 (l2 ++ post) b hlv2 n (by omega)
    -- the part `l2` is not empty since the target is not reached yet
    by_cases hex : ∃ c ∈ l2, n < c.height
    · obtain ⟨m1, b2, m2, hm, hb2, hm2⟩ := exists_last_high n l2 hex
      subst hm
      have hadv := advance_move sl (fun _ r => decide (r ≤ P.length)) ULONG_MOD n
        (P.length + post.length) (fun p => p) hρ (by omega) b2 m2 post hb2 hm2 m1 b.id
        l1.length 0 sl.brk
        (by have := levelsOK_append sl (l1 ++ [b]) (m1 ++ b2 :: m2 ++ post)
              (by simpa using hlv2)
            simpa using this)
        (by simpa using hcell.1)
        (by rw [hcell.2 (by omega)]; simp)
        (fun a ha r h1 h2 => hcondP a (hsub a ha) r (by omega) (by omega))
        (fun a ha r h1 h2 => hcondpost a ha r (by omega) h2)
        (by omega) (by omega)
      have he2 : headLink sl :: P = (l1 ++ b :: m1) ++ b2 :: m2 := by rw [he]; simp
      unfold getNodeByRankLoop
      rw [hadv]
      simp only [Nat.add_zero]
      by_cases hfin : l1.length + m1.length + 1 = P.length
      · simp only [hfin, if_true]
        have := hlast (l1 ++ b :: m1) b2 m2 he2 (by simp; omega)
        rw [this]
      · simp only [hfin, if_false]
        have hn1 : 1 ≤ n := by
          by_contra hcon
          have hn0 : n = 0 := by omega
          subst hn0
          have : m2 = [] := by
            apply List.eq_nil_iff_forall_not_mem.mpr
            intro c hc
            have h1 := hreal c (hsub c (by simp [hc]))
            have h2 := hm2 c hc
            omega
          subst this
          simp at hlen
          omega
        have := ih (by omega) hn1 (l1 ++ b :: m1) b2 m2 he2 (by omega) (by simp; omega)
        simpa [Nat.add_assoc] using this
    · have hlow : ∀ c ∈ l2, c.height ≤ n := by
        intro c hc
        by_contra hcon
        exact hex ⟨c, hc, by omega⟩
      have hadv := advance_stay sl (fun _ r => decide (r ≤ P.length)) ULONG_MOD n
        (P.length + post.length) (fun p => p) hρ l2 post b.id l1.length 0 sl.brk
        hcell.1 (by rw [hcell.2 (by omega)]; simp) hlow
        (fun a ha r h1 h2 => hcondpost a ha r (by omega) h2) (by omega) (by omega)
      unfold getNodeByRankLoop
      rw [hadv]
      have hfin : ¬ l1.length = P.length := fun h => hne h
      simp only [hfin, if_false]
      have hn1 : 1 ≤ n := by
        by_contra hcon
        have hn0 : n = 0 := by omega
        subst hn0
        have : l2 = [] := by
          apply List.eq_nil_iff_forall_not_mem.mpr
          intro c hc
          have h1 := hreal c (hsub c hc)
          have h2 := hlow c hc
          omega
        subst this
        simp at hlen
        omega
      exact ih (by omega) hn1 l1 b l2 he (by omega) hne

theorem getNodeByRank_spec (sl : skiplist α) (A : List (ANode α)) (r : Nat)
    (hinv : Inv sl A) (hcap : sl.length < UINT_MOD) (h1 : 1 ≤ r) (hr : r ≤ sl.length) :
    ∃ a, A[r - 1]? = some a ∧ skiplistGetNodeByRank sl r = some (some a.id) := by
  have hlen := hinv.length_eq
  simp only [UINT_MOD] at hcap
  have hA : A = A.take r ++ A.drop r := (List.take_append_drop _ _).symm
  have hpl : (A.take r).length = r := by rw [List.length_take]; omega
  have hinv2 : Inv sl (A.take r ++ A.drop r) := by rw [← hA]; exact hinv
  obtain ⟨a, ha⟩ : ∃ a, A[r - 1]? = some a := by
    have : r - 1 < A.length := by omega
    exact ⟨A[r - 1], List.getElem?_eq_getElem this⟩
  have htk : A.take r = A.take (r - 1) ++ [a] := by
    have h2 : r = (r - 1) + 1 := by omega
    rw [h2, List.take_succ, ha]
    simp
  refine ⟨a, ha, ?_⟩
  unfold skiplistGetNodeByRank
  have hne : ¬ (r = 0 ∨ r > sl.length) := by omega
  rw [if_neg hne]
  have := getNodeByRankLoop_spec sl ((A.take r).map ANode.link) ((A.drop r).map ANode.link)
    a.link ((A.take (r - 1)).map ANode.link) (by rw [htk]; simp)
    (inv_levels_split sl _ _ hinv2)
    (by
      intro c hc
      obtain ⟨b, hb, rfl⟩ := List.mem_map.mp hc
      exact (hinv.heights b (List.mem_of_mem_take hb)).1)
    (by simp only [List.length_map, List.length_take, List.length_drop]; omega)
    (by have := hinv.room; simp only [List.length_map, hpl]; omega)
    sl.level (le_refl _) hinv.level_pos [] (headLink sl) ((A.take r).map ANode.link) rfl
    hinv.level_le (by simp only [List.length_map, hpl, List.length_nil]; omega)
  simp only [List.length_map, hpl, List.length_nil] at this
  exact this

/-! ## The comparator of the integer binding -/

theorem lzset_int_compare_strict : StrictTotal lzset_int_compare := by
  refine ⟨?_, ?_, ?_⟩
  · intro a b
    unfold lzset_int_compare
    by_cases h1 : a < b
    · simp [h1]; omega
    · by_cases h2 : a > b
      · simp [h1, h2]; omega
      · simp [h1, h2]; omega
  · intro a b
    unfold lzset_int_compare
    by_cases h1 : a < b
    · have h2 : ¬ b < a := by omega
      have h3 : b > a := by omega
      simp [h1, h2, h3]
    · by_cases h2 : a > b
      · have h3 : b < a := by omega
        simp [h1, h2, h3]
      · have h3 : ¬ b < a := by omega
        have h4 : ¬ b > a := by omega
        simp [h1, h2, h3, h4]
  · intro a b c
    unfold lzset_int_compare
    by_cases h1 : a < b <;> by_cases h2 : b < c <;> by_cases h3 : a < c <;>
      by_cases h4 : a > b <;> by_cases h5 : b > c <;> by_cases h6 : a > c <;>
      simp [h1, h2, h3, h4, h5, h6] <;> omega

theorem reachable_intList : Reachable intList :=
  Reachable.init _ _ lzset_int_compare_strict

/-- The list holding the single entry (5, 7). -/
theorem reachable_five : Reachable (inserted intList 5 7 1) :=
  Reachable.insert intList (inserted intList 5 7 1) 5 7 1 (some 1)
    reachable_intList (by decide) (by decide) rfl (by decide) (by decide)

/-- The list holding the single entry (1, 7). -/
theorem reachable_one : Reachable (inserted intList 1 7 1) :=
  Reachable.insert intList (inserted intList 1 7 1) 1 7 1 (some 1)
    reachable_intList (by decide) (by decide) rfl (by decide) (by decide)

/-- The list holding (1, 7) and (5, 7), both nodes of one level. -/
theorem reachable_one_five : Reachable (inserted (inserted intList 1 7 1) 5 7 1) :=
  Reachable.insert (inserted intList 1 7 1) (inserted (inserted intList 1 7 1) 5 7 1) 5 7 1
    (some 2) reachable_one (by decide) (by decide) rfl (by decide) (by decide)

/-- The list holding (1, 7), a node of two levels, and (5, 7), of one level. -/
theorem reachable_tall_one_five : Reachable (inserted (inserted intList 1 7 2) 5 7 1) :=
  Reachable.insert (inserted intList 1 7 2) (inserted (inserted intList 1 7 2) 5 7 1) 5 7 1
    (some 2)
    (Reachable.insert intList (inserted intList 1 7 2) 1 7 2 (some 1)
      reachable_intList (by decide) (by decide) rfl (by decide) (by decide))
    (by decide) (by decide) rfl (by decide) (by decide)

/-- The list holding (10, 1) and (30, 3), nodes of 2 and 1 levels. -/
theorem reachable_two : Reachable (inserted (inserted intList 10 1 2) 30 3 1) :=
  Reachable.insert (inserted intList 10 1 2) (inserted (inserted intList 10 1 2) 30 3 1)
    30 3 1 (some 2)
    (Reachable.insert intList (inserted intList 10 1 2) 10 1 2 (some 1)
      reachable_intList (by decide) (by decide) rfl (by decide) (by decide))
    (by decide) (by decide) rfl (by decide) (by decide)

/-- The list holding (10, 1), (20, 2) and (30, 3), nodes of 2, 3 and 1
levels. -/
theorem reachable_three :
    Reachable (inserted (inserted (inserted intList 10 1 2) 30 3 1) 20 2 3) :=
  Reachable.insert (inserted (inserted intList 10 1 2) 30 3 1)
    (inserted (inserted (inserted intList 10 1 2) 30 3 1) 20 2 3) 20 2 3 (some 3)
    reachable_two (by decide) (by decide) rfl (by decide) (by decide)

/-! ## The claims -/

theorem ascending_insert_unique (cmp : α → α → Int) (hc : StrictTotal cmp) (k : double × α)
    (l1 l2 m1 m2 : List (double × α)) (he : l1 ++ l2 = m1 ++ m2)
    (h1 : ∀ e ∈ l1, entryLt cmp e k) (h2 : ∀ e ∈ l2, entryLt cmp k e)
    (hm : Ascending cmp (m1 ++ k :: m2)) : m1 = l1 ∧ m2 = l2 := by
  unfold Ascending at hm
  rw [List.pairwise_append] at hm
  have hm1 : ∀ e ∈ m1, entryLt cmp e k := fun e he2 => hm.2.2 e he2 k (by simp)
  have hm2 : ∀ e ∈ m2, entryLt cmp k e := (List.pairwise_cons.mp hm.2.1).1
  rcases List.append_eq_append_iff.mp he with ⟨t, h3, h4⟩ | ⟨t, h3, h4⟩
  · cases t with
    | nil => simp at h3 h4; exact ⟨h3, h4.symm⟩
    | cons c t =>
      exfalso
      have hc1 : entryLt cmp c k := hm1 c (by rw [h3]; simp)
      have hc2 : entryLt cmp k c := h2 c (by rw [h4]; simp)
      exact entryLt_asymm cmp hc _ _ hc1 hc2
  · cases t with
    | nil => simp at h3 h4; exact ⟨h3.symm, h4⟩
    | cons c t =>
      exfalso
      have hc1 : entryLt cmp c k := h1 c (by rw [h3]; simp)
      have hc2 : entryLt cmp k c := hm2 c (by rw [h4]; simp)
      exact entryLt_asymm cmp hc _ _ hc1 hc2

/-- The insertion of a score that is a number.  On a reachable list (its scores
are numbers) `skiplistInsert` returns, and when it returns a
node (not `NULL`) the level-0 sequence afterwards is the former sequence with
(score, payload) put between the entries before it and the entries after it in
the order by score and then by the payload comparator; this is the only position
that keeps the sequence ascending, the former entries keep their relative order,
and the length has grown by exactly one. -/
theorem insert_places_entry (sl : skiplist α) (score : Int) (obj : α) (level : Nat)
    (hr : Reachable sl) (h1 : 1 ≤ level) (h32 : level ≤ SKIPLIST_MAXLEVEL) :
    ∃ sl2 r, skiplistInsert sl score obj level = some (sl2, r) ∧
      (r ≠ none →
        ∃ l1 l2, sl.toList = l1 ++ l2 ∧ sl2.toList = l1 ++ ((score : double), obj) :: l2 ∧
          (∀ e ∈ l1, entryLt sl.compare e ((score : double), obj)) ∧
          (∀ e ∈ l2, entryLt sl.compare ((score : double), obj) e) ∧
          Ascending sl.compare sl2.toList ∧
          (∀ m1 m2, sl.toList = m1 ++ m2 →
            Ascending sl.compare (m1 ++ ((score : double), obj) :: m2) → m1 = l1 ∧ m2 = l2) ∧
          sl2.length = sl.length + 1) := by
  obtain ⟨A, hinv, _⟩ := reachable_inv sl hr
  obtain ⟨pre, post, he, hpre, hpost, hc⟩ := insert_cases sl A score obj level hinv h1 h32
  rcases hc with ⟨_, h2⟩ | ⟨_, t, h2, h3, _, _, hcmp, _, _, _⟩
  · exact ⟨sl, none, h2, fun h => absurd rfl h⟩
  · refine ⟨t, some sl.brk, h2, fun _ => ?_⟩
    have hs := h3.sorted
    rw [hcmp] at hs
    have hl1 : ∀ e ∈ pre.map ANode.entry, entryLt sl.compare e ((score : double), obj) := by
      intro e he2
      obtain ⟨a, ha, rfl⟩ := List.mem_map.mp he2
      exact hpre a ha
    have hl2 : ∀ e ∈ post.map ANode.entry, entryLt sl.compare ((score : double), obj) e := by
      unfold Ascending at hs
      simp only [List.map_append, List.map_cons, List.pairwise_append] at hs
      exact (List.pairwise_cons.mp hs.2.1).1
    have ht1 : sl.toList = pre.map ANode.entry ++ post.map ANode.entry := by
      rw [inv_toList sl A hinv, he, List.map_append]
    have ht2 : t.toList = pre.map ANode.entry ++ ((score : double), obj) :: post.map ANode.entry := by
      rw [inv_toList t _ h3, List.map_append]
      rfl
    refine ⟨pre.map ANode.entry, post.map ANode.entry, ht1, ht2, hl1, hl2, ?_, ?_, ?_⟩
    · rw [inv_toList t _ h3]; exact hs
    · intro m1 m2 hm hasc
      exact ascending_insert_unique sl.compare hinv.cmp_ok ((score : double), obj) _ _ m1 m2
        (by rw [← ht1, hm]) hl1 hl2 hasc
    · rw [h3.length_eq, hinv.length_eq, he]
      simp only [List.length_append, List.length_cons]
      omega

/-- An instance of `insert_places_entry`: the insertion of (20, 2) with three
levels into the reachable list holding (10, 1) and (30, 3), which returns the
node at address 3. -/
theorem insert_places_entry_witness :
    Reachable (inserted (inserted intList 10 1 2) 30 3 1) ∧ 1 ≤ 3 ∧
    3 ≤ SKIPLIST_MAXLEVEL ∧
    skiplistInsert (inserted (inserted intList 10 1 2) 30 3 1) 20 2 3 =
      some (inserted (inserted (inserted intList 10 1 2) 30 3 1) 20 2 3, some 3) ∧
    ∃ sl2 r, skiplistInsert (inserted (inserted intList 10 1 2) 30 3 1) 20 2 3 =
        some (sl2, r) ∧
      (r ≠ none →
        ∃ l1 l2, (inserted (inserted intList 10 1 2) 30 3 1).toList = l1 ++ l2 ∧
          sl2.toList = l1 ++ (20, 2) :: l2 ∧
          (∀ e ∈ l1, entryLt (inserted (inserted intList 10 1 2) 30 3 1).compare e (20, 2)) ∧
          (∀ e ∈ l2, entryLt (inserted (inserted intList 10 1 2) 30 3 1).compare (20, 2) e) ∧
          Ascending (inserted (inserted intList 10 1 2) 30 3 1).compare sl2.toList ∧
          (∀ m1 m2, (inserted (inserted intList 10 1 2) 30 3 1).toList = m1 ++ m2 →
            Ascending (inserted (inserted intList 10 1 2) 30 3 1).compare
              (m1 ++ (20, 2) :: m2) → m1 = l1 ∧ m2 = l2) ∧
          sl2.length = (inserted (inserted intList 10 1 2) 30 3 1).length + 1) :=
  ⟨reachable_two, by decide, by decide, rfl,
   insert_places_entry (inserted (inserted intList 10 1 2) 30 3 1) 20 2 3
     reachable_two (by decide) (by decide)⟩

/-- The order of the lists whose scores are numbers.  In every reachable list
(the empty list of `skiplistInit` and every list after `skiplistInsert` and
`skiplistUpdateScore` with a number as the score stored, `skiplistDelete` and
`skiplistDeleteRangeByRank`) the level-0 sequence is strictly ascending by score
and then by the payload comparator, so no two nodes have both the same score and
comparator-equal payloads. -/
theorem reachable_ascending (sl : skiplist α) (hr : Reachable sl) :
    Ascending sl.compare sl.toList ∧
    sl.toList.Pairwise (fun p q => ¬ (p.1 = q.1 ∧ sl.compare p.2 q.2 = 0)) := by
  obtain ⟨A, hinv, _⟩ := reachable_inv sl hr
  have hs : Ascending sl.compare sl.toList := by
    rw [inv_toList sl A hinv]; exact hinv.sorted
  refine ⟨hs, ?_⟩
  unfold Ascending at hs
  apply List.Pairwise.imp _ hs
  intro p q hpq
  unfold entryLt at hpq
  rintro ⟨h1, h2⟩
  rcases hpq with h3 | ⟨_, h3⟩
  · rw [h1] at h3
    exact double.lt_irrefl _ h3
  · omega

/-- An instance of `reachable_ascending`: the reachable list holding (10, 1),
(20, 2) and (30, 3). -/
theorem reachable_ascending_witness :
    Reachable (inserted (inserted (inserted intList 10 1 2) 30 3 1) 20 2 3) ∧
    Ascending (inserted (inserted (inserted intList 10 1 2) 30 3 1) 20 2 3).compare
      (inserted (inserted (inserted intList 10 1 2) 30 3 1) 20 2 3).toList ∧
    (inserted (inserted (inserted intList 10 1 2) 30 3 1) 20 2 3).toList.Pairwise
      (fun p q => ¬ (p.1 = q.1 ∧
        (inserted (inserted (inserted intList 10 1 2) 30 3 1) 20 2 3).compare p.2 q.2 = 0)) :=
  ⟨reachable_three, reachable_ascending _ reachable_three⟩

/-- C3 (what the code does): on the reachable list holding only (5, 7),
`skiplistInsert` of score 3 with the payload 7 returns `NULL` and leaves the list
unchanged, although no node has score 3 and payload 7. -/
theorem insert_rejects_absent_key :
    Reachable (inserted intList 5 7 1) ∧
    (inserted intList 5 7 1).toList = [(5, 7)] ∧
    skiplistInsert (inserted intList 5 7 1) 3 7 1 = some (inserted intList 5 7 1, none) :=
  ⟨reachable_five, by decide, rfl⟩

/-- The deletion of a key from a list whose scores are numbers.  On a reachable
list holding a node with score `s` and a payload that
compares equal to `p`, `skiplistDelete` of (s, p) returns 1, the level-0 sequence
afterwards is the former one with exactly that entry removed, the others keeping
their order, and the length has decreased by exactly one. -/
theorem delete_removes_entry (sl : skiplist α) (s : Int) (p q : α)
    (hr : Reachable sl) (hq : ((s : double), q) ∈ sl.toList) (hcmp : sl.compare q p = 0) :
    ∃ sl2 l1 l2, skiplistDelete sl s p = some (sl2, true) ∧
      sl.toList = l1 ++ ((s : double), q) :: l2 ∧ sl2.toList = l1 ++ l2 ∧
      sl2.length + 1 = sl.length := by
  obtain ⟨A, hinv, _⟩ := reachable_inv sl hr
  have hqp : q = p := (hinv.cmp_ok.eq_iff q p).mp hcmp
  subst hqp
  rw [inv_toList sl A hinv] at hq
  obtain ⟨a, ha, hae⟩ := List.mem_map.mp hq
  obtain ⟨pre, post, he, hpre, hpost, hc⟩ := delete_cases sl A s q hinv
  have hapost : a ∈ post := by
    rw [he] at ha
    rcases List.mem_append.mp ha with h1 | h1
    · exfalso
      have := hpre a h1
      rw [hae] at this
      exact entryLt_irrefl sl.compare hinv.cmp_ok _ this
    · exact h1
  have hhead : ∀ y rest, post = y :: rest → y.entry = ((s : double), q) := by
    intro y rest hp
    rw [hp] at hapost
    rcases List.mem_cons.mp hapost with h1 | h1
    · rw [← h1]; exact hae
    · exfalso
      have hs := hinv.sorted
      rw [he, hp] at hs
      unfold Ascending at hs
      simp only [List.map_append, List.map_cons, List.pairwise_append] at hs
      have := (List.pairwise_cons.mp hs.2.1).1 a.entry (List.mem_map_of_mem _ h1)
      rw [hae] at this
      exact hpost y (by rw [hp]; simp) this
  rcases hc with ⟨hno, _⟩ | ⟨y, rest, hp, _, t, h2, h3, _⟩
  · exfalso
    cases hp : post with
    | nil => rw [hp] at hapost; simp at hapost
    | cons y rest =>
      have := hhead y rest hp
      apply hno y (by rw [hp]; simp)
      have h4 := congrArg Prod.snd this
      simpa [ANode.entry] using h4
  · have hy := hhead y rest hp
    refine ⟨t, pre.map ANode.entry, rest.map ANode.entry, h2, ?_, ?_, ?_⟩
    · rw [inv_toList sl A hinv, he, hp, List.map_append, List.map_cons, hy]
    · rw [inv_toList t _ h3, List.map_append]
    · rw [h3.length_eq, hinv.length_eq, he, hp]
      simp only [List.length_append, List.length_cons]
      omega

/-- An instance of `delete_removes_entry`: the deletion of (20, 2) from the
reachable list holding (10, 1), (20, 2) and (30, 3). -/
theorem delete_removes_entry_witness :
    Reachable (inserted (inserted (inserted intList 10 1 2) 30 3 1) 20 2 3) ∧
    (20, 2) ∈ (inserted (inserted (inserted intList 10 1 2) 30 3 1) 20 2 3).toList ∧
    (inserted (inserted (inserted intList 10 1 2) 30 3 1) 20 2 3).compare 2 2 = 0 ∧
    ∃ sl2 l1 l2,
      skiplistDelete (inserted (inserted (inserted intList 10 1 2) 30 3 1) 20 2 3) 20 2 =
        some (sl2, true) ∧
      (inserted (inserted (inserted intList 10 1 2) 30 3 1) 20 2 3).toList =
        l1 ++ (20, 2) :: l2 ∧
      sl2.toList = l1 ++ l2 ∧
      sl2.length + 1 = (inserted (inserted (inserted intList 10 1 2) 30 3 1) 20 2 3).length :=
  ⟨reachable_three, by decide, by decide,
   delete_removes_entry _ 20 2 2 reachable_three (by decide) (by decide)⟩

/-- C5 (what the code does): on the reachable list holding only (5, 7),
`skiplistDelete` of score 3 with the payload 7 returns 1 and removes the node
(5, 7), although no node has score 3 and payload 7. -/
theorem delete_removes_other_score :
    Reachable (inserted intList 5 7 1) ∧
    (inserted intList 5 7 1).toList = [(5, 7)] ∧
    (skiplistDelete (inserted intList 5 7 1) 3 7).map
      (fun r => (r.2, r.1.toList, r.1.length)) = some (true, [], 0) :=
  ⟨reachable_five, by decide, by decide⟩

/-- C6 (what the code does): on the reachable list holding only (5, 7), the key
(3, 7) is not present; `skiplistInsert` of (3, 7) returns `NULL` and the following
`skiplistDelete` of (3, 7) returns 1 and leaves the empty list, of length 0 and
not 1. -/
theorem roundtrip_loses_other_node :
    Reachable (inserted intList 5 7 1) ∧
    (inserted intList 5 7 1).toList = [(5, 7)] ∧
    (inserted intList 5 7 1).length = 1 ∧
    skiplistInsert (inserted intList 5 7 1) 3 7 1 = some (inserted intList 5 7 1, none) ∧
    (skiplistDelete (inserted intList 5 7 1) 3 7).map
      (fun r => (r.2, r.1.toList, r.1.length)) = some (true, [], 0) :=
  ⟨reachable_five, by decide, by decide, rfl, by decide⟩

/-- C7 (what the code does): on the reachable list holding (1, 7) in a node of
two levels and (5, 7) in a node of one level, `skiplistGetRank` of (5, 7) returns
1, although the node (5, 7) is the second of the level-0 chain. -/
theorem getRank_stops_at_lower_score :
    Reachable (inserted (inserted intList 1 7 2) 5 7 1) ∧
    (inserted (inserted intList 1 7 2) 5 7 1).toList = [(1, 7), (5, 7)] ∧
    skiplistGetRank (inserted (inserted intList 1 7 2) 5 7 1) 5 7 = some 1 :=
  ⟨reachable_tall_one_five, by decide, by decide⟩

/-- C8 (what the code does): on the reachable list holding only (1, 7),
`skiplistGetRank` of score 5 with the payload 7 returns 1 and not 0, although no
node has score 5 and payload 7. -/
theorem getRank_finds_other_score :
    Reachable (inserted intList 1 7 1) ∧
    (inserted intList 1 7 1).toList = [(1, 7)] ∧
    skiplistGetRank (inserted intList 1 7 1) 5 7 = some 1 :=
  ⟨reachable_one, by decide, by decide⟩

/-- C10 (what the code does): on the reachable list holding (1, 7) and (5, 7),
`skiplistUpdateScore` of the node (5, 7) to the score 0, for which no node has
the key (0, 7), returns `NULL` and leaves only (1, 7): the length drops from 2
to 1. -/
theorem updateScore_loses_node :
    Reachable (inserted (inserted intList 1 7 1) 5 7 1) ∧
    (inserted (inserted intList 1 7 1) 5 7 1).toList = [(1, 7), (5, 7)] ∧
    (inserted (inserted intList 1 7 1) 5 7 1).length = 2 ∧
    (skiplistUpdateScore (inserted (inserted intList 1 7 1) 5 7 1) 5 7 0 1).map
      (fun r => (r.2, r.1.toList, r.1.length)) = some (none, [(1, 7)], 1) :=
  ⟨reachable_one_five, by decide, by decide, by decide⟩

/-! ## Descents by a test on the forward target alone -/

/-- A sorted chain splits into the nodes whose score passes a test that is
closed under going to lower scores, and the others. -/
theorem split_score (cmp : α → α → Int) (q : Int → Bool)
    (hq : ∀ u v, u ≤ v → q v = true → q u = true) :
    ∀ (A : List (ANode α)), Ascending cmp (A.map ANode.entry) →
      ∃ pre post, A = pre ++ post ∧ (∀ a ∈ pre, q a.score = true) ∧
        (∀ a ∈ post, q a.score = false) := by
  intro A
  induction A with
  | nil => intro _; exact ⟨[], [], rfl, by simp, by simp⟩
  | cons a A ih =>
    intro hs
    unfold Ascending at hs
    simp only [List.map_cons, List.pairwise_cons] at hs
    cases ha : q a.score with
    | true =>
      obtain ⟨pre, post, he, h1, h2⟩ := ih hs.2
      refine ⟨a :: pre, post, by simp [he], ?_, h2⟩
      intro c hc2
      simp at hc2
      rcases hc2 with rfl | hc2
      · exact ha
      · exact h1 c hc2
    | false =>
      refine ⟨[], a :: A, rfl, by simp, ?_⟩
      intro c hc2
      simp at hc2
      rcases hc2 with rfl | hc2
      · exact ha
      · cases hc : q c.score with
        | false => rfl
        | true =>
          have hle := entryLt_score_le cmp _ _ (hs.1 c.entry (List.mem_map_of_mem _ hc2))
          have := hq a.score c.score hle hc
          rw [ha] at this
          exact absurd this (by simp)

/-- A descent whose test passes on the nodes of `pre` and fails on those of
`post` ends on the last node of `pre` (the header when `pre` is empty). -/
theorem descend_cut (sl : skiplist α) (c : skiplistNode α → Nat → Bool)
    (pre post : List (ANode α)) (hinv : Inv sl (pre ++ post))
    (hpre : ∀ a ∈ pre, ∀ r, c (sl.mem a.id) r = true)
    (hpost : ∀ a ∈ post, ∀ r, c (sl.mem a.id) r = false)
    (u0 r0 : Nat → Nat) :
    ∃ upd rnk acc,
      descend sl c UINT_MOD sl.level (sl.header, 0) (u0, r0) =
        some ((upd 0, acc), upd, rnk) ∧
      sl.forward (upd 0) 0 = (post.map ANode.id).head? ∧
      lastId none (pre.map ANode.id) = (if upd 0 = sl.header then none else some (upd 0)) := by
  obtain ⟨x, acc, upd, rnk, hd, h1, _, h3, _⟩ :=
    descend_header sl c UINT_MOD (pre.length + post.length)
      (fun p => p % 4294967296) (by simp)
      (by intro p d _; simp only [UINT_MOD]; omega)
      (pre.map ANode.link) (post.map ANode.link) (inv_levels_split sl pre post hinv)
      (by
        intro b hb r _ _
        obtain ⟨a, ha, rfl⟩ := List.mem_map.mp hb
        exact hpre a ha _)
      (by
        intro b hb r _ _
        obtain ⟨a, ha, rfl⟩ := List.mem_map.mp hb
        exact hpost a ha _)
      (by simp)
      (by have := hinv.room; simp at this ⊢; omega)
      hinv.level_pos hinv.level_le u0 r0
  subst h3
  obtain ⟨hf, hl, _⟩ := pred_zero sl pre post _ upd rnk hinv (h1 0 hinv.level_pos)
  exact ⟨upd, rnk, acc, hd, hf, hl⟩

/-- A descent that adds up the spans, with a test that passes on the nodes of
`pre` and fails on those of `post`, counts the nodes of `pre`. -/
theorem descend_count (sl : skiplist α) (c : skiplistNode α → Nat → Bool)
    (pre post : List (ANode α)) (hinv : Inv sl (pre ++ post)) (hcap : sl.length < UINT_MOD)
    (hpre : ∀ a ∈ pre, ∀ r, c (sl.mem a.id) r = true)
    (hpost : ∀ a ∈ post, ∀ r, c (sl.mem a.id) r = false)
    (u0 r0 : Nat → Nat) :
    ∃ x upd rnk,
      descend sl c ULONG_MOD sl.level (sl.header, 0) (u0, r0) =
        some ((x, pre.length), upd, rnk) := by
  have hlen := hinv.length_eq
  simp only [UINT_MOD, List.length_append] at hcap hlen
  obtain ⟨x, acc, upd, rnk, hd, h1, _, h3, h4⟩ :=
    descend_header sl c ULONG_MOD (pre.length + post.length)
      (fun p => p) rfl
      (by intro p d hpd; simp only [ULONG_MOD]; omega)
      (pre.map ANode.link) (post.map ANode.link) (inv_levels_split sl pre post hinv)
      (by
        intro b hb r _ _
        obtain ⟨a, ha, rfl⟩ := List.mem_map.mp hb
        exact hpre a ha _)
      (by
        intro b hb r _ _
        obtain ⟨a, ha, rfl⟩ := List.mem_map.mp hb
        exact hpost a ha _)
      (by simp)
      (by have := hinv.room; simp at this ⊢; omega)
      hinv.level_pos hinv.level_le u0 r0
  obtain ⟨_, _, hr⟩ := pred_zero sl pre post _ upd rnk hinv (h1 0 hinv.level_pos)
  subst h4
  exact ⟨x, upd, rnk, by rw [hd, hr]⟩

/-! ## The rank of a score -/

theorem lteMax_down (b : Int) (ex : Bool) (u v : Int) (h : u ≤ v)
    (hv : skiplistValueLteMax v b ex = true) : skiplistValueLteMax u b ex = true := by
  unfold skiplistValueLteMax at *
  cases ex <;> simp at * <;> omega

theorem notGteMin_down (b : Int) (ex : Bool) (u v : Int) (h : u ≤ v)
    (hv : (!skiplistValueGteMin v b ex) = true) : (!skiplistValueGteMin u b ex) = true := by
  unfold skiplistValueGteMin at *
  cases ex <;> simp at * <;> omega

theorem countP_split (p : double × α → Bool) (pre post : List (ANode α))
    (hpre : ∀ a ∈ pre, p a.entry = true) (hpost : ∀ a ∈ post, p a.entry = false) :
    ((pre ++ post).map ANode.entry).countP p = pre.length := by
  rw [List.map_append, List.countP_append]
  have h1 : (pre.map ANode.entry).countP p = (pre.map ANode.entry).length := by
    rw [List.countP_eq_length]
    intro e he
    obtain ⟨a, ha, rfl⟩ := List.mem_map.mp he
    exact hpre a ha
  have h2 : (post.map ANode.entry).countP p = 0 := by
    rw [List.countP_eq_zero]
    intro e he
    obtain ⟨a, ha, rfl⟩ := List.mem_map.mp he
    rw [hpost a ha]
    simp
  rw [h1, h2, List.length_map]
  rfl

/-- What `skiplistGetScoreRank` returns on a list that satisfies the invariant. -/
theorem getScoreRank_spec (sl : skiplist α) (A : List (ANode α)) (b : Int) (ex : Bool)
    (hinv : Inv sl A) (hcap : sl.length < UINT_MOD) :
    skiplistGetScoreRank sl b ex =
      some ((A.map ANode.entry).countP (fun e => skiplistValueLteMax e.1 b ex)) := by
  obtain ⟨pre, post, he, h1, h2⟩ :=
    split_score sl.compare (fun v => skiplistValueLteMax v b ex) (lteMax_down b ex) A hinv.sorted
  subst he
  obtain ⟨x, upd, rnk, hd⟩ :=
    descend_count sl (fun n _ => skiplistValueLteMax n.score b ex) pre post hinv hcap
      (by intro a ha _; show skiplistValueLteMax (sl.mem a.id).score b ex = true
          rw [(hinv.data a (by simp [ha])).2]; exact h1 a ha)
      (by intro a ha _; show skiplistValueLteMax (sl.mem a.id).score b ex = false
          rw [(hinv.data a (by simp [ha])).2]; exact h2 a ha)
      (fun _ => 0) (fun _ => 0)
  unfold skiplistGetScoreRank
  rw [hd, countP_split _ pre post h1 h2]

/-! ## The first and the last node of a range of scores -/

theorem backOK_tail (s : skiplist α) : ∀ (l : List Nat) (prev : Option Nat),
    BackOK s prev l → s.tail = lastId prev l := by
  intro l
  induction l with
  | nil => intro prev h; exact h
  | cons y l ih => intro prev h; exact ih (some y) h.2

theorem inv_tail (sl : skiplist α) (A : List (ANode α)) (hinv : Inv sl A) :
    sl.tail = A.getLast?.map ANode.id := by
  rw [backOK_tail sl _ none hinv.back, lastId_map]

theorem inv_head (sl : skiplist α) (A : List (ANode α)) (hinv : Inv sl A) :
    sl.forward sl.header 0 = A.head?.map ANode.id := by
  have hlv := hinv.levels
  have h1 : sl.forward sl.header 0 = nextAt 0 (A.map ANode.link) := (hlv.1 0 (show 0 < 32 by decide)).1
  rw [h1, nextAt_zero]
  · cases A <;> simp [ANode.link]
  · intro c hc
    obtain ⟨a, ha, rfl⟩ := List.mem_map.mp hc
    exact (hinv.heights a ha).1

theorem sorted_scores (cmp : α → α → Int) (pre post : List (ANode α)) (y : ANode α)
    (hs : Ascending cmp ((pre ++ y :: post).map ANode.entry)) :
    (∀ a ∈ pre, a.score ≤ y.score) ∧ (∀ a ∈ post, y.score ≤ a.score) := by
  unfold Ascending at hs
  simp only [List.map_append, List.map_cons, List.pairwise_append, List.pairwise_cons] at hs
  constructor
  · intro a ha
    exact entryLt_score_le cmp _ _
      (hs.2.2 a.entry (List.mem_map_of_mem _ ha) y.entry (by simp))
  · intro a ha
    exact entryLt_score_le cmp _ _ (hs.2.1.1 a.entry (List.mem_map_of_mem _ ha))

theorem inRange_iff (min max : Int) (minex maxex : Bool) (v : Int) :
    InRange min max minex maxex v ↔
      (skiplistValueGteMin v min minex = true ∧ skiplistValueLteMax v max maxex = true) := by
  unfold InRange skiplistValueGteMin skiplistValueLteMax
  cases minex <;> cases maxex <;> simp

/-- The quick test passes when some node lies in the range. -/
theorem isInRange_of_mem (sl : skiplist α) (A : List (ANode α)) (min max : Int)
    (minex maxex : Bool) (hinv : Inv sl A) (y : ANode α) (hy : y ∈ A)
    (h1 : skiplistValueGteMin y.score min minex = true)
    (h2 : skiplistValueLteMax y.score max maxex = true) :
    skiplistIsInRange sl min max minex maxex = true := by
  obtain ⟨pre, post, rfl⟩ := List.append_of_mem hy
  obtain ⟨hlo, hhi⟩ := sorted_scores sl.compare pre post y hinv.sorted
  have hb : (decide ((min : double) > (max : double)) ||
      (double.eq min max && (minex || maxex))) = false := by
    unfold skiplistValueGteMin at h1
    unfold skiplistValueLteMax at h2
    cases minex <;> cases maxex <;> simp at h1 h2 ⊢ <;> omega
  have ht := inv_tail sl _ hinv
  have hh := inv_head sl _ hinv
  unfold skiplistIsInRange
  rw [hb]
  have hlast : ∃ t, (pre ++ y :: post).getLast? = some t ∧ y.score ≤ t.score := by
    rcases List.eq_nil_or_concat post with rfl | ⟨q, t, rfl⟩
    · exact ⟨y, by simp, le_refl _⟩
    · refine ⟨t, ?_, hhi t (by simp)⟩
      rw [List.concat_eq_append,
        show pre ++ y :: (q ++ [t]) = (pre ++ y :: q) ++ [t] by simp]
      exact List.getLast?_concat _
  have hfirst : ∃ f, (pre ++ y :: post).head? = some f ∧ f.score ≤ y.score := by
    cases pre with
    | nil => exact ⟨y, rfl, le_refl _⟩
    | cons f p => exact ⟨f, rfl, hlo f (by simp)⟩
  obtain ⟨t, ht1, ht2⟩ := hlast
  obtain ⟨f, hf1, hf2⟩ := hfirst
  rw [ht1] at ht
  rw [hf1] at hh
  have dt := (hinv.data t (List.mem_of_getLast?_eq_some ht1)).2
  have df := (hinv.data f (List.mem_of_mem_head? hf1)).2
  have e1 : skiplistValueGteMin (sl.mem t.id).score min minex = true := by
    rw [dt]
    unfold skiplistValueGteMin at h1 ⊢
    cases minex <;> simp at h1 ⊢ <;> omega
  have e2 : skiplistValueLteMax (sl.mem f.id).score max maxex = true := by
    rw [df]
    exact lteMax_down max maxex _ _ hf2 h2
  simp only [ht, hh, Option.map_some', e1, e2]
  rfl

/-- When the quick test passes, the last node is above the lower bound and the
first node below the upper bound. -/
theorem isInRange_ends (sl : skiplist α) (A : List (ANode α)) (min max : Int)
    (minex maxex : Bool) (hinv : Inv sl A)
    (h : skiplistIsInRange sl min max minex maxex = true) :
    (∃ t, A.getLast? = some t ∧ skiplistValueGteMin t.score min minex = true) ∧
    (∃ f, A.head? = some f ∧ skiplistValueLteMax f.score max maxex = true) := by
  have ht := inv_tail sl _ hinv
  have hh := inv_head sl _ hinv
  unfold skiplistIsInRange at h
  split at h
  · exact absurd h (by simp)
  · cases hl : A.getLast? with
    | none =>
      rw [hl] at ht
      simp only [Option.map_none'] at ht
      rw [ht] at h
      exact absurd h (by simp)
    | some t =>
      rw [hl] at ht
      simp only [Option.map_some'] at ht
      rw [ht] at h
      simp only at h
      have dt := (hinv.data t (List.mem_of_getLast?_eq_some hl)).2
      split at h
      · exact absurd h (by simp)
      · rename_i hg
        cases hf : A.head? with
        | none =>
          rw [hf] at hh
          simp only [Option.map_none'] at hh
          rw [hh] at h
          exact absurd h (by simp)
        | some f =>
          rw [hf] at hh
          simp only [Option.map_some'] at hh
          rw [hh] at h
          simp only at h
          have df := (hinv.data f (List.mem_of_mem_head? hf)).2
          split at h
          · exact absurd h (by simp)
          · rename_i hm
            rw [dt] at hg
            rw [df] at hm
            exact ⟨⟨t, rfl, by simpa using hg⟩, ⟨f, rfl, by simpa using hm⟩⟩

/-- What `skiplistFirstInRange` returns: the first node above the lower bound
when it is below the upper bound. -/
theorem firstInRange_spec (sl : skiplist α) (A : List (ANode α)) (min max : Int)
    (minex maxex : Bool) (hinv : Inv sl A) :
    ∃ pre post, A = pre ++ post ∧
      (∀ a ∈ pre, skiplistValueGteMin a.score min minex = false) ∧
      (∀ a ∈ post, skiplistValueGteMin a.score min minex = true) ∧
      skiplistFirstInRange sl min max minex maxex =
        some (post.head?.bind
          (fun y => if skiplistValueLteMax y.score max maxex = true then some y.id else none)) := by
  obtain ⟨pre, post, he, h1, h2⟩ :=
    split_score sl.compare (fun v => !skiplistValueGteMin v min minex)
      (notGteMin_down min minex) A hinv.sorted
  have h1b : ∀ a ∈ pre, skiplistValueGteMin a.score min minex = false := by
    intro a ha; simpa using h1 a ha
  have h2b : ∀ a ∈ post, skiplistValueGteMin a.score min minex = true := by
    intro a ha; simpa using h2 a ha
  refine ⟨pre, post, he, h1b, h2b, ?_⟩
  subst he
  unfold skiplistFirstInRange
  cases hin : skiplistIsInRange sl min max minex maxex with
  | false =>
    simp only [Bool.not_false, if_true]
    cases post with
    | nil => rfl
    | cons y rest =>
      simp only [List.head?_cons, Option.some_bind]
      cases hm : skiplistValueLteMax y.score max maxex with
      | false => simp
      | true =>
        have := isInRange_of_mem sl _ min max minex maxex hinv y (by simp)
          (h2b y (by simp)) hm
        rw [hin] at this
        exact absurd this (by simp)
  | true =>
    simp only [Bool.not_true, Bool.false_eq_true, if_false]
    obtain ⟨⟨t, ht1, ht2⟩, _⟩ := isInRange_ends sl _ min max minex maxex hinv hin
    cases post with
    | nil =>
      have htm : t ∈ pre := by
        have := List.mem_of_getLast?_eq_some ht1
        simpa using this
      have := h1b t htm
      rw [ht2] at this
      exact absurd this (by simp)
    | cons y rest =>
      obtain ⟨upd, rnk, acc, hd, hf, _⟩ :=
        descend_cut sl (fun n _ => !skiplistValueGteMin n.score min minex) pre (y :: rest) hinv
          (by intro a ha _
              show (!skiplistValueGteMin (sl.mem a.id).score min minex) = true
              rw [(hinv.data a (by simp [ha])).2, h1b a ha]; rfl)
          (by intro a ha _
              show (!skiplistValueGteMin (sl.mem a.id).score min minex) = false
              rw [(hinv.data a (by simp [ha])).2, h2b a ha]; rfl)
          (fun _ => 0) (fun _ => 0)
      rw [hd]
      simp only [List.map_cons, List.head?_cons] at hf
      simp only [hf, (hinv.data y (by simp)).2, List.head?_cons, Option.some_bind]
      cases hm : skiplistValueLteMax y.score max maxex <;> simp

/-- What `skiplistLastInRange` returns: the last node below the upper bound
when it is above the lower bound. -/
theorem lastInRange_spec (sl : skiplist α) (A : List (ANode α)) (min max : Int)
    (minex maxex : Bool) (hinv : Inv sl A) :
    ∃ pre post, A = pre ++ post ∧
      (∀ a ∈ pre, skiplistValueLteMax a.score max maxex = true) ∧
      (∀ a ∈ post, skiplistValueLteMax a.score max maxex = false) ∧
      skiplistLastInRange sl min max minex maxex =
        some (pre.getLast?.bind
          (fun y => if skiplistValueGteMin y.score min minex = true then some y.id else none)) := by
  obtain ⟨pre, post, he, h1, h2⟩ :=
    split_score sl.compare (fun v => skiplistValueLteMax v max maxex)
      (lteMax_down max maxex) A hinv.sorted
  refine ⟨pre, post, he, h1, h2, ?_⟩
  subst he
  unfold skiplistLastInRange
  cases hin : skiplistIsInRange sl min max minex maxex with
  | false =>
    simp only [Bool.not_false, if_true]
    cases hl : pre.getLast? with
    | none => rfl
    | some y =>
      simp only [Option.some_bind]
      have hy := List.mem_of_getLast?_eq_some hl
      cases hm : skiplistValueGteMin y.score min minex with
      | false => simp
      | true =>
        have := isInRange_of_mem sl _ min max minex maxex hinv y (by simp [hy]) hm (h1 y hy)
        rw [hin] at this
        exact absurd this (by simp)
  | true =>
    simp only [Bool.not_true, Bool.false_eq_true, if_false]
    obtain ⟨_, ⟨f, hf1, hf2⟩⟩ := isInRange_ends sl _ min max minex maxex hinv hin
    rcases List.eq_nil_or_concat pre with rfl | ⟨p0, y, rfl⟩
    · have hfm : f ∈ post := by
        have := List.mem_of_mem_head? hf1
        simpa using this
      have := h2 f hfm
      rw [hf2] at this
      exact absurd this (by simp)
    · rw [List.concat_eq_append] at hinv h1 ⊢
      obtain ⟨upd, rnk, acc, hd, _, hlast⟩ :=
        descend_cut sl (fun n _ => skiplistValueLteMax n.score max maxex) (p0 ++ [y]) post hinv
          (by intro a ha _
              show skiplistValueLteMax (sl.mem a.id).score max maxex = true
              rw [(hinv.data a (List.mem_append_left _ ha)).2]; exact h1 a ha)
          (by intro a ha _
              show skiplistValueLteMax (sl.mem a.id).score max maxex = false
              rw [(hinv.data a (List.mem_append_right _ ha)).2]; exact h2 a ha)
          (fun _ => 0) (fun _ => 0)
      rw [hd]
      rw [List.map_append, List.map_singleton, lastId_append_singleton] at hlast
      have hu : upd 0 = y.id := by
        by_cases hh : upd 0 = sl.header
        · rw [if_pos hh] at hlast; exact absurd hlast (by simp)
        · rw [if_neg hh] at hlast; exact (Option.some.inj hlast).symm
      simp only [hu, (hinv.data y (by simp)).2, List.getLast?_concat, Option.some_bind]
      cases hm : skiplistValueGteMin y.score min minex <;> simp

/-! ## The walks of the binding along the level-0 chain -/

theorem intIncr_lt (n : Int) (h : n < 2147483647) : intIncr n = n + 1 := by
  unfold intIncr
  rw [if_pos h]

/-- The forward walk by score collects the payloads of the nodes up to the
first one whose score is above the bound, at the indices that follow `n`. -/
theorem rangeByScoreLoop_forward (sl : skiplist α) (s2 : Int) :
    ∀ (l pre : List (ANode α)) (n : Int) (acc : List (Int × α)) (fuel : Nat),
      Inv sl (pre ++ l) → l.length < fuel → n + l.length ≤ 2147483647 →
      rangeByScoreLoop sl false s2 fuel (l.head?.map ANode.id) n acc =
        some (acc ++ luaArrayFrom n
          ((l.takeWhile (fun a => decide (a.score ≤ s2))).map ANode.obj)) := by
  intro l
  induction l with
  | nil =>
    intro pre n acc fuel _ hf _
    obtain ⟨f, rfl⟩ := Nat.exists_eq_succ_of_ne_zero (by omega : fuel ≠ 0)
    simp [rangeByScoreLoop, luaArrayFrom]
  | cons y m ih =>
    intro pre n acc fuel hinv hf hn
    obtain ⟨f, rfl⟩ := Nat.exists_eq_succ_of_ne_zero (by omega : fuel ≠ 0)
    have hd := hinv.data y (by simp)
    have hnext := inv_forward_zero sl pre m y hinv
    simp only [List.length_cons, Nat.cast_add, Nat.cast_one] at hn
    have hn1 : intIncr n = n + 1 := intIncr_lt n (by omega)
    simp only [List.head?_cons, Option.map_some', rangeByScoreLoop, hd.1, hd.2,
      Bool.false_eq_true, if_false, hn1, gt_iff_lt, double.num_lt_num]
    by_cases hs : y.score ≤ s2
    · have hgt : ¬ s2 < y.score := by omega
      rw [List.takeWhile_cons_of_pos (by simpa using hs)]
      simp only [hgt, decide_False, Bool.false_eq_true, if_false, hnext]
      rw [ih (pre ++ [y]) (n + 1) (acc ++ [(n + 1, y.obj)]) f (by simpa using hinv)
        (by simp only [List.length_cons] at hf; omega) (by omega)]
      simp [luaArrayFrom]
    · have hgt : s2 < y.score := by omega
      rw [List.takeWhile_cons_of_neg (by simpa using hs)]
      simp [hgt, luaArrayFrom]

/-- The backward walk by score collects, from the last node down, the payloads
of the nodes down to the first one whose score is below the bound, at the
indices that follow `n`. -/
theorem rangeByScoreLoop_backward (sl : skiplist α) (s2 : Int) (post : List (ANode α)) :
    ∀ (l : List (ANode α)) (n : Int) (acc : List (Int × α)) (fuel : Nat),
      Inv sl (l ++ post) → l.length < fuel → n + l.length ≤ 2147483647 →
      rangeByScoreLoop sl true s2 fuel (l.getLast?.map ANode.id) n acc =
        some (acc ++ luaArrayFrom n
          ((l.reverse.takeWhile (fun a => decide (s2 ≤ a.score))).map ANode.obj)) := by
  intro l
  induction l using List.reverseRecOn generalizing post with
  | nil =>
    intro n acc fuel _ hf _
    obtain ⟨f, rfl⟩ := Nat.exists_eq_succ_of_ne_zero (by omega : fuel ≠ 0)
    simp [rangeByScoreLoop, luaArrayFrom]
  | append_singleton m y ih =>
    intro n acc fuel hinv hf hn
    obtain ⟨f, rfl⟩ := Nat.exists_eq_succ_of_ne_zero (by omega : fuel ≠ 0)
    have hinv2 : Inv sl (m ++ y :: post) := by simpa using hinv
    have hd := hinv2.data y (by simp)
    have hprev := inv_backward sl m post y hinv2
    simp only [List.length_append, List.length_singleton, Nat.cast_add, Nat.cast_one] at hn
    have hn1 : intIncr n = n + 1 := intIncr_lt n (by omega)
    simp only [List.getLast?_concat,
      Option.map_some', rangeByScoreLoop, hd.1, hd.2, if_true, List.reverse_append,
      List.reverse_singleton, List.singleton_append, hn1, double.num_lt_num]
    by_cases hs : s2 ≤ y.score
    · have hlt : ¬ y.score < s2 := by omega
      rw [List.takeWhile_cons_of_pos (by simpa using hs)]
      simp only [hlt, decide_False, Bool.false_eq_true, if_false, hprev]
      rw [ih (y :: post) (n + 1) (acc ++ [(n + 1, y.obj)]) f hinv2
        (by simp only [List.length_append, List.length_singleton] at hf; omega) (by omega)]
      simp [luaArrayFrom]
    · have hlt : y.score < s2 := by omega
      rw [List.takeWhile_cons_of_neg (by simpa using hs)]
      simp [hlt, luaArrayFrom]

/-- The forward walk by rank collects the payloads of the next `span - n`
nodes. -/
theorem rangeByRankLoop_forward (sl : skiplist α) (span : Int) :
    ∀ (l pre : List (ANode α)) (n : Int) (acc : List α) (fuel : Nat),
      Inv sl (pre ++ l) → l.length < fuel →
      rangeByRankLoop sl false span fuel (l.head?.map ANode.id) n acc =
        some (acc ++ (l.take (span - n).toNat).map ANode.obj) := by
  intro l
  induction l with
  | nil =>
    intro pre n acc fuel _ hf
    obtain ⟨f, rfl⟩ := Nat.exists_eq_succ_of_ne_zero (by omega : fuel ≠ 0)
    simp [rangeByRankLoop]
  | cons y m ih =>
    intro pre n acc fuel hinv hf
    obtain ⟨f, rfl⟩ := Nat.exists_eq_succ_of_ne_zero (by omega : fuel ≠ 0)
    have hd := hinv.data y (by simp)
    have hnext := inv_forward_zero sl pre m y hinv
    simp only [List.head?_cons, Option.map_some', rangeByRankLoop, hd.1,
      Bool.false_eq_true, if_false]
    by_cases hs : n < span
    · obtain ⟨k, hk⟩ : ∃ k, (span - n).toNat = k + 1 :=
        Nat.exists_eq_succ_of_ne_zero (by omega)
      have hk2 : (span - (n + 1)).toNat = k := by omega
      rw [if_pos hs, hnext, hk, List.take_succ_cons,
        ih (pre ++ [y]) (n + 1) (acc ++ [y.obj]) f (by simpa using hinv)
          (by simp only [List.length_cons] at hf; omega), hk2]
      simp
    · have hk : (span - n).toNat = 0 := by omega
      rw [if_neg hs, hk]
      simp

/-- The backward walk by rank collects, from the last node down, the payloads
of `span - n` nodes. -/
theorem rangeByRankLoop_backward (sl : skiplist α) (span : Int) (post : List (ANode α)) :
    ∀ (l : List (ANode α)) (n : Int) (acc : List α) (fuel : Nat),
      Inv sl (l ++ post) → l.length < fuel →
      rangeByRankLoop sl true span fuel (l.getLast?.map ANode.id) n acc =
        some (acc ++ (l.reverse.take (span - n).toNat).map ANode.obj) := by
  intro l
  induction l using List.reverseRecOn generalizing post with
  | nil =>
    intro n acc fuel _ hf
    obtain ⟨f, rfl⟩ := Nat.exists_eq_succ_of_ne_zero (by omega : fuel ≠ 0)
    simp [rangeByRankLoop]
  | append_singleton m y ih =>
    intro n acc fuel hinv hf
    obtain ⟨f, rfl⟩ := Nat.exists_eq_succ_of_ne_zero (by omega : fuel ≠ 0)
    have hinv2 : Inv sl (m ++ y :: post) := by simpa using hinv
    have hd := hinv2.data y (by simp)
    have hprev := inv_backward sl m post y hinv2
    simp only [List.getLast?_concat,
      Option.map_some', rangeByRankLoop, hd.1, if_true, List.reverse_append,
      List.reverse_singleton, List.singleton_append]
    by_cases hs : n < span
    · obtain ⟨k, hk⟩ : ∃ k, (span - n).toNat = k + 1 :=
        Nat.exists_eq_succ_of_ne_zero (by omega)
      have hk2 : (span - (n + 1)).toNat = k := by omega
      rw [if_pos hs, hprev, hk, List.take_succ_cons,
        ih (y :: post) (n + 1) (acc ++ [y.obj]) f hinv2
          (by simp only [List.length_append, List.length_singleton] at hf; omega), hk2]
      simp
    · have hk : (span - n).toNat = 0 := by omega
      rw [if_neg hs, hk]
      simp

/-! ## The range queries of the binding -/

theorem filter_eq_takeWhile {β : Type} (R : β → β → Prop) (p : β → Bool)
    (hp : ∀ a b, R a b → p b = true → p a = true) :
    ∀ l : List β, l.Pairwise R → l.filter p = l.takeWhile p := by
  intro l
  induction l with
  | nil => intro _; rfl
  | cons a l ih =>
    intro h
    rw [List.pairwise_cons] at h
    cases ha : p a with
    | true =>
      rw [List.filter_cons_of_pos ha, List.takeWhile_cons_of_pos ha, ih h.2]
    | false =>
      rw [List.takeWhile_cons_of_neg (by simp [ha]), List.filter_cons_of_neg (by simp [ha])]
      rw [List.filter_eq_nil_iff]
      intro b hb hpb
      have := hp a b (h.1 b hb) hpb
      rw [ha] at this
      exact absurd this (by simp)

theorem sorted_pairwise_le (cmp : α → α → Int) (A : List (ANode α))
    (hs : Ascending cmp (A.map ANode.entry)) :
    A.Pairwise (fun a b => a.score ≤ b.score) := by
  unfold Ascending at hs
  rw [List.pairwise_map] at hs
  exact hs.imp (fun h => entryLt_score_le cmp _ _ h)

theorem brk_pos (sl : skiplist α) (A : List (ANode α)) (hinv : Inv sl A) :
    ∃ f, sl.brk = f + 1 :=
  Nat.exists_eq_succ_of_ne_zero (by have := hinv.hdr_lt; omega)

/-- What the range query by score returns for bounds in ascending order. -/
theorem rangeByScore_ascending (sl : skiplist α) (A : List (ANode α)) (s1 s2 : Int)
    (hinv : Inv sl A) (hcap : A.length ≤ 2147483647) (h12 : s1 ≤ s2) :
    lzset_get_range_by_score sl s1 s2 =
      some (luaArray ((A.filter (fun a => decide (s1 ≤ a.score) && decide (a.score ≤ s2))).map
        ANode.obj)) := by
  obtain ⟨pre, post, he, h1, h2, hres⟩ := firstInRange_spec sl A s1 s2 false false hinv
  subst he
  obtain ⟨f, hf⟩ := brk_pos sl _ hinv
  have hpw := sorted_pairwise_le sl.compare _ hinv.sorted
  rw [List.pairwise_append] at hpw
  have hfl : (pre ++ post).filter (fun a => decide (s1 ≤ a.score) && decide (a.score ≤ s2)) =
      post.takeWhile (fun a => decide (a.score ≤ s2)) := by
    rw [List.filter_append]
    have e1 : pre.filter (fun a => decide (s1 ≤ a.score) && decide (a.score ≤ s2)) = [] := by
      rw [List.filter_eq_nil_iff]
      intro a ha
      have := h1 a ha
      unfold skiplistValueGteMin at this
      simp at this
      simp
      omega
    have e2 : post.filter (fun a => decide (s1 ≤ a.score) && decide (a.score ≤ s2)) =
        post.filter (fun a => decide (a.score ≤ s2)) := by
      apply List.filter_congr
      intro a ha
      have := h2 a ha
      unfold skiplistValueGteMin at this
      simp at this
      simp [this]
    rw [e1, e2, List.nil_append]
    exact filter_eq_takeWhile (fun a b : ANode α => a.score ≤ b.score) _
      (by intro a b hab hb; simp at hb ⊢; omega) post hpw.2.1
  unfold lzset_get_range_by_score luaArray
  rw [if_pos ((double.num_le_num _ _).mpr h12), hres, hfl]
  cases post with
  | nil => simp [hf, rangeByScoreLoop, luaArrayFrom]
  | cons y rest =>
    simp only [List.head?_cons, Option.some_bind]
    by_cases hy : y.score ≤ s2
    · have hm : skiplistValueLteMax y.score s2 false = true := by
        unfold skiplistValueLteMax; simpa using hy
      rw [if_pos hm]
      have := rangeByScoreLoop_forward sl s2 (y :: rest) pre 0 [] sl.brk hinv
        (by have := hinv.room; simp only [List.length_append] at this; omega)
        (by simp only [List.length_append] at hcap; omega)
      simpa using this
    · have hm : ¬ skiplistValueLteMax y.score s2 false = true := by
        unfold skiplistValueLteMax; simpa using hy
      rw [if_neg hm, List.takeWhile_cons_of_neg (by simpa using hy)]
      simp [hf, rangeByScoreLoop, luaArrayFrom]

/-- What the range query by score returns for bounds in descending order. -/
theorem rangeByScore_descending (sl : skiplist α) (A : List (ANode α)) (s1 s2 : Int)
    (hinv : Inv sl A) (hcap : A.length ≤ 2147483647) (h12 : s2 < s1) :
    lzset_get_range_by_score sl s1 s2 =
      some (luaArray (((A.filter (fun a => decide (s2 ≤ a.score) && decide (a.score ≤ s1))).map
        ANode.obj).reverse)) := by
  obtain ⟨pre, post, he, h1, h2, hres⟩ := lastInRange_spec sl A s2 s1 false false hinv
  subst he
  obtain ⟨f, hf⟩ := brk_pos sl _ hinv
  have hpw := sorted_pairwise_le sl.compare _ hinv.sorted
  rw [List.pairwise_append] at hpw
  have hfl : ((pre ++ post).filter
      (fun a => decide (s2 ≤ a.score) && decide (a.score ≤ s1))).reverse =
      pre.reverse.takeWhile (fun a => decide (s2 ≤ a.score)) := by
    rw [List.filter_append]
    have e1 : post.filter (fun a => decide (s2 ≤ a.score) && decide (a.score ≤ s1)) = [] := by
      rw [List.filter_eq_nil_iff]
      intro a ha
      have := h2 a ha
      unfold skiplistValueLteMax at this
      simp at this
      simp
      omega
    have e2 : pre.filter (fun a => decide (s2 ≤ a.score) && decide (a.score ≤ s1)) =
        pre.filter (fun a => decide (s2 ≤ a.score)) := by
      apply List.filter_congr
      intro a ha
      have := h1 a ha
      unfold skiplistValueLteMax at this
      simp at this
      simp [this]
    rw [e1, e2, List.append_nil, ← List.filter_reverse]
    exact filter_eq_takeWhile (fun a b : ANode α => b.score ≤ a.score) _
      (by intro a b hab hb; simp at hb ⊢; omega) pre.reverse
      (List.pairwise_reverse.mpr hpw.1)
  unfold lzset_get_range_by_score luaArray
  rw [if_neg (by rw [double.num_le_num]; omega), hres, ← List.map_reverse, hfl]
  rcases List.eq_nil_or_concat pre with rfl | ⟨m, y, rfl⟩
  · simp [hf, rangeByScoreLoop, luaArrayFrom]
  · rw [List.concat_eq_append] at hinv hcap ⊢
    simp only [List.getLast?_concat, Option.some_bind, List.reverse_append,
      List.reverse_singleton, List.singleton_append]
    by_cases hy : s2 ≤ y.score
    · have hm : skiplistValueGteMin y.score s2 false = true := by
        unfold skiplistValueGteMin; simpa using hy
      rw [if_pos hm]
      have := rangeByScoreLoop_backward sl s2 post (m ++ [y]) 0 [] sl.brk hinv
        (by have := hinv.room; simp only [List.length_append] at this ⊢; omega)
        (by simp only [List.length_append] at hcap ⊢; omega)
      simpa using this
    · have hm : ¬ skiplistValueGteMin y.score s2 false = true := by
        unfold skiplistValueGteMin; simpa using hy
      rw [if_neg hm, List.takeWhile_cons_of_neg (by simpa using hy)]
      simp [hf, rangeByScoreLoop, luaArrayFrom]

theorem toInt32_small (v : Nat) (h : v < 2147483648) : toInt32 v = (v : Int) := by
  unfold toInt32
  have e : v % 4294967296 = v := Nat.mod_eq_of_lt (by omega)
  rw [e, if_pos h]

theorem reverse_take_window {β : Type} (l : List β) (r k : Nat) (hk : k ≤ r)
    (hr : r ≤ l.length) :
    (l.take r).reverse.take k = ((l.drop (r - k)).take k).reverse := by
  have h1 : l.take r = l.take (r - k) ++ (l.drop (r - k)).take k := by
    have := List.take_add l (r - k) k
    rw [show r - k + k = r by omega] at this
    exact this
  have hlen : ((l.drop (r - k)).take k).length = k := by
    rw [List.length_take, List.length_drop]; omega
  rw [h1, List.reverse_append, List.take_left' (by rw [List.length_reverse, hlen])]

/-- What the range query by rank returns for ranks in ascending order. -/
theorem rangeByRank_ascending (sl : skiplist α) (A : List (ANode α)) (r1 r2 : Nat)
    (hinv : Inv sl A) (hcap : sl.length < UINT_MOD) (h1 : 1 ≤ r1) (h12 : r1 ≤ r2)
    (h2 : r2 ≤ sl.length) (hspan : r2 - r1 < 2147483647) :
    lzset_get_range_by_rank sl r1 r2 =
      some (((A.drop (r1 - 1)).take (r2 - r1 + 1)).map ANode.obj) := by
  obtain ⟨a, ha, hn⟩ := getNodeByRank_spec sl A r1 hinv hcap h1 (by omega)
  have hA : A = A.take (r1 - 1) ++ A.drop (r1 - 1) := (List.take_append_drop _ _).symm
  have hinv2 : Inv sl (A.take (r1 - 1) ++ A.drop (r1 - 1)) := by rw [← hA]; exact hinv
  have hhead : (A.drop (r1 - 1)).head? = some a := by
    rw [List.head?_drop]; exact ha
  have hloop := rangeByRankLoop_forward sl ((r2 - r1 + 1 : Nat) : Int) (A.drop (r1 - 1))
    (A.take (r1 - 1)) 0 [] sl.brk hinv2
    (by have := hinv.room; simp only [List.length_drop]; omega)
  rw [hhead] at hloop
  unfold lzset_get_range_by_rank
  simp only [hn, if_pos h12, decide_True, Bool.not_true]
  rw [Nat.mod_eq_of_lt (by omega : r2 - r1 + 1 < 18446744073709551616),
    toInt32_small _ (by omega)]
  have hb : (!decide (r1 ≤ r2)) = false := by simp [h12]
  rw [hb]
  simpa using hloop

/-- What the range query by rank returns for ranks in descending order. -/
theorem rangeByRank_descending (sl : skiplist α) (A : List (ANode α)) (r1 r2 : Nat)
    (hinv : Inv sl A) (hcap : sl.length < UINT_MOD) (h1 : 1 ≤ r1) (h12 : r1 < r2)
    (h2 : r2 ≤ sl.length) (hspan : r2 - r1 < 2147483647) :
    lzset_get_range_by_rank sl r2 r1 =
      some ((((A.drop (r1 - 1)).take (r2 - r1 + 1)).map ANode.obj).reverse) := by
  obtain ⟨a, ha, hn⟩ := getNodeByRank_spec sl A r2 hinv hcap (by omega) h2
  have hlen := hinv.length_eq
  have hA : A = A.take r2 ++ A.drop r2 := (List.take_append_drop _ _).symm
  have hinv2 : Inv sl (A.take r2 ++ A.drop r2) := by rw [← hA]; exact hinv
  have hlast : (A.take r2).getLast? = some a := by
    rw [List.getLast?_eq_getElem?, List.length_take, Nat.min_eq_left (by omega),
      List.getElem?_take_of_lt (by omega)]
    exact ha
  have hloop := rangeByRankLoop_backward sl ((r2 - r1 + 1 : Nat) : Int) (A.drop r2)
    (A.take r2) 0 [] sl.brk hinv2
    (by have := hinv.room; simp only [List.length_take]; omega)
  rw [hlast] at hloop
  unfold lzset_get_range_by_rank
  simp only [hn, if_neg (by omega : ¬ r2 ≤ r1), decide_False, Bool.not_false]
  rw [Nat.mod_eq_of_lt (by omega : r2 - r1 + 1 < 18446744073709551616),
    toInt32_small _ (by omega), ← List.map_reverse,
    ← show r2 - (r2 - r1 + 1) = r1 - 1 by omega,
    ← reverse_take_window A r2 (r2 - r1 + 1) (by omega) (by omega)]
  have hb : (!decide (r2 ≤ r1)) = true := by simp; omega
  rw [hb]
  simpa using hloop

/-! ## Further facts for the update in place and the deletion by rank -/

/-- In a sorted chain the nodes before a node have a lower key, and neither the
node nor those after it have. -/
theorem sorted_around (sl : skiplist α) (pre post : List (ANode α)) (a : ANode α)
    (hinv : Inv sl (pre ++ a :: post)) :
    (∀ b ∈ pre, entryLt sl.compare b.entry a.entry) ∧
    (∀ c ∈ a :: post, ¬ entryLt sl.compare c.entry a.entry) := by
  have hs := hinv.sorted
  unfold Ascending at hs
  simp only [List.map_append, List.map_cons, List.pairwise_append, List.pairwise_cons] at hs
  constructor
  · intro b hb
    exact hs.2.2 b.entry (List.mem_map_of_mem _ hb) a.entry (by simp)
  · intro c hc
    rcases List.mem_cons.mp hc with rfl | hc
    · exact entryLt_irrefl sl.compare hinv.cmp_ok _
    · exact entryLt_asymm sl.compare hinv.cmp_ok _ _
        (hs.2.1.1 c.entry (List.mem_map_of_mem _ hc))

/-- With `start > end` inside the list the descent of
`skiplistDeleteRangeByRank` stops in front of rank `start` and the loop ends at
once: nothing is removed. -/
theorem deleteRange_reversed (sl : skiplist α) (A : List (ANode α)) (start stop : Nat)
    (hinv : Inv sl A) (hcap : sl.length < UINT_MOD) (h : stop < start) :
    skiplistDeleteRangeByRank sl start stop = some (sl, 0) := by
  by_cases hg : start > sl.length ∨ stop < 1
  · exact deleteRange_outside sl start stop hg
  have hA : A = A.take (start - 1) ++ A.drop (start - 1) := (List.take_append_drop _ _).symm
  have hlen := hinv.length_eq
  have hpl : (A.take (start - 1)).length = start - 1 := by
    rw [List.length_take]; omega
  have hinv2 : Inv sl (A.take (start - 1) ++ A.drop (start - 1)) := by rw [← hA]; exact hinv
  simp only [UINT_MOD] at hcap
  obtain ⟨x, acc, upd, rnk, hd, h1, h2, h3, h4⟩ :=
    descend_header sl (fun _ r => decide (r < start)) ULONG_MOD A.length
      (fun p => p) rfl
      (by intro p d hpd; simp only [ULONG_MOD]; omega)
      ((A.take (start - 1)).map ANode.link) ((A.drop (start - 1)).map ANode.link)
      (inv_levels_split sl _ _ hinv2)
      (by
        intro c _ r _ hr
        simp only [List.length_map, hpl] at hr
        simp; omega)
      (by
        intro c _ r hr _
        simp only [List.length_map, hpl] at hr
        simp; omega)
      (by simp only [List.length_map, List.length_take, List.length_drop]; omega)
      (by have := hinv.room; simp only [List.length_map, hpl]; omega)
      hinv.level_pos hinv.level_le (fun _ => 0) (fun _ => 0)
  obtain ⟨_, _, h0r⟩ := pred_zero sl _ _ _ upd rnk hinv2 (h1 0 hinv.level_pos)
  rw [hpl] at h0r
  subst h3 h4
  obtain ⟨f, hf⟩ := brk_pos sl _ hinv
  unfold skiplistDeleteRangeByRank
  rw [if_neg hg, hd]
  simp only [h0r, hf]
  rw [Nat.mod_eq_of_lt (by omega : start - 1 + 1 < 18446744073709551616)]
  cases sl.forward (upd 0) 0 with
  | none => rfl
  | some y =>
    unfold deleteRangeLoop
    rw [if_neg (by omega)]

theorem getElem?_split_mid {β γ : Type} (f : β → γ) (pre post : List β) (y : β) :
    ((pre ++ y :: post).map f)[pre.length]? = some (f y) := by
  rw [List.map_append, List.getElem?_append_right (by simp)]
  simp

theorem getElem?_split_low {β γ : Type} (f : β → γ) (pre post : List β) (j : Nat) (e : γ)
    (hj : j < pre.length) (h : ((pre ++ post).map f)[j]? = some e) :
    ∃ a ∈ pre, f a = e := by
  rw [List.map_append, List.getElem?_append_left (by simpa using hj)] at h
  obtain ⟨a, ha, hfa⟩ := List.mem_map.mp (List.getElem?_mem h)
  exact ⟨a, ha, hfa⟩

theorem getElem?_split_high {β γ : Type} (f : β → γ) (pre post : List β) (j : Nat) (e : γ)
    (hj : pre.length ≤ j) (h : ((pre ++ post).map f)[j]? = some e) :
    ∃ a ∈ post, f a = e := by
  rw [List.map_append, List.getElem?_append_right (by simpa using hj)] at h
  obtain ⟨a, ha, hfa⟩ := List.mem_map.mp (List.getElem?_mem h)
  exact ⟨a, ha, hfa⟩

theorem inv_entry (sl : skiplist α) (A : List (ANode α)) (hinv : Inv sl A) (a : ANode α)
    (ha : a ∈ A) : sl.entry a.id = some a.entry := by
  have hd := hinv.data a ha
  unfold skiplist.entry
  rw [hd.1, hd.2]
  rfl

/-- The first node of a range of scores, on a list that satisfies the
invariant. -/
theorem firstInRange_inv (sl : skiplist α) (A : List (ANode α)) (min max : Int)
    (minex maxex : Bool) (hinv : Inv sl A) :
    ∃ r, skiplistFirstInRange sl min max minex maxex = some r ∧
      (r = none ↔ ∀ a ∈ A, ¬ InRange min max minex maxex a.score) ∧
      (∀ x, r = some x → ∃ pre y post, A = pre ++ y :: post ∧ x = y.id ∧
          InRange min max minex maxex y.score ∧
          ∀ a ∈ pre, ¬ InRange min max minex maxex a.score) := by
  obtain ⟨pre, post, he, h1, h2, hres⟩ := firstInRange_spec sl A min max minex maxex hinv
  subst he
  refine ⟨_, hres, ?_, ?_⟩
  · constructor
    · intro hn a ha hin
      rw [inRange_iff] at hin
      rcases List.mem_append.mp ha with hp | hp
      · rw [h1 a hp] at hin; exact absurd hin.1 (by simp)
      · cases post with
        | nil => simp at hp
        | cons y rest =>
          simp only [List.head?_cons, Option.some_bind] at hn
          have hy : skiplistValueLteMax y.score max maxex = false := by
            cases hm : skiplistValueLteMax y.score max maxex with
            | false => rfl
            | true => rw [if_pos hm] at hn; exact absurd hn (by simp)
          have hle : y.score ≤ a.score := by
            rcases List.mem_cons.mp hp with rfl | hp2
            · exact le_refl _
            · exact (sorted_scores sl.compare pre rest y hinv.sorted).2 a hp2
          have := lteMax_down max maxex _ _ hle hin.2
          rw [hy] at this
          exact absurd this (by simp)
    · intro hno
      cases post with
      | nil => rfl
      | cons y rest =>
        simp only [List.head?_cons, Option.some_bind]
        cases hm : skiplistValueLteMax y.score max maxex with
        | false => simp
        | true =>
          exact absurd ((inRange_iff min max minex maxex y.score).mpr ⟨h2 y (by simp), hm⟩)
            (hno y (by simp))
  · intro x hx
    cases post with
    | nil => simp at hx
    | cons y rest =>
      simp only [List.head?_cons, Option.some_bind] at hx
      cases hm : skiplistValueLteMax y.score max maxex with
      | false => rw [hm] at hx; simp at hx
      | true =>
        rw [if_pos hm] at hx
        refine ⟨pre, y, rest, rfl, (Option.some.inj hx).symm,
          (inRange_iff min max minex maxex y.score).mpr ⟨h2 y (by simp), hm⟩, ?_⟩
        intro a ha hin
        rw [inRange_iff, h1 a ha] at hin
        exact absurd hin.1 (by simp)

/-- The last node of a range of scores, on a list that satisfies the
invariant. -/
theorem lastInRange_inv (sl : skiplist α) (A : List (ANode α)) (min max : Int)
    (minex maxex : Bool) (hinv : Inv sl A) :
    ∃ r, skiplistLastInRange sl min max minex maxex = some r ∧
      (r = none ↔ ∀ a ∈ A, ¬ InRange min max minex maxex a.score) ∧
      (∀ x, r = some x → ∃ pre y post, A = pre ++ y :: post ∧ x = y.id ∧
          InRange min max minex maxex y.score ∧
          ∀ a ∈ post, ¬ InRange min max minex maxex a.score) := by
  obtain ⟨pre, post, he, h1, h2, hres⟩ := lastInRange_spec sl A min max minex maxex hinv
  subst he
  refine ⟨_, hres, ?_, ?_⟩
  · constructor
    · intro hn a ha hin
      rw [inRange_iff] at hin
      rcases List.mem_append.mp ha with hp | hp
      · rcases List.eq_nil_or_concat pre with rfl | ⟨m, y, rfl⟩
        · simp at hp
        · rw [List.concat_eq_append] at hinv hp h1 hn
          simp only [List.getLast?_concat, Option.some_bind] at hn
          have hy : skiplistValueGteMin y.score min minex = false := by
            cases hm : skiplistValueGteMin y.score min minex with
            | false => rfl
            | true => rw [if_pos hm] at hn; exact absurd hn (by simp)
          have hinv2 : Inv sl (m ++ y :: post) := by simpa using hinv
          have hle : a.score ≤ y.score := by
            rcases List.mem_append.mp hp with hp2 | hp2
            · exact (sorted_scores sl.compare m post y hinv2.sorted).1 a hp2
            · simp at hp2; rw [hp2]
          have hx : (!skiplistValueGteMin a.score min minex) = true :=
            notGteMin_down min minex _ _ hle (by rw [hy]; rfl)
          rw [hin.1] at hx
          exact absurd hx (by simp)
      · rw [h2 a hp] at hin; exact absurd hin.2 (by simp)
    · intro hno
      cases hl : pre.getLast? with
      | none => rfl
      | some y =>
        simp only [Option.some_bind]
        have hy := List.mem_of_getLast?_eq_some hl
        cases hm : skiplistValueGteMin y.score min minex with
        | false => simp
        | true =>
          exact absurd ((inRange_iff min max minex maxex y.score).mpr ⟨hm, h1 y hy⟩)
            (hno y (by simp [hy]))
  · intro x hx
    rcases List.eq_nil_or_concat pre with rfl | ⟨m, y, rfl⟩
    · simp at hx
    · rw [List.concat_eq_append] at hinv hx h1 ⊢
      simp only [List.getLast?_concat, Option.some_bind] at hx
      cases hm : skiplistValueGteMin y.score min minex with
      | false => rw [hm] at hx; simp at hx
      | true =>
        rw [if_pos hm] at hx
        refine ⟨m, y, post, by simp, (Option.some.inj hx).symm,
          (inRange_iff min max minex maxex y.score).mpr ⟨hm, h1 y (by simp)⟩, ?_⟩
        intro a ha hin
        rw [inRange_iff, h2 a ha] at hin
        exact absurd hin.2 (by simp)

/-! ## Reachability of the concrete lists -/

/-- A call of `skiplistInsert` on a reachable list of the integer binding that
has room for one more node gives a reachable list. -/
theorem reachable_inserted (sl : skiplist Int) (score obj : Int) (level : Nat)
    (hr : Reachable sl) (h1 : 1 ≤ level) (h32 : level ≤ SKIPLIST_MAXLEVEL)
    (hcap : sl.length + 1 < UINT_MOD) : Reachable (inserted sl score obj level) := by
  obtain ⟨A, hinv, _⟩ := reachable_inv sl hr
  obtain ⟨pre, post, he, _, _, hc⟩ := insert_cases sl A score obj level hinv h1 h32
  rcases hc with ⟨_, h2⟩ | ⟨_, t, h2, h3, _⟩
  · have e : inserted sl score obj level = sl := by unfold inserted; rw [h2]
    rw [e]; exact hr
  · have e : inserted sl score obj level = t := by unfold inserted; rw [h2]
    rw [e]
    refine Reachable.insert sl t score obj level (some sl.brk) hr h1 h32 h2 ?_ (by simp)
    rw [h3.length_eq]
    have := hinv.length_eq
    rw [he] at this
    simp only [List.length_append, List.length_cons] at this ⊢
    omega

theorem reachable_threeList : Reachable threeList :=
  reachable_inserted _ 20 2 3
    (reachable_inserted _ 30 3 1
      (reachable_inserted _ 10 1 2 reachable_intList (by decide) (by decide) (by decide))
      (by decide) (by decide) (by decide))
    (by decide) (by decide) (by decide)

theorem reachable_fiveList : Reachable fiveList :=
  reachable_inserted _ 50 5 2
    (reachable_inserted _ 40 4 1
      (reachable_inserted _ 30 3 3
        (reachable_inserted _ 20 2 1
          (reachable_inserted _ 10 1 2 reachable_intList (by decide) (by decide) (by decide))
          (by decide) (by decide) (by decide))
        (by decide) (by decide) (by decide))
      (by decide) (by decide) (by decide))
    (by decide) (by decide) (by decide)

theorem reachable_tieList : Reachable tieList :=
  reachable_inserted _ 2 300 1
    (reachable_inserted _ 2 200 2
      (reachable_inserted _ 1 100 1 reachable_intList (by decide) (by decide) (by decide))
      (by decide) (by decide) (by decide))
    (by decide) (by decide) (by decide)

theorem reachable_crossList : Reachable crossList :=
  reachable_inserted _ 2 3 1
    (reachable_inserted _ 1 9 1 reachable_intList (by decide) (by decide) (by decide))
    (by decide) (by decide) (by decide)

/-! ## The claims on the update in place, the rank of a score and the deletion by rank -/

theorem split_at {β : Type} (l : List β) (k : Nat) (a : β) (h : l[k]? = some a) :
    l = l.take k ++ a :: l.drop (k + 1) ∧ (l.take k).length = k := by
  obtain ⟨hk, ha⟩ := List.getElem?_eq_some.mp h
  refine ⟨?_, by rw [List.length_take]; omega⟩
  rw [← ha, ← List.drop_eq_getElem_cons hk, List.take_append_drop]

/-- The rank of a score in a list whose scores are numbers.  On a reachable list
and for a boundary that is a number, `skiplistGetScoreRank` returns the number
of nodes whose score is strictly below the boundary when `ex` is set, and the
number of nodes whose score is below or equal to the boundary when it is not. -/
theorem getScoreRank_counts (sl : skiplist α) (b : Int) (ex : Bool) (hr : Reachable sl) :
    skiplistGetScoreRank sl b ex =
      some (if ex = true then sl.toList.countP (fun e => decide (e.1 < (b : double)))
        else sl.toList.countP (fun e => decide (e.1 ≤ (b : double)))) := by
  obtain ⟨A, hinv, hcap⟩ := reachable_inv sl hr
  rw [getScoreRank_spec sl A b ex hinv hcap, inv_toList sl A hinv]
  cases ex <;> simp [skiplistValueLteMax]

/-- An instance of `getScoreRank_counts`: the boundary 30 in the list of scores
10, 20, 30, 40, 50. -/
theorem getScoreRank_counts_witness :
    Reachable fiveList ∧
    skiplistGetScoreRank fiveList 30 true = some 2 ∧
    skiplistGetScoreRank fiveList 30 false = some 3 ∧
    skiplistGetScoreRank fiveList 30 true =
      some (if true = true then fiveList.toList.countP (fun e => decide (e.1 < 30))
        else fiveList.toList.countP (fun e => decide (e.1 ≤ 30))) :=
  ⟨reachable_fiveList, by decide!, by decide!,
   getScoreRank_counts fiveList 30 true reachable_fiveList⟩

/-- C14 fails on the engine: in the list of five nodes
`skiplistDeleteRangeByRank(sl, 4, 2, cb)` removes nothing, calls the callback
for no payload and returns 0, while `skiplistDeleteRangeByRank(sl, 2, 4, cb)`
removes three nodes and returns 3. -/
theorem deleteRange_engine_keeps_bounds :
    Reachable fiveList ∧ 4 > 2 ∧
    fiveList.toList = [(10, 1), (20, 2), (30, 3), (40, 4), (50, 5)] ∧
    (skiplistDeleteRangeByRank fiveList 4 2).map
        (fun r => (r.1.toList, r.2, callbackLog r.1.effects)) =
      some ([(10, 1), (20, 2), (30, 3), (40, 4), (50, 5)], 0, []) ∧
    (skiplistDeleteRangeByRank fiveList 2 4).map
        (fun r => (r.1.toList, r.2, callbackLog r.1.effects)) =
      some ([(10, 1), (50, 5)], 3, [some 2, some 3, some 4]) ∧
    (skiplistDeleteRangeByRank fiveList 4 2).map
        (fun r => (r.1.toList, r.2, callbackLog r.1.effects)) ≠
      (skiplistDeleteRangeByRank fiveList 2 4).map
        (fun r => (r.1.toList, r.2, callbackLog r.1.effects)) :=
  ⟨reachable_fiveList, by decide, by decide!, by decide!, by decide!, by decide!⟩

/-- C14 as amended: the swap is made by the binding, not by the engine.  On a
reachable list, with `start > end` (both `unsigned int`), the engine function
`skiplistDeleteRangeByRank(sl, start, end, cb)` removes nothing, records no
callback call and returns 0, while the binding function
`lzset_int_delete_range_by_rank` (and its string twin) called with
(start, end) passes (end, start) to the engine, which is what it does when
called with (end, start). -/
theorem deleteRange_swap_in_binding (sl : skiplist α) (start stop : Nat) (hr : Reachable sl)
    (h : stop < start) (hs : start < UINT_MOD) :
    skiplistDeleteRangeByRank sl start stop = some (sl, 0) ∧
    lzset_delete_range_by_rank sl start stop = skiplistDeleteRangeByRank sl stop start ∧
    lzset_delete_range_by_rank sl stop start = skiplistDeleteRangeByRank sl stop start := by
  obtain ⟨A, hinv, hcap⟩ := reachable_inv sl hr
  simp only [UINT_MOD] at hs
  have e1 : start % 4294967296 = start := Nat.mod_eq_of_lt hs
  have e2 : stop % 4294967296 = stop := Nat.mod_eq_of_lt (by omega)
  refine ⟨deleteRange_reversed sl A start stop hinv hcap h, ?_, ?_⟩
  · unfold lzset_delete_range_by_rank
    rw [e1, e2, if_pos h]
  · unfold lzset_delete_range_by_rank
    rw [e1, e2, if_neg (by omega)]

/-- Witness of C14 as amended: the bounds 4 and 2 on the list of five nodes. -/
theorem deleteRange_swap_in_binding_witness :
    Reachable fiveList ∧ 2 < 4 ∧ 4 < UINT_MOD ∧
    skiplistDeleteRangeByRank fiveList 4 2 = some (fiveList, 0) ∧
    lzset_delete_range_by_rank fiveList 4 2 = skiplistDeleteRangeByRank fiveList 2 4 ∧
    lzset_delete_range_by_rank fiveList 2 4 = skiplistDeleteRangeByRank fiveList 2 4 :=
  ⟨reachable_fiveList, by decide, by decide,
   deleteRange_swap_in_binding fiveList 4 2 reachable_fiveList (by decide) (by decide)⟩

/-- C15: when `start > length` or `end < 1`, `skiplistDeleteRangeByRank` returns
0 and hands back the list as it was: no field of the list or of a node is
written and no callback call is recorded. -/
theorem deleteRange_out_of_bounds (sl : skiplist α) (start stop : Nat)
    (h : start > sl.length ∨ stop < 1) :
    skiplistDeleteRangeByRank sl start stop = some (sl, 0) :=
  deleteRange_outside sl start stop h

/-- Witness of C15: the bounds (6, 9) and (1, 0) on the list of five nodes. -/
theorem deleteRange_out_of_bounds_witness :
    Reachable fiveList ∧ (6 > fiveList.length ∨ 9 < 1) ∧ (1 > fiveList.length ∨ 0 < 1) ∧
    skiplistDeleteRangeByRank fiveList 6 9 = some (fiveList, 0) ∧
    skiplistDeleteRangeByRank fiveList 1 0 = some (fiveList, 0) :=
  ⟨reachable_fiveList, Or.inl (by decide!), Or.inr (by decide),
   deleteRange_out_of_bounds fiveList 6 9 (Or.inl (by decide!)),
   deleteRange_out_of_bounds fiveList 1 0 (Or.inr (by decide))⟩

/-! ## The claims on the range queries and on the lookup by payload -/

/-- C16: on a reachable list `skiplistFirstInRange` returns `NULL` exactly when
no node has its score in the range, and otherwise the lowest-ranked node whose
score is in the range (above `min`, strictly when `minex` is set, and below
`max`, strictly when `maxex` is set). -/
theorem firstInRange_correct (sl : skiplist α) (min max : Int) (minex maxex : Bool)
    (hr : Reachable sl) :
    ∃ r, skiplistFirstInRange sl min max minex maxex = some r ∧
      (r = none ↔ ∀ e ∈ sl.toList, ¬ InRange min max minex maxex e.1) ∧
      (∀ x, r = some x → ∃ k e, sl.chain[k]? = some x ∧ sl.toList[k]? = some e ∧
          sl.entry x = some e ∧ InRange min max minex maxex e.1 ∧
          ∀ (j : Nat) (e2 : double × α), j < k → sl.toList[j]? = some e2 → ¬ InRange min max minex maxex e2.1) := by
  obtain ⟨A, hinv, _⟩ := reachable_inv sl hr
  obtain ⟨r, h1, h2, h3⟩ := firstInRange_inv sl A min max minex maxex hinv
  rw [inv_toList sl A hinv, inv_chain sl A hinv]
  refine ⟨r, h1, ?_, ?_⟩
  · rw [h2]
    constructor
    · intro h e he
      obtain ⟨a, ha, rfl⟩ := List.mem_map.mp he
      exact h a ha
    · intro h a ha
      exact h a.entry (List.mem_map_of_mem _ ha)
  · intro x hx
    obtain ⟨pre, y, post, hA, hxy, hy, hlow⟩ := h3 x hx
    subst hA
    refine ⟨pre.length, y.entry, ?_, getElem?_split_mid _ pre post y, ?_, hy, ?_⟩
    · rw [hxy]; exact getElem?_split_mid _ pre post y
    · rw [hxy]; exact inv_entry sl _ hinv y (by simp)
    · intro j e2 hj he2
      obtain ⟨a, ha, rfl⟩ := getElem?_split_low _ pre (y :: post) j e2 hj he2
      exact hlow a ha

/-- Witness of C16: ranges over the list of scores 10, 20, 30, 40, 50, whose
nodes sit at the addresses 1 to 5. -/
theorem firstInRange_correct_witness :
    Reachable fiveList ∧
    skiplistFirstInRange fiveList 15 35 false false = some (some 2) ∧
    skiplistFirstInRange fiveList 20 35 true false = some (some 3) ∧
    skiplistFirstInRange fiveList 21 29 false false = some none ∧
    ∃ r, skiplistFirstInRange fiveList 15 35 false false = some r ∧
      (r = none ↔ ∀ e ∈ fiveList.toList, ¬ InRange 15 35 false false e.1) ∧
      (∀ x, r = some x → ∃ k e, fiveList.chain[k]? = some x ∧ fiveList.toList[k]? = some e ∧
          fiveList.entry x = some e ∧ InRange 15 35 false false e.1 ∧
          ∀ (j : Nat) (e2 : double × Int), j < k → fiveList.toList[j]? = some e2 → ¬ InRange 15 35 false false e2.1) :=
  ⟨reachable_fiveList, by decide!, by decide!, by decide!,
   firstInRange_correct fiveList 15 35 false false reachable_fiveList⟩

/-- C17: on a reachable list `skiplistLastInRange` returns `NULL` exactly when
no node has its score in the range, and otherwise the highest-ranked node whose
score is in the range; the node returned is never the header. -/
theorem lastInRange_correct (sl : skiplist α) (min max : Int) (minex maxex : Bool)
    (hr : Reachable sl) :
    ∃ r, skiplistLastInRange sl min max minex maxex = some r ∧
      (r = none ↔ ∀ e ∈ sl.toList, ¬ InRange min max minex maxex e.1) ∧
      (∀ x, r = some x → x ≠ sl.header ∧
        ∃ k e, sl.chain[k]? = some x ∧ sl.toList[k]? = some e ∧
          sl.entry x = some e ∧ InRange min max minex maxex e.1 ∧
          ∀ (j : Nat) (e2 : double × α), k < j → sl.toList[j]? = some e2 → ¬ InRange min max minex maxex e2.1) := by
  obtain ⟨A, hinv, _⟩ := reachable_inv sl hr
  obtain ⟨r, h1, h2, h3⟩ := lastInRange_inv sl A min max minex maxex hinv
  rw [inv_toList sl A hinv, inv_chain sl A hinv]
  refine ⟨r, h1, ?_, ?_⟩
  · rw [h2]
    constructor
    · intro h e he
      obtain ⟨a, ha, rfl⟩ := List.mem_map.mp he
      exact h a ha
    · intro h a ha
      exact h a.entry (List.mem_map_of_mem _ ha)
  · intro x hx
    obtain ⟨pre, y, post, hA, hxy, hy, hhigh⟩ := h3 x hx
    subst hA
    refine ⟨?_, pre.length, y.entry, ?_, getElem?_split_mid _ pre post y, ?_, hy, ?_⟩
    · have hnd := hinv.nodup
      rw [List.nodup_cons] at hnd
      intro hh
      apply hnd.1
      rw [← hh, hxy]
      exact List.mem_map_of_mem _ (by simp)
    · rw [hxy]; exact getElem?_split_mid _ pre post y
    · rw [hxy]; exact inv_entry sl _ hinv y (by simp)
    · intro j e2 hj he2
      have he3 : (((pre ++ [y]) ++ post).map ANode.entry)[j]? = some e2 := by
        simpa using he2
      obtain ⟨a, ha, rfl⟩ := getElem?_split_high _ (pre ++ [y]) post j e2
        (by simp only [List.length_append, List.length_singleton]; omega) he3
      exact hhigh a ha

/-- Witness of C17: ranges over the list of scores 10, 20, 30, 40, 50, whose
nodes sit at the addresses 1 to 5. -/
theorem lastInRange_correct_witness :
    Reachable fiveList ∧
    skiplistLastInRange fiveList 15 35 false false = some (some 3) ∧
    skiplistLastInRange fiveList 15 30 false true = some (some 2) ∧
    skiplistLastInRange fiveList 21 29 false false = some none ∧
    ∃ r, skiplistLastInRange fiveList 15 35 false false = some r ∧
      (r = none ↔ ∀ e ∈ fiveList.toList, ¬ InRange 15 35 false false e.1) ∧
      (∀ x, r = some x → x ≠ fiveList.header ∧
        ∃ k e, fiveList.chain[k]? = some x ∧ fiveList.toList[k]? = some e ∧
          fiveList.entry x = some e ∧ InRange 15 35 false false e.1 ∧
          ∀ (j : Nat) (e2 : double × Int), k < j → fiveList.toList[j]? = some e2 → ¬ InRange 15 35 false false e2.1) :=
  ⟨reachable_fiveList, by decide!, by decide!, by decide!,
   lastInRange_correct fiveList 15 35 false false reachable_fiveList⟩

theorem filter_entries (p : double → Bool) (A : List (ANode α)) :
    ((A.map ANode.entry).filter (fun e => p e.1)).map Prod.snd =
      (A.filter (fun a => p a.score)).map ANode.obj := by
  induction A with
  | nil => rfl
  | cons a A ih =>
    simp only [List.map_cons]
    cases h : p a.score with
    | true =>
      rw [List.filter_cons_of_pos (by simpa [ANode.entry] using h),
        List.filter_cons_of_pos (by simpa using h), List.map_cons, List.map_cons, ih]
      rfl
    | false =>
      rw [List.filter_cons_of_neg (by simpa [ANode.entry] using h),
        List.filter_cons_of_neg (by simpa using h), ih]

/-- The range query by score on a list whose scores are numbers.  On a reachable
list of fewer than `2^31` nodes and for bounds that are numbers,
`get_range_by_score(s1, s2)` with `s1 ≤ s2` returns the Lua array of the
payloads of exactly the nodes with `s1 ≤ score ≤ s2`, in the ascending order of
the list; with `s1 > s2` it returns the array of the payloads of exactly the
nodes with `s2 ≤ score ≤ s1` in descending order, the reverse of the payloads
that `get_range_by_score(s2, s1)` returns. -/
theorem range_by_score_correct (sl : skiplist α) (s1 s2 : Int) (hr : Reachable sl)
    (hcap : sl.length < 2147483648) :
    (s1 ≤ s2 → lzset_get_range_by_score sl s1 s2 =
      some (luaArray ((sl.toList.filter
        (fun e => decide ((s1 : double) ≤ e.1) && decide (e.1 ≤ (s2 : double)))).map
          Prod.snd))) ∧
    (s2 < s1 →
      lzset_get_range_by_score sl s1 s2 =
        some (luaArray (((sl.toList.filter
          (fun e => decide ((s2 : double) ≤ e.1) && decide (e.1 ≤ (s1 : double)))).map
            Prod.snd).reverse)) ∧
      lzset_get_range_by_score sl s2 s1 =
        some (luaArray ((sl.toList.filter
          (fun e => decide ((s2 : double) ≤ e.1) && decide (e.1 ≤ (s1 : double)))).map
            Prod.snd))) := by
  obtain ⟨A, hinv, _⟩ := reachable_inv sl hr
  have hlen : A.length ≤ 2147483647 := by
    have := hinv.length_eq
    omega
  rw [inv_toList sl A hinv]
  constructor
  · intro h
    rw [rangeByScore_ascending sl A s1 s2 hinv hlen h,
      filter_entries (fun v => decide ((s1 : double) ≤ v) && decide (v ≤ (s2 : double))) A]
    simp only [double.num_le_num]
  · intro h
    rw [rangeByScore_descending sl A s1 s2 hinv hlen h,
      rangeByScore_ascending sl A s2 s1 hinv hlen (by omega),
      filter_entries (fun v => decide ((s2 : double) ≤ v) && decide (v ≤ (s1 : double))) A]
    simp only [double.num_le_num]
    refine ⟨?_, ?_⟩ <;> first | rfl | trivial

/-- An instance of `range_by_score_correct`: the list holding (1, 100), (2, 200)
and (2, 300), queried from 2 to 2, from 1 to 2 and from 2 to 1. -/
theorem range_by_score_correct_witness :
    Reachable tieList ∧ tieList.toList = [(1, 100), (2, 200), (2, 300)] ∧
    tieList.length < 2147483648 ∧
    lzset_get_range_by_score tieList 2 2 = some [(1, 200), (2, 300)] ∧
    lzset_get_range_by_score tieList 1 2 = some [(1, 100), (2, 200), (3, 300)] ∧
    lzset_get_range_by_score tieList 2 1 = some [(1, 300), (2, 200), (3, 100)] ∧
    lzset_get_range_by_score tieList 2 2 =
      some (luaArray ((tieList.toList.filter
        (fun e => decide (((2 : Int) : double) ≤ e.1) && decide (e.1 ≤ ((2 : Int) : double)))).map
          Prod.snd)) :=
  ⟨reachable_tieList, by decide!, by decide!, by decide!, by decide!, by decide!,
   (range_by_score_correct tieList 2 2 reachable_tieList (by decide!)).1 (by decide)⟩

/-- The range query by rank where its `int` holds the number of ranks.  On a
reachable list of length `n`, for `1 ≤ r1 ≤ r2 ≤ n`
with at most `2^31 - 1` ranks from `r1` to `r2` (their number is held in a C
`int`), `get_range_by_rank(r1, r2)` returns the payloads at the ranks `r1` to
`r2` in ascending rank order, and `get_range_by_rank(r2, r1)` returns the same
payloads in the reverse order. -/
theorem range_by_rank_correct (sl : skiplist α) (r1 r2 : Nat) (hr : Reachable sl)
    (h1 : 1 ≤ r1) (h12 : r1 ≤ r2) (h2 : r2 ≤ sl.length) (hspan : r2 - r1 + 1 < 2147483648) :
    lzset_get_range_by_rank sl r1 r2 =
      some (((sl.toList.map Prod.snd).drop (r1 - 1)).take (r2 - r1 + 1)) ∧
    lzset_get_range_by_rank sl r2 r1 =
      some ((((sl.toList.map Prod.snd).drop (r1 - 1)).take (r2 - r1 + 1)).reverse) := by
  obtain ⟨A, hinv, hcap⟩ := reachable_inv sl hr
  have hm : (sl.toList.map Prod.snd) = A.map ANode.obj := by
    rw [inv_toList sl A hinv, List.map_map]
    rfl
  rw [hm, ← List.map_drop, ← List.map_take]
  have ha := rangeByRank_ascending sl A r1 r2 hinv hcap h1 h12 h2 (by omega)
  refine ⟨ha, ?_⟩
  rcases Nat.lt_or_ge r1 r2 with hlt | hge
  · exact rangeByRank_descending sl A r1 r2 hinv hcap h1 hlt h2 (by omega)
  · have e : r2 = r1 := by omega
    subst e
    rw [ha]
    have hl : (((A.drop (r2 - 1)).take (r2 - r2 + 1)).map ANode.obj).length ≤ 1 := by
      rw [List.length_map, List.length_take]
      omega
    generalize ((A.drop (r2 - 1)).take (r2 - r2 + 1)).map ANode.obj = l at hl
    match l, hl with
    | [], _ => rfl
    | [_], _ => rfl

/-- An instance of `range_by_rank_correct`: the ranks 2 to 4 of the list of
payloads 1, 2, 3, 4, 5. -/
theorem range_by_rank_correct_witness :
    Reachable fiveList ∧ 1 ≤ 2 ∧ 2 ≤ 4 ∧ 4 ≤ fiveList.length ∧ 4 - 2 + 1 < 2147483648 ∧
    fiveList.toList = [(10, 1), (20, 2), (30, 3), (40, 4), (50, 5)] ∧
    lzset_get_range_by_rank fiveList 2 4 = some [2, 3, 4] ∧
    lzset_get_range_by_rank fiveList 4 2 = some [4, 3, 2] ∧
    lzset_get_range_by_rank fiveList 2 4 =
      some (((fiveList.toList.map Prod.snd).drop (2 - 1)).take (4 - 2 + 1)) ∧
    lzset_get_range_by_rank fiveList 4 2 =
      some ((((fiveList.toList.map Prod.snd).drop (2 - 1)).take (4 - 2 + 1)).reverse) :=
  ⟨reachable_fiveList, by decide, by decide, by decide!, by decide, by decide!, by decide!,
   by decide!,
   range_by_rank_correct fiveList 2 4 reachable_fiveList (by decide) (by decide) (by decide!)
     (by decide)⟩

/-- C20 (what the code does): in the reachable list holding (1, 9) and (2, 3)
the payload 3 is in the list, but `skiplistFind` returns `NULL` for it: the
descent compares payloads only, stays on the header because the first payload,
9, is not below 3, and the test after it sees the node (1, 9). -/
theorem find_misses_payload :
    Reachable crossList ∧ crossList.toList = [(1, 9), (2, 3)] ∧
    skiplistFind crossList 3 = some none ∧
    skiplistFind crossList 9 = some (some 1) :=
  ⟨reachable_crossList, by decide!, by decide!, by decide!⟩

/-! ## A list too long for the `int` counter of the binding -/

/-- The list `climb n` is reachable and holds `n` nodes, of scores below `n`. -/
theorem climb_spec : ∀ n : Nat, n < UINT_MOD →
    Reachable (climb n) ∧
    ∃ A, Inv (climb n) A ∧ A.length = n ∧ ∀ a ∈ A, a.score < (n : Int) := by
  intro n
  induction n with
  | zero =>
    intro _
    refine ⟨reachable_intList, [], ?_, rfl, by simp⟩
    exact inv_init lzset_int_compare true lzset_int_compare_strict
  | succ n ih =>
    intro hn
    obtain ⟨hr, A, hinv, hlen, hsc⟩ := ih (by omega)
    obtain ⟨pre, post, he, _, hpost, hc⟩ :=
      insert_cases (climb n) A (n : Int) (n : Int) 1 hinv (by decide) (by decide)
    have hnil : post = [] := by
      cases post with
      | nil => rfl
      | cons y rest =>
        exfalso
        apply hpost y (by simp)
        refine (entryLt_num _ _ _ _ _).mpr (Or.inl ?_)
        exact hsc y (by rw [he]; simp)
    subst hnil
    rcases hc with ⟨⟨y, hy, _⟩, _⟩ | ⟨_, t, h2, h3, _⟩
    · simp at hy
    · have e : climb (n + 1) = t := by
        show inserted (climb n) (n : Int) (n : Int) 1 = t
        unfold inserted
        rw [h2]
      rw [e]
      have hl : t.length = n + 1 := by
        rw [h3.length_eq, ← hlen, he]
        simp
      refine ⟨Reachable.insert (climb n) t (n : Int) (n : Int) 1 (some (climb n).brk) hr
        (by decide) (by decide) h2 (by rw [hl]; exact hn) (by simp), _, h3, ?_, ?_⟩
      · rw [← hlen, he]; simp
      · intro a ha
        simp only [List.append_nil, List.mem_append, List.mem_singleton] at ha
        rcases ha with ha | rfl
        · have := hsc a (by rw [he]; simp [ha])
          push_cast
          omega
        · show (n : Int) < ((n + 1 : Nat) : Int)
          push_cast
          omega

/-- With a negative `span` the walk by rank stops at its first test. -/
theorem rangeByRankLoop_negative (sl : skiplist α) (reverse : Bool) (span : Int)
    (fuel : Nat) (node : Option Nat) (hs : span ≤ 0) :
    rangeByRankLoop sl reverse span (fuel + 1) node 0 [] = some [] := by
  cases node with
  | none => rfl
  | some x =>
    unfold rangeByRankLoop
    rw [if_neg (by omega)]

/-- On a reachable list, a range of `2^31` ranks is answered by the empty
table: the count of ranks does not fit the `int` that holds it. -/
theorem rangeByRank_wraps (sl : skiplist α) (A : List (ANode α)) (r1 : Nat)
    (hinv : Inv sl A) (hcap : sl.length < UINT_MOD) (h1 : 1 ≤ r1)
    (h2 : r1 + 2147483647 ≤ sl.length) :
    lzset_get_range_by_rank sl r1 (r1 + 2147483647) = some [] := by
  obtain ⟨a, _, hn⟩ := getNodeByRank_spec sl A r1 hinv hcap h1 (by omega)
  obtain ⟨f, hf⟩ := brk_pos sl A hinv
  unfold lzset_get_range_by_rank
  simp only [hn, hf]
  apply rangeByRankLoop_negative
  rw [if_pos (by omega), show r1 + 2147483647 - r1 + 1 = 2147483648 by omega]
  decide

/-- C19 (what the code does): the reachable list built by the
calls `skiplistInsert(sl, k, k)` for `k` from 0 to `2^31 - 1` holds `2^31`
nodes, the ranks 1 and `2^31` satisfy `1 ≤ r1 ≤ r2 ≤ n`, and
`get_range_by_rank(1, 2^31)` returns the empty table instead of the `2^31`
payloads at those ranks: `span = r2 - r1 + 1` is stored in an `int`, becomes
negative, and the loop `while (node && n < span)` does not run. -/
theorem range_by_rank_int_span :
    Reachable (climb 2147483648) ∧ (climb 2147483648).length = 2147483648 ∧
    1 ≤ 1 ∧ 1 ≤ 2147483648 ∧ 2147483648 ≤ (climb 2147483648).length ∧
    lzset_get_range_by_rank (climb 2147483648) 1 2147483648 = some [] ∧
    ((((climb 2147483648).toList.map Prod.snd).drop (1 - 1)).take
      (2147483648 - 1 + 1)).length = 2147483648 := by
  obtain ⟨hr, A, hinv, hlen, _⟩ := climb_spec 2147483648 (by decide)
  have hl : (climb 2147483648).length = 2147483648 := by rw [hinv.length_eq, hlen]
  refine ⟨hr, hl, by decide, by decide, by rw [hl], ?_, ?_⟩
  · exact rangeByRank_wraps (climb 2147483648) A 1 hinv (by rw [hl]; decide) (by decide)
      (by rw [hl])
  · rw [inv_toList _ A hinv, List.length_take, List.length_drop, List.length_map,
      List.length_map, hlen]
    decide

/-! ## The structural invariants, read on the memory -/

/-- The walk along the backward pointers from the last node of a part of the
chain gives that part in reverse. -/
theorem backFrom_spec (sl : skiplist α) (post : List (ANode α)) :
    ∀ (l : List (ANode α)) (fuel : Nat), Inv sl (l ++ post) → l.length < fuel →
      backFrom sl fuel (l.getLast?.map ANode.id) = (l.map ANode.id).reverse := by
  intro l
  induction l using List.reverseRecOn generalizing post with
  | nil =>
    intro fuel _ hf
    obtain ⟨f, rfl⟩ := Nat.exists_eq_succ_of_ne_zero (by omega : fuel ≠ 0)
    rfl
  | append_singleton m y ih =>
    intro fuel hinv hf
    obtain ⟨f, rfl⟩ := Nat.exists_eq_succ_of_ne_zero (by omega : fuel ≠ 0)
    have hinv2 : Inv sl (m ++ y :: post) := by simpa using hinv
    have hprev := inv_backward sl m post y hinv2
    simp only [List.getLast?_concat, Option.map_some', backFrom, hprev, List.map_append,
      List.map_singleton, List.reverse_append, List.reverse_singleton, List.singleton_append]
    rw [ih (y :: post) f hinv2
      (by simp only [List.length_append, List.length_singleton] at hf; omega)]

/-! ## Calls with an arbitrary score -/

/-- An insertion that passes the duplicate test returns the new node, records no
call and leaves the level at the maximum of the former level and the level
drawn, whatever the score is (a number or NaN). -/
theorem insert_fresh (sl : skiplist α) (pre post : List (ANode α)) (score : double) (obj : α)
    (lvl : Nat) (hinv : Inv sl (pre ++ post))
    (hpre : ∀ a ∈ pre, entryLt sl.compare a.entry (score, obj))
    (hpost : ∀ a ∈ post, ¬ entryLt sl.compare a.entry (score, obj))
    (hnew : ∀ y, post.head? = some y → y.obj ≠ obj) (h1 : 1 ≤ lvl) :
    ∃ t, skiplistInsert sl score obj lvl = some (t, some sl.brk) ∧
      t.effects = sl.effects ∧ t.level = max sl.level lvl ∧ t.length = sl.length + 1 := by
  obtain ⟨upd, rnk, acc, hd, hpred, _⟩ :=
    descend_keyBefore sl pre post score obj hinv hpre hpost (fun _ => 0) (fun _ => 0)
  obtain ⟨h0f, _, _⟩ := pred_zero sl pre post _ upd rnk hinv (hpred 0 hinv.level_pos)
  have hc : ¬ ((match sl.forward (upd 0) 0 with
      | some y => decide (objCompare sl (sl.mem y).obj obj = 0)
      | none => false) = true) := by
    rw [insert_dupCheck sl pre post obj (upd 0) hinv h0f]
    rintro ⟨y, hy1, hy2⟩
    exact hnew y hy1 hy2
  unfold skiplistInsert
  rw [hd]
  simp only []
  rw [if_neg (by exact hc)]
  obtain ⟨u1, _, u3, _, _, u6, _, u8, _, _, _, _, _, u14, _⟩ :=
    insertLevelUp_spec sl lvl upd rnk
  have hreal : ∀ c ∈ pre.map ANode.link ++ post.map ANode.link,
      1 ≤ c.height ∧ c.height ≤ sl.level := by
    intro c hc
    rw [← List.map_append] at hc
    obtain ⟨a, ha, rfl⟩ := List.mem_map.mp hc
    exact hinv.heights a ha
  have hmem : ∀ i, i < (insertLevelUp sl lvl upd rnk).1.level →
      (insertLevelUp sl lvl upd rnk).2.1 i ∈
        (headLink sl :: pre.map ANode.link).map Link.id := by
    intro i hi
    rw [u14]
    by_cases hin : sl.level ≤ i ∧ i < lvl
    · rw [if_pos hin]; simp [headLink]
    · rw [if_neg hin]
      have his : i < sl.level := by rw [u1] at hi; omega
      exact isPred_mem _ _ _ _ _ _ (hpred i his)
  have hfresh : ∀ i, i < (insertLevelUp sl lvl upd rnk).1.level →
      (insertLevelUp sl lvl upd rnk).1.brk ≠ (insertLevelUp sl lvl upd rnk).2.1 i := by
    intro i hi h3
    have := hmem i hi
    rw [← h3, u3] at this
    simp only [List.map_cons, map_link_id, headLink, List.mem_cons] at this
    rcases this with h4 | h4
    · have := hinv.hdr_lt; omega
    · obtain ⟨a, ha, ha2⟩ := List.mem_map.mp h4
      have := hinv.ids_lt a (by simp [ha])
      omega
  have hlvl1 : lvl ≤ (insertLevelUp sl lvl upd rnk).1.level := by rw [u1]; simp
  obtain ⟨v1, _, _, _, _, _, _, v8, v9, v10, _⟩ :=
    insertSplice_shape (insertLevelUp sl lvl upd rnk).1 score obj lvl
      (insertLevelUp sl lvl upd rnk).2.1 (insertLevelUp sl lvl upd rnk).2.2 hlvl1 h1
      (fun i hi => hfresh i (by omega))
  refine ⟨_, ?_, by rw [v8, u6], by rw [v9, u1], by rw [v10, u8]⟩
  rw [v1, u3]

/-- Every call of `skiplistInsert` on a list that satisfies the invariant
returns and records no call, whatever the score is; when it returns a node the
level is the maximum of the former level and the level drawn, and when it
returns `NULL` the list is as it was. -/
theorem insert_any (sl : skiplist α) (A : List (ANode α)) (score : double) (obj : α)
    (lvl : Nat) (hinv : Inv sl A) (h1 : 1 ≤ lvl) :
    ∃ t r, skiplistInsert sl score obj lvl = some (t, r) ∧ t.effects = sl.effects ∧
      (r ≠ none → t.level = max sl.level lvl) ∧ (r = none → t = sl) := by
  obtain ⟨pre, post, he, hpre, hpost⟩ :=
    split_sorted sl.compare hinv.cmp_ok (score, obj) A hinv.sorted
  subst he
  by_cases hdup : ∃ y, post.head? = some y ∧ y.obj = obj
  · exact ⟨sl, none, insert_dup sl pre post score obj lvl hinv hpre hpost hdup, rfl,
      fun h => absurd rfl h, fun _ => rfl⟩
  · obtain ⟨t, h, he, hl, _⟩ := insert_fresh sl pre post score obj lvl hinv hpre hpost
      (fun y hy ho => hdup ⟨y, hy, ho⟩) h1
    exact ⟨t, some sl.brk, h, he, fun _ => hl, fun hn => by simp at hn⟩

/-- C23: the backward chain.  In every reachable list the backward pointer of
the first node is `NULL` (never the header), the backward pointer of every
other node is its predecessor on the level-0 chain, and following the backward
pointers from a node gives the reverse of the level-0 chain up to that node. -/
theorem backward_chain (sl : skiplist α) (k x : Nat) (hr : Reachable sl)
    (hk : sl.chain[k]? = some x) :
    (sl.mem x).backward = (if k = 0 then none else sl.chain[k - 1]?) ∧
    (sl.mem x).backward ≠ some sl.header ∧
    backFrom sl sl.brk (some x) = (sl.chain.take (k + 1)).reverse := by
  obtain ⟨A, hinv, _⟩ := reachable_inv sl hr
  have hch := inv_chain sl A hinv
  rw [hch, List.getElem?_map] at hk
  obtain ⟨a, hak, hax⟩ := Option.map_eq_some'.mp hk
  obtain ⟨hA, hlen⟩ := split_at A k a hak
  have hA0 := hA
  generalize hpre : A.take k = pre at hA hlen
  generalize hpost : A.drop (k + 1) = post at hA
  rw [hA] at hinv
  have hb := inv_backward sl pre post a hinv
  rw [hax] at hb
  have hcp : sl.chain = pre.map ANode.id ++ a.id :: post.map ANode.id := by
    rw [hch, hA]; simp
  refine ⟨?_, ?_, ?_⟩
  · rw [hb]
    by_cases h0 : k = 0
    · rw [if_pos h0]
      have : pre = [] := List.eq_nil_of_length_eq_zero (by omega)
      rw [this]; rfl
    · rw [if_neg h0, hcp, List.getElem?_append_left (by simp; omega), List.getElem?_map,
        List.getLast?_eq_getElem?, hlen]
  · rw [hb]
    intro hh
    obtain ⟨b, hbl, hbh⟩ := Option.map_eq_some'.mp hh
    have hnd := hinv.nodup
    rw [List.nodup_cons] at hnd
    apply hnd.1
    rw [← hbh]
    exact List.mem_map_of_mem _ (by simp [List.mem_of_getLast?_eq_some hbl])
  · have h := backFrom_spec sl post (pre ++ [a]) sl.brk (by simpa using hinv)
      (by have := hinv.room; simp only [List.length_append, List.length_cons,
            List.length_singleton, List.length_nil] at this ⊢; omega)
    rw [List.getLast?_concat, Option.map_some', hax] at h
    rw [h, hcp, ← hlen, ← List.length_map pre ANode.id,
      show pre.map ANode.id ++ a.id :: post.map ANode.id =
        (pre.map ANode.id ++ [a.id]) ++ post.map ANode.id by simp,
      List.take_left' (by simp)]
    simp

/-- Witness of C23: the third node of the list of five nodes, at address 3. -/
theorem backward_chain_witness :
    Reachable fiveList ∧ fiveList.chain[2]? = some 3 ∧ fiveList.chain = [1, 2, 3, 4, 5] ∧
    (fiveList.mem 3).backward = some 2 ∧ (fiveList.mem 1).backward = none ∧
    (fiveList.mem 3).backward = (if 2 = 0 then none else fiveList.chain[2 - 1]?) ∧
    (fiveList.mem 3).backward ≠ some fiveList.header ∧
    backFrom fiveList fiveList.brk (some 3) = (fiveList.chain.take (2 + 1)).reverse :=
  ⟨reachable_fiveList, by decide!, by decide!, by decide!, by decide!,
   backward_chain fiveList 2 3 reachable_fiveList (by decide!)⟩

/-- The calls of `skiplistDelete` and `skiplistDeleteRangeByRank` return, and
do not raise the level of the list. -/
theorem delete_level (sl : skiplist α) (A : List (ANode α)) (hinv : Inv sl A)
    (hcap : sl.length < UINT_MOD) :
    (∀ score obj, ∃ t r, skiplistDelete sl score obj = some (t, r) ∧ t.level ≤ sl.level) ∧
    (∀ start stop, ∃ t r, skiplistDeleteRangeByRank sl start stop = some (t, r) ∧
      t.level ≤ sl.level) := by
  constructor
  · intro score obj
    obtain ⟨pre, post, _, _, _, hc⟩ := delete_cases sl A score obj hinv
    rcases hc with ⟨_, h⟩ | ⟨y, rest, _, _, t, h, _, _, _, _, hl, _⟩
    · exact ⟨sl, false, h, le_refl _⟩
    · exact ⟨t, true, h, hl⟩
  · intro start stop
    by_cases hg : start > sl.length ∨ stop < 1
    · exact ⟨sl, 0, deleteRange_outside sl start stop hg, le_refl _⟩
    · obtain ⟨t, h, _, _, _, _, hl, _⟩ := deleteRange_spec sl A start stop hinv hcap hg
      exact ⟨t, _, h, hl⟩

/-- C24: the active level.  In every reachable list the level is between 1 and
32, and it is 1 or the header has a forward target at the index `level - 1`;
`skiplistDelete` and `skiplistDeleteRangeByRank` never raise it; an insertion
that returns a node leaves it at the maximum of the former level and the level
drawn for the node, and an insertion that returns `NULL` leaves it as it was. -/
theorem level_invariant (sl : skiplist α) (hr : Reachable sl) :
    (1 ≤ sl.level ∧ sl.level ≤ SKIPLIST_MAXLEVEL ∧
      (sl.level = 1 ∨ sl.forward sl.header (sl.level - 1) ≠ none)) ∧
    (∀ score obj, ∃ t r, skiplistDelete sl score obj = some (t, r) ∧ t.level ≤ sl.level) ∧
    (∀ start stop, ∃ t r, skiplistDeleteRangeByRank sl start stop = some (t, r) ∧
      t.level ≤ sl.level) ∧
    (∀ score obj level, 1 ≤ level → level ≤ SKIPLIST_MAXLEVEL →
      ∃ t r, skiplistInsert sl score obj level = some (t, r) ∧
        (r ≠ none → t.level = max sl.level level) ∧ (r = none → t.level = sl.level)) := by
  obtain ⟨A, hinv, hcap⟩ := reachable_inv sl hr
  refine ⟨⟨hinv.level_pos, hinv.level_le, ?_⟩, (delete_level sl A hinv hcap).1,
    (delete_level sl A hinv hcap).2, ?_⟩
  · rcases hinv.level_top with h1 | ⟨a, ha, hh⟩
    · exact Or.inl h1
    · right
      have hf : sl.forward sl.header (sl.level - 1) = nextAt (sl.level - 1) (A.map ANode.link) :=
        (hinv.levels.1 (sl.level - 1)
          (by have := hinv.level_le; show sl.level - 1 < 32; omega)).1
      rw [hf]
      intro hn
      have := nextAt_eq_none _ _ hn a.link (List.mem_map_of_mem _ ha)
      have h2 : a.link.height = a.height := rfl
      have := hinv.level_pos
      omega
  · intro score obj level h1 _
    obtain ⟨t, r, h, _, hl, hn⟩ := insert_any sl A score obj level hinv h1
    exact ⟨t, r, h, hl, fun hr => by rw [hn hr]⟩

/-- Witness of C24: the list of five nodes, of level 3, and the insertion of
(60, 6) with four levels. -/
theorem level_invariant_witness :
    Reachable fiveList ∧ fiveList.level = 3 ∧ fiveList.forward fiveList.header 2 = some 3 ∧
    (skiplistInsert fiveList 60 6 4).map (fun p => (decide (p.2 = none), p.1.level)) =
      some (false, 4) ∧
    (skiplistDelete fiveList 30 3).map (fun p => (p.2, p.1.level)) = some (true, 2) ∧
    ((1 ≤ fiveList.level ∧ fiveList.level ≤ SKIPLIST_MAXLEVEL ∧
      (fiveList.level = 1 ∨ fiveList.forward fiveList.header (fiveList.level - 1) ≠ none)) ∧
    (∀ score obj, ∃ t r, skiplistDelete fiveList score obj = some (t, r) ∧
      t.level ≤ fiveList.level) ∧
    (∀ start stop, ∃ t r, skiplistDeleteRangeByRank fiveList start stop = some (t, r) ∧
      t.level ≤ fiveList.level) ∧
    (∀ score obj level, 1 ≤ level → level ≤ SKIPLIST_MAXLEVEL →
      ∃ t r, skiplistInsert fiveList score obj level = some (t, r) ∧
        (r ≠ none → t.level = max fiveList.level level) ∧
        (r = none → t.level = fiveList.level))) :=
  ⟨reachable_fiveList, by decide!, by decide!, by decide!, by decide!,
   level_invariant fiveList reachable_fiveList⟩

/-- C25: length and tail.  In every reachable list `skiplistLength` is the
number of nodes on the level-0 chain after the header, the tail pointer is
`NULL` exactly when the list is empty, and otherwise it is the last node of the
level-0 chain, which is the node of the chain whose level-0 forward pointer is
`NULL`. -/
theorem length_tail_invariant (sl : skiplist α) (hr : Reachable sl) :
    skiplistLength sl = sl.chain.length ∧
    (sl.tail = none ↔ sl.chain = []) ∧
    sl.tail = sl.chain.getLast? ∧
    (∀ x ∈ sl.chain, sl.forward x 0 = none ↔ sl.tail = some x) := by
  obtain ⟨A, hinv, _⟩ := reachable_inv sl hr
  have hch := inv_chain sl A hinv
  have ht := inv_tail sl A hinv
  have hlast : sl.tail = sl.chain.getLast? := by
    rw [ht, hch, List.getLast?_map]
  refine ⟨?_, ?_, hlast, ?_⟩
  · unfold skiplistLength
    rw [hinv.length_eq, hch, List.length_map]
  · rw [hlast, List.getLast?_eq_none_iff]
  · intro x hx
    rw [hch] at hx
    obtain ⟨a, ha, rfl⟩ := List.mem_map.mp hx
    obtain ⟨pre, post, rfl⟩ := List.append_of_mem ha
    rw [inv_forward_zero sl pre post a hinv, ht]
    constructor
    · intro h
      have hp : post = [] := by
        cases post with
        | nil => rfl
        | cons c r => simp at h
      rw [hp, show pre ++ [a] = pre ++ [a] from rfl, List.getLast?_concat]
      rfl
    · intro h
      cases post with
      | nil => rfl
      | cons c r =>
        exfalso
        rcases List.eq_nil_or_concat r with rfl | ⟨r2, z, rfl⟩
        · rw [show pre ++ [a, c] = (pre ++ [a]) ++ [c] by simp, List.getLast?_concat] at h
          simp only [Option.map_some', Option.some.injEq] at h
          have hnd := hinv.nodup
          simp only [List.map_append, List.map_cons, List.map_nil] at hnd
          have := (nodup_facts _ _ _ _ hnd).2.2.1.1
          exact this (by simp [h])
        · rw [List.concat_eq_append,
            show pre ++ a :: c :: (r2 ++ [z]) = (pre ++ a :: c :: r2) ++ [z] by simp,
            List.getLast?_concat] at h
          simp only [Option.map_some', Option.some.injEq] at h
          have hnd := hinv.nodup
          rw [List.concat_eq_append] at hnd
          simp only [List.map_append, List.map_cons, List.map_nil] at hnd
          have := (nodup_facts _ _ _ _ hnd).2.2.1.1
          exact this (by simp [h])

/-- Witness of C25: the list of five nodes and the empty list. -/
theorem length_tail_invariant_witness :
    Reachable fiveList ∧ skiplistLength fiveList = 5 ∧ fiveList.chain = [1, 2, 3, 4, 5] ∧
    fiveList.tail = some 5 ∧ fiveList.forward 5 0 = none ∧
    skiplistLength intList = 0 ∧ intList.tail = none ∧ intList.chain = [] ∧
    (skiplistLength fiveList = fiveList.chain.length ∧
    (fiveList.tail = none ↔ fiveList.chain = []) ∧
    fiveList.tail = fiveList.chain.getLast? ∧
    (∀ x ∈ fiveList.chain, fiveList.forward x 0 = none ↔ fiveList.tail = some x)) :=
  ⟨reachable_fiveList, by decide!, by decide!, by decide!, by decide!, by decide!, by decide!,
   by decide!, length_tail_invariant fiveList reachable_fiveList⟩

/-! ## The node found by `skiplistUpdateScore`, and the log of the releaser -/

/-- A call of `skiplistUpdateScore` whose descent ends in front of a node
returns, and records no call of the releaser or of a callback. -/
theorem update_defined (sl : skiplist α) (pre post : List (ANode α)) (x : ANode α)
    (cur : double) (obj : α) (newscore : Int) (lvl : Nat) (hinv : Inv sl (pre ++ x :: post))
    (hpre : ∀ a ∈ pre, entryLt sl.compare a.entry (cur, obj))
    (hpost : ∀ a ∈ x :: post, ¬ entryLt sl.compare a.entry (cur, obj))
    (h1 : 1 ≤ lvl) (h32 : lvl ≤ 32) :
    ∃ t r, skiplistUpdateScore sl cur obj newscore lvl = some (t, r) ∧
      t.effects = sl.effects := by
  by_cases hfit : (∀ b, pre.getLast? = some b → b.score < newscore) ∧
      (∀ f, post.head? = some f → newscore < f.score)
  · obtain ⟨h2, _⟩ := update_fast sl pre post x cur obj newscore lvl hinv hpre hpost
      hfit.1 hfit.2
    exact ⟨_, _, h2, rfl⟩
  · obtain ⟨sl1, hinv1, _, _, _, heff, _, _, h2⟩ :=
      update_slow sl pre post x cur obj newscore lvl hinv hpre hpost hfit
    obtain ⟨pre2, post2, _, _, _, hc⟩ :=
      insert_cases sl1 (pre ++ post) newscore x.obj lvl hinv1 h1 h32
    rcases hc with ⟨_, h3⟩ | ⟨_, t2, h3, _, h4, _⟩
    · rw [h3] at h2
      exact ⟨_, _, h2, heff⟩
    · rw [h3] at h2
      exact ⟨_, _, h2, h4.trans heff⟩

/-- The node found by `skiplistUpdateScore` in a list whose scores are numbers.
Under the precondition of `skiplistUpdateScore` (the reachable list
holds a node of score `curscore` whose payload compares equal to `obj`), the
descent returns and the node it reaches, the level-0 successor of the last
predecessor, is not `NULL`, is a node of the chain, has the score `curscore`
and a payload that compares equal to `obj`: the assertion
`x && curscore == x->score && sl->compare(x->obj,obj) == 0` holds, and the call
has a result for every new score (no absent node is dereferenced). -/
theorem updateScore_locates_node (sl : skiplist α) (curscore : Int) (obj q : α)
    (hr : Reachable sl) (hq : ((curscore : double), q) ∈ sl.toList)
    (hcmp : sl.compare q obj = 0) :
    ∃ x0 acc upd rnk x,
      descend sl (keyBefore sl curscore obj) UINT_MOD sl.level (sl.header, 0)
        (fun _ => 0, fun _ => 0) = some ((x0, acc), upd, rnk) ∧
      sl.forward x0 0 = some x ∧ x ∈ sl.chain ∧ (sl.mem x).score = curscore ∧
      (∃ o, (sl.mem x).obj = some o ∧ sl.compare o obj = 0) ∧
      ∀ (newscore : Int) level, 1 ≤ level → level ≤ SKIPLIST_MAXLEVEL →
        ∃ t r, skiplistUpdateScore sl curscore obj newscore level = some (t, r) := by
  obtain ⟨A, hinv, _⟩ := reachable_inv sl hr
  have hqp : q = obj := (hinv.cmp_ok.eq_iff q obj).mp hcmp
  subst hqp
  rw [inv_toList sl A hinv] at hq
  obtain ⟨a, ha, hae⟩ := List.mem_map.mp hq
  obtain ⟨pre, post, rfl⟩ := List.append_of_mem ha
  obtain ⟨hpre, hpost⟩ := sorted_around sl pre post a hinv
  rw [hae] at hpre hpost
  obtain ⟨upd, rnk, acc, hd, hpred, _⟩ :=
    descend_keyBefore sl pre (a :: post) curscore q hinv hpre hpost (fun _ => 0) (fun _ => 0)
  obtain ⟨h0f, _, _⟩ := pred_zero sl pre (a :: post) _ upd rnk hinv (hpred 0 hinv.level_pos)
  have hdat := hinv.data a (by simp)
  refine ⟨upd 0, acc, upd, rnk, a.id, hd, by simpa using h0f, ?_, ?_, ?_, ?_⟩
  · rw [inv_chain sl _ hinv]; exact List.mem_map_of_mem _ (by simp)
  · rw [hdat.2]; exact congrArg Prod.fst hae
  · refine ⟨a.obj, hdat.1, ?_⟩
    rw [show a.obj = q from congrArg Prod.snd hae]
    exact hcmp
  · intro newscore level h1 h32
    obtain ⟨t, r, h, _⟩ :=
      update_defined sl pre post a curscore q newscore level hinv hpre hpost h1 h32
    exact ⟨t, r, h⟩

/-- An instance of `updateScore_locates_node`: the key (20, 2) of the list
holding (10, 1), (20, 2) and (30, 3), whose node is at address 3. -/
theorem updateScore_locates_node_witness :
    Reachable threeList ∧ ((20 : double), (2 : Int)) ∈ threeList.toList ∧
    threeList.compare 2 2 = 0 ∧
    (descend threeList (keyBefore threeList 20 2) UINT_MOD threeList.level
        (threeList.header, 0) (fun _ => 0, fun _ => 0)).map
      (fun s => (threeList.forward s.1.1 0,
        (threeList.forward s.1.1 0).map (fun x => (threeList.mem x).score))) =
      some (some 3, some 20) ∧
    ∃ x0 acc upd rnk x,
      descend threeList (keyBefore threeList 20 2) UINT_MOD threeList.level
        (threeList.header, 0) (fun _ => 0, fun _ => 0) = some ((x0, acc), upd, rnk) ∧
      threeList.forward x0 0 = some x ∧ x ∈ threeList.chain ∧
      (threeList.mem x).score = 20 ∧
      (∃ o, (threeList.mem x).obj = some o ∧ threeList.compare o 2 = 0) ∧
      ∀ (newscore : Int) level, 1 ≤ level → level ≤ SKIPLIST_MAXLEVEL →
        ∃ t r, skiplistUpdateScore threeList ((20 : Int) : double) 2 newscore level =
          some (t, r) :=
  ⟨reachable_threeList, by decide!, by decide!, by decide!,
   updateScore_locates_node threeList 20 2 2 reachable_threeList (by decide!) (by decide!)⟩

/-- The test of a draw looks at the low 16 bits only, and passes for the values
from 0 to 16383. -/
theorem drawSucceeds_iff (r : Nat) : drawSucceeds r = true ↔ r % 65536 < 16384 := by
  unfold drawSucceeds SKIPLIST_P
  have hm : r &&& 0xFFFF = r % 65536 := Nat.and_pow_two_sub_one_eq_mod r 16
  rw [hm, decide_eq_true_iff]
  constructor
  · intro h
    have h2 : ((r % 65536 : Nat) : ℚ) * 4 < 65535 := by
      have := mul_lt_mul_of_pos_right h (by norm_num : (0 : ℚ) < 4)
      norm_num at this ⊢
      linarith
    have h3 : (r % 65536) * 4 < 65535 := by exact_mod_cast h2
    omega
  · intro h
    have h3 : ((r % 65536 : Nat) : ℚ) ≤ 16383 := by
      have : r % 65536 ≤ 16383 := by omega
      exact_mod_cast this
    norm_num
    linarith

/-- The loop over draws that all pass adds their number to the level, as long
as the level stays below `INT_MAX`. -/
theorem randomLevelLoop_passes : ∀ (succs rest : List Nat) (level : Int),
    (∀ r ∈ succs, drawSucceeds r = true) → level + succs.length ≤ 2147483647 →
    randomLevelLoop (succs ++ rest) level = randomLevelLoop rest (level + succs.length) := by
  intro succs
  induction succs with
  | nil =>
    intro rest level _ _
    simp
  | cons r s ih =>
    intro rest level hs hl
    have hr : drawSucceeds r = true := hs r (by simp)
    simp only [List.length_cons, Nat.cast_add, Nat.cast_one] at hl
    simp only [List.cons_append, randomLevelLoop, hr, if_true, List.length_cons,
      intIncr_lt level (by omega)]
    show randomLevelLoop (s ++ rest) (level + 1) = _
    rw [ih rest (level + 1) (fun x hx => hs x (by simp [hx])) (by omega)]
    have e : level + 1 + (s.length : Int) = level + ((s.length + 1 : Nat) : Int) := by
      push_cast; ring
    rw [e]

/-- The level drawn when `k` draws pass and the next one fails, `1 + k` being
an `int`. -/
theorem randomLevel_value (succs : List Nat) (f : Nat) (rest : List Nat)
    (hs : ∀ r ∈ succs, drawSucceeds r = true) (hf : drawSucceeds f = false)
    (hk : succs.length < 2147483647) :
    skiplistRandomLevel (succs ++ f :: rest) = some ((min 32 (1 + succs.length) : Nat) : Int) := by
  unfold skiplistRandomLevel
  rw [randomLevelLoop_passes succs (f :: rest) 1 hs (by omega)]
  simp only [randomLevelLoop, hf, Bool.false_eq_true, if_false, Option.map_some',
    SKIPLIST_MAXLEVEL]
  by_cases h : 1 + succs.length < 32
  · rw [if_pos (by push_cast; omega), Nat.min_eq_right (by omega)]
    push_cast
    rfl
  · rw [if_neg (by push_cast; omega), Nat.min_eq_left (by omega)]

/-- The values of the low 16 bits for which a draw passes are 16384 of the
65536. -/
theorem drawSucceeds_count :
    ((Finset.range 65536).filter (fun m => drawSucceeds m = true)).card = 16384 := by
  have h : (Finset.range 65536).filter (fun m => drawSucceeds m = true) =
      Finset.range 16384 := by
    ext m
    simp only [Finset.mem_filter, Finset.mem_range, drawSucceeds_iff]
    omega
  rw [h, Finset.card_range]

/-- The level drawn while `level` stays an `int`: when `k` draws pass and the
next one fails, with `1 + k`
at most `INT_MAX`, `skiplistRandomLevel` returns `min(32, 1 + k)`, a value from
1 to `SKIPLIST_MAXLEVEL = 32`; a draw passes exactly when its low 16 bits are
below `0.25 * 65535`, that is for the 16384 values from 0 to 16383 of the 65536
values of these bits. -/
theorem randomLevel_correct (succs : List Nat) (f : Nat) (rest : List Nat)
    (hs : ∀ r ∈ succs, drawSucceeds r = true) (hf : drawSucceeds f = false)
    (hk : succs.length < 2147483647) :
    skiplistRandomLevel (succs ++ f :: rest) =
      some ((min 32 (1 + succs.length) : Nat) : Int) ∧
    1 ≤ min 32 (1 + succs.length) ∧ min 32 (1 + succs.length) ≤ SKIPLIST_MAXLEVEL ∧
    (∀ r, drawSucceeds r = true ↔ (((r % 65536 : Nat) : ℚ)) < (1 / 4 : ℚ) * 65535) ∧
    (∀ r, drawSucceeds r = true ↔ r % 65536 < 16384) ∧
    ((Finset.range 65536).filter (fun m => drawSucceeds m = true)).card = 16384 := by
  refine ⟨randomLevel_value succs f rest hs hf hk, by omega, ?_, ?_, drawSucceeds_iff,
    drawSucceeds_count⟩
  · simp only [SKIPLIST_MAXLEVEL]; omega
  · intro r
    unfold drawSucceeds SKIPLIST_P
    rw [Nat.and_pow_two_sub_one_eq_mod r 16, decide_eq_true_iff]

/-- An instance of `randomLevel_correct`: two passing draws, 5 and
65536 + 16383, then the failing draw 16384. -/
theorem randomLevel_correct_witness :
    (∀ r ∈ [5, 81919], drawSucceeds r = true) ∧ drawSucceeds 16384 = false ∧
    [5, 81919].length < 2147483647 ∧
    skiplistRandomLevel ([5, 81919] ++ 16384 :: [7]) = some 3 ∧
    (skiplistRandomLevel ([5, 81919] ++ 16384 :: [7]) =
      some ((min 32 (1 + [5, 81919].length) : Nat) : Int) ∧
    1 ≤ min 32 (1 + [5, 81919].length) ∧
    min 32 (1 + [5, 81919].length) ≤ SKIPLIST_MAXLEVEL ∧
    (∀ r, drawSucceeds r = true ↔ (((r % 65536 : Nat) : ℚ)) < (1 / 4 : ℚ) * 65535) ∧
    (∀ r, drawSucceeds r = true ↔ r % 65536 < 16384) ∧
    ((Finset.range 65536).filter (fun m => drawSucceeds m = true)).card = 16384) :=
  ⟨by decide!, by decide!, by decide, by decide!,
   randomLevel_correct [5, 81919] 16384 [7] (by decide!) (by decide!) (by decide)⟩

/-! ## The comparator of the string binding -/

theorem toInt32_of_int (c : Int) (h1 : -2147483648 ≤ c) (h2 : c ≤ 2147483647) :
    toInt32 (c % 18446744073709551616).toNat = c := by
  have hn : (((c % 18446744073709551616).toNat : Nat) : Int) = c % 18446744073709551616 :=
    Int.toNat_of_nonneg (Int.emod_nonneg _ (by decide))
  generalize (c % 18446744073709551616).toNat = n at hn
  unfold toInt32
  split <;> omega

theorem toInt32_sub (la lb : Nat) (ha : la < 2147483648) (hb : lb < 2147483648) :
    toInt32 ((la % 18446744073709551616 +
      (18446744073709551616 - lb % 18446744073709551616)) % 18446744073709551616) =
      (la : Int) - (lb : Int) := by
  unfold toInt32
  split <;> omega

theorem lex_cons_cons (x y : Fin 256) (a b : List (Fin 256)) :
    List.Lex (· < ·) (x :: a) (y :: b) ↔ x < y ∨ (x = y ∧ List.Lex (· < ·) a b) := by
  constructor
  · intro h
    cases h with
    | cons h => exact Or.inr ⟨rfl, h⟩
    | rel h => exact Or.inl h
  · rintro (h | ⟨rfl, h⟩)
    · exact List.Lex.rel h
    · exact List.Lex.cons h

/-- The lexicographic order, read on the common length of the two strings and
then on their lengths. -/
theorem lex_take : ∀ (a b : List (Fin 256)),
    (List.Lex (· < ·) a b ↔
      List.Lex (· < ·) (a.take (if a.length ≤ b.length then a.length else b.length))
        (b.take (if a.length ≤ b.length then a.length else b.length)) ∨
      (a.take (if a.length ≤ b.length then a.length else b.length) =
        b.take (if a.length ≤ b.length then a.length else b.length) ∧
        a.length < b.length)) := by
  intro a
  induction a with
  | nil =>
    intro b
    cases b with
    | nil => simp
    | cons y b => simp [List.Lex.nil]
  | cons x a ih =>
    intro b
    cases b with
    | nil => simp
    | cons y b =>
      have e : (if (x :: a).length ≤ (y :: b).length then (x :: a).length else (y :: b).length)
          = (if a.length ≤ b.length then a.length else b.length) + 1 := by
        simp only [List.length_cons]
        split <;> split <;> omega
      rw [e, List.take_succ_cons, List.take_succ_cons, lex_cons_cons, lex_cons_cons, ih b]
      simp only [List.length_cons, List.cons.injEq]
      constructor
      · rintro (h | ⟨rfl, h | ⟨h1, h2⟩⟩)
        · exact Or.inl (Or.inl h)
        · exact Or.inl (Or.inr ⟨rfl, h⟩)
        · exact Or.inr ⟨⟨rfl, h1⟩, by omega⟩
      · rintro ((h | ⟨rfl, h⟩) | ⟨⟨rfl, h1⟩, h2⟩)
        · exact Or.inl h
        · exact Or.inr ⟨rfl, Or.inl h⟩
        · exact Or.inr ⟨rfl, Or.inr ⟨h1, by omega⟩⟩

theorem take_min_eq (a b : List (Fin 256))
    (h : a.take (if a.length ≤ b.length then a.length else b.length) =
      b.take (if a.length ≤ b.length then a.length else b.length))
    (hl : a.length = b.length) : a = b := by
  rw [if_pos (by omega)] at h
  rw [List.take_length] at h
  rw [h, hl, List.take_length]

/-- The value of `lzset_string_compare` on strings shorter than `2^31`: the
result of `memcmp` when it is not zero, and the difference of the lengths when
it is. -/
theorem string_compare_value (mc : List (Fin 256) → List (Fin 256) → Nat → Int)
    (hmc : IsMemcmp mc) (a b : List (Fin 256)) (ha : a.length < 2147483648)
    (hb : b.length < 2147483648) :
    lzset_string_compare mc a b =
      if mc a b (if a.length ≤ b.length then a.length else b.length) ≠ 0 then
        mc a b (if a.length ≤ b.length then a.length else b.length)
      else (a.length : Int) - (b.length : Int) := by
  unfold lzset_string_compare
  simp only
  by_cases h : mc a b (if a.length ≤ b.length then a.length else b.length) ≠ 0
  · rw [if_pos h, if_pos h]
    exact toInt32_of_int _ (hmc.range a b _).1 (hmc.range a b _).2
  · rw [if_neg h, if_neg h]
    exact toInt32_sub _ _ ha hb

/-- The sign of `lzset_string_compare` on strings shorter than `2^31`. -/
theorem string_compare_sign (mc : List (Fin 256) → List (Fin 256) → Nat → Int)
    (hmc : IsMemcmp mc) (a b : List (Fin 256)) (ha : a.length < 2147483648)
    (hb : b.length < 2147483648) :
    (lzset_string_compare mc a b < 0 ↔ List.Lex (· < ·) a b) ∧
    (lzset_string_compare mc a b = 0 ↔ a = b) := by
  have hn1 : (if a.length ≤ b.length then a.length else b.length) ≤ a.length := by
    split <;> omega
  have hn2 : (if a.length ≤ b.length then a.length else b.length) ≤ b.length := by
    split <;> omega
  have hz := hmc.zero_iff a b _ hn1 hn2
  have hneg := hmc.neg_iff a b _ hn1 hn2
  have hirr : ∀ l : List (Fin 256), ¬ List.Lex (· < ·) l l := fun l => irrefl_of _ l
  rw [string_compare_value mc hmc a b ha hb, lex_take a b]
  by_cases h : mc a b (if a.length ≤ b.length then a.length else b.length) ≠ 0
  · rw [if_pos h]
    have hne : ¬ a.take (if a.length ≤ b.length then a.length else b.length) =
        b.take (if a.length ≤ b.length then a.length else b.length) := fun he => h (hz.mpr he)
    constructor
    · rw [hneg]
      constructor
      · exact fun hl => Or.inl hl
      · rintro (hl | ⟨he, _⟩)
        · exact hl
        · exact absurd he hne
    · constructor
      · intro h0; exact absurd h0 h
      · intro hab
        exfalso
        apply hne
        rw [hab]
  · rw [if_neg h]
    have h0 : mc a b (if a.length ≤ b.length then a.length else b.length) = 0 := by
      by_contra hc; exact h hc
    have he := hz.mp h0
    constructor
    · constructor
      · intro hl
        exact Or.inr ⟨he, by omega⟩
      · rintro (hl | ⟨_, hl⟩)
        · rw [he] at hl; exact absurd hl (hirr _)
        · omega
    · constructor
      · intro hl
        exact take_min_eq a b he (by omega)
      · intro hab
        rw [hab]; omega

/-- The function `memcmp` of this file does what the C standard says. -/
theorem memcmp_isMemcmp : IsMemcmp memcmp := by
  refine ⟨?_, ?_, ?_⟩
  · intro a
    induction a with
    | nil => intro b n; simp [memcmp]
    | cons x a ih =>
      intro b n
      cases b with
      | nil => simp [memcmp]
      | cons y b =>
        cases n with
        | zero => simp [memcmp]
        | succ n =>
          simp only [memcmp]
          split
          · exact ih b n
          · have := x.isLt
            have := y.isLt
            omega
  · intro a
    induction a with
    | nil =>
      intro b n h1 _
      simp only [List.length_nil, Nat.le_zero] at h1
      subst h1
      simp [memcmp]
    | cons x a ih =>
      intro b n h1 h2
      cases b with
      | nil =>
        simp only [List.length_nil, Nat.le_zero] at h2
        subst h2
        simp [memcmp]
      | cons y b =>
        cases n with
        | zero => simp [memcmp]
        | succ n =>
          simp only [memcmp, List.take_succ_cons, List.cons.injEq]
          simp only [List.length_cons] at h1 h2
          by_cases hxy : x = y
          · rw [if_pos hxy, ih b n (by omega) (by omega)]
            simp [hxy]
          · rw [if_neg hxy]
            have hv : x.val ≠ y.val := fun h => hxy (Fin.ext h)
            constructor
            · intro h; omega
            · intro h; exact absurd h.1 hxy
  · intro a
    induction a with
    | nil =>
      intro b n h1 _
      simp only [List.length_nil, Nat.le_zero] at h1
      subst h1
      simp [memcmp]
    | cons x a ih =>
      intro b n h1 h2
      cases b with
      | nil =>
        simp only [List.length_nil, Nat.le_zero] at h2
        subst h2
        simp [memcmp]
      | cons y b =>
        cases n with
        | zero => simp [memcmp]
        | succ n =>
          simp only [memcmp, List.take_succ_cons]
          rw [lex_cons_cons]
          simp only [List.length_cons] at h1 h2
          by_cases hxy : x = y
          · rw [if_pos hxy, ih b n (by omega) (by omega)]
            subst hxy
            simp
          · rw [if_neg hxy]
            have hv : x.val ≠ y.val := fun h => hxy (Fin.ext h)
            constructor
            · intro h
              left
              show x.val < y.val
              omega
            · rintro (h | ⟨h, _⟩)
              · have : x.val < y.val := h
                omega
              · exact absurd h hxy

/-- A string is before each of its proper extensions. -/
theorem lex_append (a c : List (Fin 256)) (hc : c ≠ []) : List.Lex (· < ·) a (a ++ c) := by
  induction a with
  | nil =>
    cases c with
    | nil => exact absurd rfl hc
    | cons y c => exact List.Lex.nil
  | cons x a ih => exact List.Lex.cons ih

/-- C29: with a `memcmp` that does what the C standard says, for byte strings
`a` and `b` shorter than `2^31`, `lzset_string_compare(a, b)` is negative, zero
or positive exactly as `a` is before, equal to or after `b` in the
lexicographic order on unsigned bytes, in which a string is before its proper
extensions; so it is 0 exactly when the two strings have the same length and
bytes, the signs of `compare(a, b)` and `compare(b, a)` are opposite, and the
order is transitive: the comparator is a strict total order. -/
theorem string_compare_order (mc : List (Fin 256) → List (Fin 256) → Nat → Int)
    (hmc : IsMemcmp mc) (a b : List (Fin 256)) (ha : a.length < 2147483648)
    (hb : b.length < 2147483648) :
    (lzset_string_compare mc a b < 0 ↔ List.Lex (· < ·) a b) ∧
    (lzset_string_compare mc a b = 0 ↔ a = b) ∧
    (0 < lzset_string_compare mc a b ↔ List.Lex (· < ·) b a) ∧
    Int.sign (lzset_string_compare mc a b) = - Int.sign (lzset_string_compare mc b a) ∧
    (∀ c, c ≠ [] → b = a ++ c → lzset_string_compare mc a b < 0) ∧
    (∀ c : List (Fin 256), c.length < 2147483648 → lzset_string_compare mc a b < 0 →
      lzset_string_compare mc b c < 0 → lzset_string_compare mc a c < 0) := by
  obtain ⟨h1, h2⟩ := string_compare_sign mc hmc a b ha hb
  obtain ⟨h3, h4⟩ := string_compare_sign mc hmc b a hb ha
  have htri : List.Lex (· < ·) a b ∨ a = b ∨ List.Lex (· < ·) b a := trichotomous_of _ a b
  have hasym : List.Lex (· < ·) a b → ¬ List.Lex (· < ·) b a := fun h => asymm_of _ h
  have hirr : ∀ l : List (Fin 256), ¬ List.Lex (· < ·) l l := fun l => irrefl_of _ l
  have hpos : 0 < lzset_string_compare mc a b ↔ List.Lex (· < ·) b a := by
    constructor
    · intro h
      rcases htri with hl | he | hl
      · have := h1.mpr hl; omega
      · have := h2.mpr he; omega
      · exact hl
    · intro h
      have n1 : ¬ lzset_string_compare mc a b < 0 := fun hh => hasym (h1.mp hh) h
      have n2 : ¬ lzset_string_compare mc a b = 0 := by
        intro hh
        have := h2.mp hh
        rw [this] at h
        exact hirr _ h
      omega
  have hpos2 : 0 < lzset_string_compare mc b a ↔ List.Lex (· < ·) a b := by
    constructor
    · intro h
      rcases htri with hl | he | hl
      · exact hl
      · have := h4.mpr he.symm; omega
      · have := h3.mpr hl; omega
    · intro h
      have n1 : ¬ lzset_string_compare mc b a < 0 := fun hh => hasym h (h3.mp hh)
      have n2 : ¬ lzset_string_compare mc b a = 0 := by
        intro hh
        have := h4.mp hh
        rw [this] at h
        exact hirr _ h
      omega
  refine ⟨h1, h2, hpos, ?_, ?_, ?_⟩
  · rcases htri with hl | he | hl
    · have e1 := h1.mpr hl
      have e2 := hpos2.mpr hl
      rw [Int.sign_eq_neg_one_of_neg e1, Int.sign_eq_one_of_pos e2]
    · have e1 := h2.mpr he
      have e2 := h4.mpr he.symm
      rw [e1, e2]
      rfl
    · have e1 := hpos.mpr hl
      have e2 := h3.mpr hl
      rw [Int.sign_eq_one_of_pos e1, Int.sign_eq_neg_one_of_neg e2]
      rfl
  · intro c hc hbc
    rw [h1, hbc]
    exact lex_append a c hc
  · intro c hcl hab hbc
    have e1 := h1.mp hab
    have e2 := (string_compare_sign mc hmc b c hb hcl).1.mp hbc
    exact (string_compare_sign mc hmc a c ha hcl).1.mpr (trans_of _ e1 e2)

/-- Witness of C29: the strings "ab" and "abc" as bytes, with the `memcmp` of
this file. -/
theorem string_compare_order_witness :
    IsMemcmp memcmp ∧ [(97 : Fin 256), 98].length < 2147483648 ∧
    [(97 : Fin 256), 98, 99].length < 2147483648 ∧
    lzset_string_compare memcmp [97, 98] [97, 98, 99] = -1 ∧
    lzset_string_compare memcmp [97, 98, 99] [97, 98] = 1 ∧
    lzset_string_compare memcmp [97, 200] [97, 98, 99] = 102 ∧
    lzset_string_compare memcmp [97, 98] [97, 98] = 0 ∧
    ((lzset_string_compare memcmp [97, 98] [97, 98, 99] < 0 ↔
      List.Lex (· < ·) [(97 : Fin 256), 98] [97, 98, 99]) ∧
    (lzset_string_compare memcmp [97, 98] [97, 98, 99] = 0 ↔
      [(97 : Fin 256), 98] = [97, 98, 99]) ∧
    (0 < lzset_string_compare memcmp [97, 98] [97, 98, 99] ↔
      List.Lex (· < ·) [(97 : Fin 256), 98, 99] [97, 98]) ∧
    Int.sign (lzset_string_compare memcmp [97, 98] [97, 98, 99]) =
      - Int.sign (lzset_string_compare memcmp [97, 98, 99] [97, 98]) ∧
    (∀ c, c ≠ [] → [(97 : Fin 256), 98, 99] = [97, 98] ++ c →
      lzset_string_compare memcmp [97, 98] [97, 98, 99] < 0) ∧
    (∀ c : List (Fin 256), c.length < 2147483648 →
      lzset_string_compare memcmp [97, 98] [97, 98, 99] < 0 →
      lzset_string_compare memcmp [97, 98, 99] c < 0 →
      lzset_string_compare memcmp [97, 98] c < 0)) :=
  ⟨memcmp_isMemcmp, by decide, by decide, by decide, by decide, by decide, by decide,
   string_compare_order memcmp memcmp_isMemcmp [97, 98] [97, 98, 99] (by decide) (by decide)⟩

/-! ## What the code does when a score is NaN -/

/-- The list holding the single entry (1, 1). -/
theorem reachable_one_one : Reachable (inserted intList 1 1 1) :=
  Reachable.insert intList (inserted intList 1 1 1) 1 1 1 (some 1)
    reachable_intList (by decide) (by decide) rfl (by decide) (by decide)

/-- C1 (what the code does): on the reachable list holding only (1, 1),
`skiplistInsert` of the score NaN with the payload 2 returns a node and gives the
sequence (NaN, 2), (1, 1), which does not ascend; on that list `skiplistInsert`
of (0, 3) returns a node and gives (0, 3), (NaN, 2), (1, 1), and `skiplistInsert`
of (5, 9) returns a node and puts (5, 9) in front of both entries, before the
entry (1, 1) of lower score; and on the list holding (1, 5) and (NaN, 3) the
insertion of (1, 5), an entry that is present, returns a node, not `NULL`, and
stores the entry a second time. -/
theorem insert_nan_breaks_order :
    Reachable (inserted intList 1 1 1) ∧
    (inserted intList 1 1 1).toList = [(1, 1)] ∧
    (skiplistInsert (inserted intList 1 1 1) double.nan 2 1).map
      (fun r => (r.2, r.1.toList, r.1.length)) =
        some (some 2, [(double.nan, 2), (1, 1)], 2) ∧
    ¬ Ascending lzset_int_compare [(double.nan, 2), (1, 1)] ∧
    (skiplistInsert nanList 0 3 1).map (fun r => (r.2, r.1.toList)) =
      some (some 3, [(0, 3), (double.nan, 2), (1, 1)]) ∧
    ¬ Ascending lzset_int_compare [(0, 3), (double.nan, 2), (1, 1)] ∧
    (skiplistInsert nanList 5 9 1).map (fun r => (r.2, r.1.toList)) =
      some (some 3, [(5, 9), (double.nan, 2), (1, 1)]) ∧
    ¬ Ascending lzset_int_compare [(5, 9), (double.nan, 2), (1, 1)] ∧
    (inserted (inserted intList 1 5 1) double.nan 3 1).toList = [(double.nan, 3), (1, 5)] ∧
    (skiplistInsert (inserted (inserted intList 1 5 1) double.nan 3 1) 1 5 1).map
      (fun r => (r.2, r.1.toList)) = some (some 3, [(1, 5), (double.nan, 3), (1, 5)]) :=
  ⟨reachable_one_one, by decide, by decide, by decide, by decide!, by decide, by decide!,
   by decide, by decide, by decide!⟩

/-- C2 (what the code does): after `skiplistInsert` of (1, 1) and of (NaN, 2) on
the empty list of the integer binding the level-0 sequence is (NaN, 2), (1, 1),
which is not ascending; and after `skiplistInsert` of (1, 5), of (NaN, 3) and of
(1, 5) again the list holds two nodes with the score 1 and the payload 5, and is
not ascending either. -/
theorem nan_list_not_ascending :
    nanList.toList = [(double.nan, 2), (1, 1)] ∧
    ¬ Ascending nanList.compare nanList.toList ∧
    nanTwice.toList = [(1, 5), (double.nan, 3), (1, 5)] ∧
    nanTwice.length = 3 ∧
    ¬ Ascending nanTwice.compare nanTwice.toList ∧
    ¬ nanTwice.toList.Pairwise (fun p q => ¬ (p.1 = q.1 ∧ nanTwice.compare p.2 q.2 = 0)) :=
  ⟨by decide, by decide, by decide!, by decide!, by decide!, by decide!⟩

/-- C4 (what the code does): the list built by `skiplistInsert` of (1, 1),
(NaN, 2) and (0, 3) holds (0, 3), (NaN, 2), (1, 1); `skiplistDelete` of the score
1 with the payload 1, the key of its third node, returns 0 and leaves the three
nodes in place. -/
theorem delete_misses_behind_nan :
    nanThree.toList = [(0, 3), (double.nan, 2), (1, 1)] ∧
    ((1 : double), (1 : Int)) ∈ nanThree.toList ∧
    nanThree.compare 1 1 = 0 ∧
    (skiplistDelete nanThree 1 1).map (fun r => (r.2, r.1.toList, r.1.length)) =
      some (false, [(0, 3), (double.nan, 2), (1, 1)], 3) :=
  ⟨by decide!, by decide!, by decide, by decide!⟩

/-- C12 (what the code does): on the list holding (0, 3), (NaN, 2), (1, 1), two
nodes have a score at most 1, and `skiplistGetScoreRank` of the boundary 1, not
exclusive, returns 1: the descent stops in front of the node of score NaN.  On
the list holding (NaN, 2), (1, 1) it returns 0 for the boundary 1 and for the
exclusive boundary 5, where one node lies below the boundary. -/
theorem getScoreRank_stops_at_nan :
    nanThree.toList = [(0, 3), (double.nan, 2), (1, 1)] ∧
    nanThree.toList.countP (fun e => decide (e.1 ≤ 1)) = 2 ∧
    skiplistGetScoreRank nanThree 1 false = some 1 ∧
    nanList.toList = [(double.nan, 2), (1, 1)] ∧
    nanList.toList.countP (fun e => decide (e.1 ≤ 1)) = 1 ∧
    skiplistGetScoreRank nanList 1 false = some 0 ∧
    nanList.toList.countP (fun e => decide (e.1 < 5)) = 1 ∧
    skiplistGetScoreRank nanList 5 true = some 0 :=
  ⟨by decide!, by decide!, by decide!, by decide, by decide, by decide, by decide, by decide⟩

/-- C18 (what the code does): on the list holding (NaN, 2), (1, 1) the node
(1, 1) has its score between 0 and 5, and `get_range_by_score(0, 5)` returns the
empty table: `skiplistIsInRange` compares the score NaN of the first node with
the upper bound and answers no, so that `skiplistFirstInRange` returns `NULL`.
On the list holding (0, 3), (NaN, 2), (1, 1) the query from 0 to 5 returns the
payload of the node of score NaN between the two others, and the query from 5
to 0 returns the payload 3 alone. -/
theorem range_by_score_misses_behind_nan :
    nanList.toList = [(double.nan, 2), (1, 1)] ∧
    nanList.toList.filter (fun e => decide ((0 : double) ≤ e.1) && decide (e.1 ≤ (5 : double))) =
      [(1, 1)] ∧
    skiplistIsInRange nanList 0 5 false false = false ∧
    skiplistFirstInRange nanList 0 5 false false = some none ∧
    lzset_get_range_by_score nanList 0 5 = some [] ∧
    nanThree.toList = [(0, 3), (double.nan, 2), (1, 1)] ∧
    lzset_get_range_by_score nanThree 0 5 = some [(1, 3), (2, 2), (3, 1)] ∧
    lzset_get_range_by_score nanThree 5 0 = some [(1, 3)] :=
  ⟨by decide, by decide, by decide, by decide, by decide, by decide!, by decide!, by decide!⟩

/-- C26 (what the code does): the list holding (NaN, 2), (1, 1), whose nodes are
at the addresses 2 and 1, holds a node of score 1 and payload 1, the
precondition of `skiplistUpdateScore(sl, 1, 1, newscore)`.  The descent stops at
the header, and the node the function reaches and works on is the node at
address 2, of score NaN and payload 2: with the new score 0 it writes 0 into
that node and returns it, with the new score 3 it removes that node and inserts
its payload 2 again with the score 3.  In both cases the node (1, 1) keeps its
score: the assertion `curscore == x->score && sl->compare(x->obj,obj) == 0` does
not hold of the node reached. -/
theorem updateScore_reaches_nan_node :
    nanList.toList = [(double.nan, 2), (1, 1)] ∧ nanList.chain = [2, 1] ∧
    ((1 : double), (1 : Int)) ∈ nanList.toList ∧ nanList.compare 1 1 = 0 ∧
    (nanList.mem 2).score = double.nan ∧ (nanList.mem 2).obj = some 2 ∧
    double.eq 1 (nanList.mem 2).score = false ∧ nanList.compare 2 1 ≠ 0 ∧
    (skiplistUpdateScore nanList 1 1 0 1).map (fun r => (r.2, r.1.chain, r.1.toList)) =
      some (some 2, [2, 1], [(0, 2), (1, 1)]) ∧
    (skiplistUpdateScore nanList 1 1 3 1).map (fun r => (r.2, r.1.chain, r.1.toList)) =
      some (some 3, [1, 3], [(1, 1), (3, 2)]) :=
  ⟨by decide, by decide, by decide, by decide, by decide, by decide, by decide, by decide,
   by decide!, by decide!⟩

end Lzset
